import Mathlib

/-!
# The sealing worker of `miner/worker.go`

A shallow embedding of the block-building worker: the environment of a block
under construction, the interruptible transaction executor
(`commitTransaction`, `commitTransactions`, `commitBundle`), the bundle merge,
the round orchestration (`fillTransactions`, `commitWork`, `commit`), the
sealing loop (`taskLoop`), the result loop, the work loop (`newWorkLoop`) and
the making and starting of a worker (`newWorker`, `start`).

Conventions of the embedding.

* Go values are Lean values: a deep copy is the identity on values, a state
  snapshot followed by `RevertToSnapshot` gives back the value the state had
  when the snapshot was taken.
* Hashes and addresses are natural numbers, `0` being the zero value
  `common.Hash{}` / `common.Address{}`.
* `uint64` quantities are natural numbers; where the source subtracts, the
  embedding reduces modulo `2^64`.  `*big.Int` quantities are integers.
* Code that lives outside `miner/worker.go` (the EVM, the consensus engine, the
  transaction pool, the chain, RLP) is a field of the record `Ext`.
* A Go panic is the constructor `Ret.panic`.
* Atomic flags and contexts that other goroutines write are observation
  streams indexed by a logical clock `now`, one tick per loop iteration.
-/

namespace Miner

/-! ## Data model -/

/-- Contents of `types.Log`. -/
structure Log where
  Address : Nat
  Topics : List Nat
  Data : List Nat
  BlockNumber : Nat
  TxHash : Nat
  TxIndex : Nat
  BlockHash : Nat
  Index : Nat
  deriving DecidableEq, Repr

/-- Contents of `types.Receipt`. -/
structure Receipt where
  Status : Nat
  CumulativeGasUsed : Nat
  TxHash : Nat
  GasUsed : Nat
  Logs : List Log
  BlockHash : Nat
  BlockNumber : Nat
  TransactionIndex : Nat
  deriving DecidableEq, Repr

/-- Conditional-transaction bounds (`types.OptionsAA4337`). -/
structure OptionsAA4337 where
  BlockNumberMin : Option Nat
  BlockNumberMax : Option Nat
  TimestampMin : Option Nat
  TimestampMax : Option Nat
  KnownAccounts : List (Nat × Nat)
  deriving DecidableEq, Repr

/-- The parts of `types.Transaction` the worker looks at. -/
structure Transaction where
  Hash : Nat
  Nonce : Nat
  Gas : Nat
  GasFeeCap : Int
  GasTipCap : Int
  TxType : Nat
  Protected : Bool
  Options : Option OptionsAA4337
  deriving DecidableEq, Repr

/-- A `txpool.LazyTransaction`; `Tx` is what `Resolve()` returns (`none` when
the transaction has been evicted from the pool). -/
structure LazyTransaction where
  Hash : Nat
  Tx : Option Transaction
  GasFeeCap : Int
  GasTipCap : Int
  deriving DecidableEq, Repr

/-- Modelled from the spec: `transactionsByPriceAndNonce` (miner/ordering.go) is
not part of the sources at hand.  The spec gives its contract: `Peek` returns
the best candidate, `Shift` advances to the next transaction of the same
sender, `Pop` drops the entire sender.  An iterator is represented by its
unfolding: what `Peek` returns now together with the iterators that `Shift`
and `Pop` lead to.  Every finite iterator, whatever its ordering key, is such
a tree. -/
inductive transactionsByPriceAndNonce where
  | done : transactionsByPriceAndNonce
  | next (ltx : LazyTransaction) (shift pop : transactionsByPriceAndNonce) :
      transactionsByPriceAndNonce
  deriving Repr

namespace transactionsByPriceAndNonce

/-- The best candidate, `none` when the iterator is exhausted. -/
def Peek : transactionsByPriceAndNonce → Option LazyTransaction
  | done => none
  | next ltx _ _ => some ltx

/-- Move on to the next transaction of the same sender. -/
def Shift : transactionsByPriceAndNonce → transactionsByPriceAndNonce
  | done => done
  | next _ s _ => s

/-- Drop the sender of the best candidate. -/
def Pop : transactionsByPriceAndNonce → transactionsByPriceAndNonce
  | done => done
  | next _ _ p => p

end transactionsByPriceAndNonce

/-- A Go byte slice: its elements (`bytes`) and the rest of its backing array
behind them (`spare`), so that `cap = len + len spare`. -/
structure ByteSlice where
  bytes : List Nat
  spare : List Nat
  deriving DecidableEq, Repr

/-- The backing array of a slice, from the first element of the slice on. -/
def ByteSlice.array (s : ByteSlice) : List Nat := s.bytes ++ s.spare

/-- Go `append(s, xs...)`: in place when the capacity suffices, into a fresh
zeroed array of the capacity chosen by the runtime (`grow`) otherwise. -/
def ByteSlice.goAppend (grow : Nat → Nat → Nat) (s : ByteSlice) (xs : List Nat) : ByteSlice :=
  if xs.length ≤ s.spare.length then
    { bytes := s.bytes ++ xs, spare := s.spare.drop xs.length }
  else
    let needed := s.bytes.length + xs.length
    { bytes := s.bytes ++ xs
      spare := List.replicate (max (grow s.array.length needed) needed - needed) 0 }

/-- The parts of `types.Header` the worker reads or writes. -/
structure Header where
  ParentHash : Nat
  Coinbase : Nat
  Root : Nat
  Number : Nat
  GasLimit : Nat
  GasUsed : Nat
  Time : Nat
  Extra : ByteSlice
  MixDigest : Nat
  BaseFee : Option Nat
  deriving DecidableEq, Repr

/-- A `types.Block`: header and transactions. -/
structure Block where
  header : Header
  transactions : List Transaction
  deriving DecidableEq, Repr

/-- Handle of a speculative state (`*state.StateDB`).  Everything done with a
state is external to the worker and reached through `Ext`. -/
structure StateDB where
  id : Nat
  deriving DecidableEq, Repr

/-- Errors that travel through the worker.  `errors.Is` against a sentinel is
equality of constructors. -/
inductive Err where
  | errBlockInterruptedByNewHead
  | errBlockInterruptedByRecommit
  | errBlockInterruptedByTimeout
  | errCouldNotApplyTransaction
  | errBundleInterrupted
  | ErrGasLimitReached
  | ErrNonceTooLow
  | ErrNonceTooHigh
  | ErrTxTypeNotSupported
  | ErrFeeCapVeryHigh
  | ErrTipVeryHigh
  | ErrTipAboveFeeCap
  | errMissingParent
  | errInvalidTimestamp (parent given : Nat)
  | errFailedTx
  | errMinerClosed
  | other (code : Nat)
  deriving DecidableEq, Repr

/-- What a Go call yields: a value, or a panic. -/
inductive Ret (α : Type) where
  | val (a : α) : Ret α
  | panic : Ret α
  deriving Repr

/-- The `environment` of a block under construction.  `gasPool` is a pointer
that the source tests against nil; `profit` is allocated by `makeEnv`, the only
place where environments are made, and is held by value. -/
structure environment where
  signer : Nat
  state : StateDB
  tcount : Nat
  gasPool : Option Nat
  coinbase : Nat
  profit : Int
  header : Header
  txs : List Transaction
  receipts : List Receipt
  depsMVFullWriteList : List (List Nat)
  mvReadMapList : List (List Nat)
  deriving DecidableEq, Repr

/-- A sealing `task` handed from the build pipeline to `taskLoop`. -/
structure task where
  receipts : List Receipt
  state : StateDB
  block : Block
  profit : Int
  isFlashbots : Bool
  worker : Nat
  deriving DecidableEq, Repr

/-- Signal `commitInterruptNone`. -/
def commitInterruptNone : Int := 0
/-- Signal `commitInterruptNewHead`. -/
def commitInterruptNewHead : Int := 1
/-- Signal `commitInterruptResubmit`. -/
def commitInterruptResubmit : Int := 2
/-- Signal `commitInterruptTimeout`. -/
def commitInterruptTimeout : Int := 3

/-- An `intervalAdjust`; the `float64` ratio is held as an exact rational. -/
structure intervalAdjust where
  ratio : ℚ
  inc : Bool
  deriving DecidableEq, Repr

/-- Result of `core.ApplyTransaction`: on success the receipt together with the
state, the gas pool and the header's used gas it leaves behind. -/
inductive ApplyResult where
  | ok (receipt : Receipt) (state : StateDB) (gasPool : Nat) (usedGas : Nat)
  | err (e : Err)

/-- Contents of `types.MevBundle`. -/
structure MevBundle where
  Txs : List Transaction
  BlockNumber : Nat
  MinTimestamp : Nat
  MaxTimestamp : Nat
  RevertingTxHashes : List Nat
  deriving DecidableEq, Repr

/-- A `simulatedBundle`; the zero value `simulatedBundle{}` has every field
zero. -/
structure simulatedBundle where
  mevGasPrice : Int
  totalEth : Int
  ethSentToCoinbase : Int
  totalGasUsed : Nat
  originalBundle : MevBundle
  deriving DecidableEq, Repr

/-- Contents of `types.BlockExtraData`; `TxDependency = none` is the nil
matrix. -/
structure BlockExtraData where
  ValidatorBytes : List Nat
  TxDependency : Option (List (List Nat))
  deriving DecidableEq, Repr

/-- A `blockstm.TxDep` message. -/
structure TxDep where
  Index : Nat
  ReadList : List Nat
  FullWriteList : List (List Nat)
  deriving DecidableEq, Repr

/-- The dependency map `map[int]map[int]bool`: for each transaction index the
keys of its inner map, in the order a `range` over it yields them. -/
abbrev DepsMap := List (Nat × List Nat)

/-- An interrupt flag (`*atomic.Int32`, nil allowed): the value each `Load`
observes, by logical time. -/
abbrev InterruptFlag := Option (Nat → Int)

/-- An interrupt context (`context.Context`, nil allowed): whether `Done()` is
closed, by logical time.  `context.Background()` is never done. -/
abbrev InterruptCtx := Option (Nat → Bool)

/-- The context `context.Background()`. -/
def backgroundCtx : InterruptCtx := some (fun _ => false)

/-- Code outside `miner/worker.go` that the worker calls, and constants of other
packages. -/
structure Ext where
  /-- Constant `params.TxGas`. -/
  TxGas : Nat
  /-- Constant `types.ExtraVanityLength`. -/
  ExtraVanityLength : Nat
  /-- Constant `types.ExtraSealLength`. -/
  ExtraSealLength : Nat
  /-- Function `core.ApplyTransaction` run with the given coinbase, gas pool,
  state, header and used-gas counter at time `now` under the given interrupt
  context. -/
  ApplyTransaction : (coinbase gasPool : Nat) → StateDB → Header → Transaction →
    (usedGas : Nat) → InterruptCtx → (now : Nat) → ApplyResult
  /-- Method `Transaction.EffectiveGasTip(baseFee)`: the tip and the error. -/
  EffectiveGasTip : Transaction → Option Nat → Int × Option Err
  /-- Function `types.Sender(signer, tx)`. -/
  Sender : (signer : Nat) → Transaction → Nat × Option Err
  /-- Function `types.MakeSigner(config, number, time)`. -/
  MakeSigner : (number time : Nat) → Nat
  /-- Method `StateDB.SetTxContext(hash, index)`. -/
  SetTxContext : StateDB → (hash index : Nat) → StateDB
  /-- Method `StateDB.AddEmptyMVHashMap()`. -/
  AddEmptyMVHashMap : StateDB → StateDB
  /-- Method `StateDB.ClearReadMap()`. -/
  ClearReadMap : StateDB → StateDB
  /-- Method `StateDB.ClearWriteMap()`. -/
  ClearWriteMap : StateDB → StateDB
  /-- Method `StateDB.MVFullWriteList()`. -/
  MVFullWriteList : StateDB → List Nat
  /-- Method `StateDB.MVReadMap()`: the keys of the read map. -/
  MVReadMap : StateDB → List Nat
  /-- Method `StateDB.MVReadList()`. -/
  MVReadList : StateDB → List Nat
  /-- Method `StateDB.ValidateKnownAccounts`: `true` when it returns no error. -/
  ValidateKnownAccounts : StateDB → List (Nat × Nat) → Bool
  /-- Method `StateDB.GetBalance(addr)`. -/
  GetBalance : StateDB → Nat → Int
  /-- Method `Header.ValidateBlockNumberOptions4337`: `true` when no error. -/
  ValidateBlockNumberOptions4337 : Header → Option Nat → Option Nat → Bool
  /-- Method `Header.ValidateTimestampOptions4337`: `true` when no error. -/
  ValidateTimestampOptions4337 : Header → Option Nat → Option Nat → Bool
  /-- Chain rule `chainConfig.IsCancun(number)`. -/
  IsCancun : Nat → Bool
  /-- Chain rule `chainConfig.IsEIP155(number)`. -/
  IsEIP155 : Nat → Bool
  /-- Chain rule `chainConfig.IsLondon(number)`. -/
  IsLondon : Nat → Bool
  /-- Address `chainConfig.Bor.CalculateBurntContract(number)`. -/
  CalculateBurntContract : Nat → Nat
  /-- Function `blockstm.NewSubpathKey(addr, path)`. -/
  NewSubpathKey : (addr path : Nat) → Nat
  /-- Constant `state.BalancePath`. -/
  BalancePath : Nat
  /-- Function `blockstm.UpdateDeps`. -/
  UpdateDeps : DepsMap → TxDep → DepsMap
  /-- Function `rlp.DecodeBytes` into a `types.BlockExtraData`. -/
  DecodeBlockExtraData : List Nat → Except Err BlockExtraData
  /-- Function `rlp.EncodeToBytes` of a `types.BlockExtraData`. -/
  EncodeBlockExtraData : BlockExtraData → Except Err (List Nat)
  /-- Capacity the Go runtime gives a slice of capacity `oldCap` that has to
  grow to hold `needed` elements. -/
  growslice : (oldCap needed : Nat) → Nat
  /-- Method `BlockChain.StateAt(root)`. -/
  StateAt : Nat → Except Err StateDB
  /-- Constant `types.ReceiptStatusFailed`. -/
  ReceiptStatusFailed : Nat
  /-- Method `TxPool.Nonce(addr)`. -/
  PoolNonce : Nat → Nat
  /-- Method `TxPool.MevBundles(number, time)`. -/
  MevBundles : (number time : Nat) → Except Err (List MevBundle)
  /-- Method `TxPool.Pending(true)`: the pending transactions by account. -/
  Pending : List (Nat × List LazyTransaction)
  /-- Method `TxPool.Locals()`. -/
  Locals : List Nat
  /-- Function `newTransactionsByPriceAndNonce(signer, txs, baseFee)`. -/
  newTransactionsByPriceAndNonce : (signer : Nat) → List (Nat × List LazyTransaction) →
    Option Nat → transactionsByPriceAndNonce
  /-- Method `BlockChain.CurrentBlock()`: the header of the chain head. -/
  CurrentBlock : Header
  /-- Method `Header.Hash()`. -/
  HeaderHash : Header → Nat
  /-- Method `BlockChain.GetBlockByHash(hash)`, nil when unknown. -/
  GetBlockByHash : Nat → Option Block
  /-- Function `core.CalcGasLimit(parentGasLimit, desiredLimit)`. -/
  CalcGasLimit : Nat → Nat → Nat
  /-- Function `eip1559.CalcBaseFee(config, parent)`. -/
  CalcBaseFee : Header → Nat
  /-- Method `chainConfig.ElasticityMultiplier()`. -/
  ElasticityMultiplier : Nat
  /-- Method `engine.Prepare(chain, header)`: the header it leaves, or an error. -/
  Prepare : Header → Except Err Header
  /-- Method `engine.FinalizeAndAssemble`: the block and the state it leaves, or
  an error. -/
  FinalizeAndAssemble : Header → StateDB → List Transaction → List Receipt →
    (withdrawals : List Nat) → Except Err (Block × StateDB)
  /-- Method `BlockChain.GetTd(hash, number)`, nil allowed. -/
  GetTd : (hash number : Nat) → Option Int
  /-- Field `chainConfig.TerminalTotalDifficulty`, nil allowed. -/
  TerminalTotalDifficulty : Option Int
  /-- Method `engine.SealHash(header)`. -/
  SealHash : Header → Nat
  /-- Method `engine.Seal` called for a block with a stop channel: the error it
  returns, nil allowed. -/
  Seal : Block → (stopCh : Nat) → Option Err
  /-- Method `BlockChain.HasBlock(hash, number)`. -/
  HasBlock : (hash number : Nat) → Bool
  /-- Method `BlockChain.GetBlockByNumber(number)`, nil when there is none. -/
  GetBlockByNumber : Nat → Option Block
  /-- Method `engine.Author(header)`; the error is ignored where it is called. -/
  Author : Header → Nat
  /-- Method `BlockChain.WriteBlockAndSetHead` called with a block, its
  receipts, its logs and its state: the error it returns, nil allowed. -/
  WriteBlockAndSetHead : Block → List Receipt → List Log → StateDB → Option Err

/-- What a build round makes visible outside the worker, in order. -/
inductive Event where
  /-- A send on `resubmitAdjustCh`. -/
  | adjust (a : intervalAdjust)
  /-- A `pendingLogsFeed.Send`. -/
  | pendingLogs (logs : List Log)
  /-- A send on `taskCh`. -/
  | taskSent (t : task)
  /-- The select at the task send took the `exitCh` branch. -/
  | workerExited
  /-- A call of `environment.discard`. -/
  | discard (env : environment)
  /-- A call of `updateSnapshot`. -/
  | updateSnapshot (env : environment)
  /-- A call of the `fullTaskHook`. -/
  | fullTaskHook
  deriving DecidableEq, Repr

/-! ## Environments -/

/-- Function `signalToErr`: the error of an interruption signal; `panic` on any
signal that is not one of the three interruptions. -/
def signalToErr (signal : Int) : Ret Err :=
  if signal = commitInterruptNewHead then .val .errBlockInterruptedByNewHead
  else if signal = commitInterruptResubmit then .val .errBlockInterruptedByRecommit
  else if signal = commitInterruptTimeout then .val .errBlockInterruptedByTimeout
  else .panic

/-- Function `copyReceipts`: a copy of every receipt, in order. -/
def copyReceipts (receipts : List Receipt) : List Receipt :=
  receipts.map fun l => l

/-- Method `environment.copy`. -/
def environment.copy (env : environment) : environment :=
  { signer := env.signer
    state := env.state
    tcount := env.tcount
    coinbase := env.coinbase
    header := env.header
    receipts := copyReceipts env.receipts
    depsMVFullWriteList := env.depsMVFullWriteList
    mvReadMapList := env.mvReadMapList
    profit := env.profit
    gasPool := env.gasPool
    txs := env.txs }

/-- The first lines of `commitBundle` and of `commitTransactions`: a nil gas
pool is replaced by a pool holding the gas limit of the header. -/
def environment.withGasPool (env : environment) : environment :=
  match env.gasPool with
  | none => { env with gasPool := some env.header.GasLimit }
  | some _ => env

/-- Method `worker.makeEnv`: the environment of a fresh sealing block on top of
`parent`. -/
def makeEnv (X : Ext) (parent header : Header) (coinbase : Nat) : Except Err environment :=
  match X.StateAt parent.Root with
  | .error err => .error err
  | .ok state =>
    .ok { signer := X.MakeSigner header.Number header.Time
          state := state
          coinbase := coinbase
          header := header
          profit := 0
          tcount := 0
          gasPool := some header.GasLimit
          txs := []
          receipts := []
          depsMVFullWriteList := []
          mvReadMapList := [] }

/-- Method `worker.commitTransaction`: run one transaction on the environment.
On failure the state and the gas pool are put back; on success the
transaction and its receipt are appended and the profit grows by
`GasUsed * tip`.  `tcount` is left to the caller. -/
def commitTransaction (X : Ext) (env : environment) (tx : Transaction)
    (interruptCtx : InterruptCtx) (now : Nat) :
    Ret (environment × Except Err (List Log)) :=
  match env.gasPool with
  | none => .panic
  | some gp =>
    let snap := env.state
    match X.EffectiveGasTip tx env.header.BaseFee with
    | (_, some err) => .val (env, .error err)
    | (gasPrice, none) =>
      match X.ApplyTransaction env.coinbase gp env.state env.header tx env.header.GasUsed
          interruptCtx now with
      | .err err => .val ({ env with state := snap, gasPool := some gp }, .error err)
      | .ok receipt state gasPool usedGas =>
        .val ({ env with
                  state := state
                  gasPool := some gasPool
                  header := { env.header with GasUsed := usedGas }
                  txs := env.txs ++ [tx]
                  receipts := env.receipts ++ [receipt]
                  profit := env.profit + (receipt.GasUsed : Int) * gasPrice },
              .ok receipt.Logs)

/-- The fields of `worker` that a build round reads or writes. -/
structure worker where
  /-- Flag `running`. -/
  running : Bool
  /-- Flag `syncing`. -/
  syncing : Bool
  /-- Field `coinbase`, the etherbase. -/
  coinbase : Nat
  /-- Field `extra`. -/
  extra : ByteSlice
  /-- Field `config.GasCeil`. -/
  gasCeil : Nat
  /-- Field `interruptCommitFlag`. -/
  interruptCommitFlag : Bool
  /-- Flag `noempty`. -/
  noempty : Bool
  /-- Field `flashbots.isFlashbots`. -/
  isFlashbots : Bool
  /-- Field `flashbots.maxMergedBundles`. -/
  maxMergedBundles : Nat
  /-- Field `current`, nil allowed. -/
  current : Option environment
  /-- Whether `fullTaskHook` is set. -/
  hasFullTaskHook : Bool
  /-- Whether the select at the task send takes the `exitCh` branch. -/
  exitSelected : Bool
  deriving DecidableEq, Repr

/-- Whether `Done()` of the context is closed at time `now`; a nil context is
never polled. -/
def ctxFired (interruptCtx : InterruptCtx) (now : Nat) : Bool :=
  match interruptCtx with
  | none => false
  | some d => d now

/-- The ratio sent with a positive interval adjustment (the same lines in
`commitBundle` and `commitWork`): used gas over gas limit, with the `uint64`
subtraction of the source, and never below `0.1`.  The `float64` arithmetic is
taken as exact; for a gas limit of zero, where the float is NaN or infinite,
the rational quotient is zero. -/
def usedGasRatio (gasLimit gas : Nat) : ℚ :=
  let r : ℚ := (((gasLimit + 2 ^ 64 - gas) % 2 ^ 64 : Nat) : ℚ) / (gasLimit : ℚ)
  if r < 1 / 10 then 1 / 10 else r

/-- How a commit call ends: the environment it leaves, the clock, what it
sent, and the error it returns (`none` is nil). -/
structure CommitResult where
  env : environment
  now : Nat
  events : List Event
  err : Option Err
  deriving DecidableEq, Repr

/-- How the loop of `commitBundle` is left: `ret = some _` when the function
returned from inside the loop. -/
structure BundleLoopEnd where
  env : environment
  now : Nat
  events : List Event
  logs : List Log
  ret : Option Err

/-- The `mainloop` of `commitBundle` over the transactions of the bundle. -/
def commitBundleLoop (X : Ext) (interrupt : InterruptFlag) (interruptCtx : InterruptCtx)
    (gasLimit : Nat) :
    List Transaction → environment → Nat → List Log → Ret BundleLoopEnd
  | [], env, now, logs => .val ⟨env, now, [], logs, none⟩
  | tx :: rest, env, now, logs =>
    if ctxFired interruptCtx now then
      .val ⟨env, now, [], logs, none⟩
    else
      let signal : Int := match interrupt with
        | none => commitInterruptNone
        | some load => load now
      if signal ≠ commitInterruptNone then
        let again : Int := match interrupt with
          | none => commitInterruptNone
          | some load => load (now + 1)
        if again = commitInterruptResubmit then
          match env.gasPool with
          | none => .panic
          | some gas =>
            .val ⟨env, now + 1, [.adjust { ratio := usedGasRatio gasLimit gas, inc := true }],
              logs, some .errBundleInterrupted⟩
        else
          .val ⟨env, now + 1, [], logs, some .errBundleInterrupted⟩
      else
        match env.gasPool with
        | none => .panic
        | some gas =>
          if gas < X.TxGas then
            .val ⟨env, now, [], logs, none⟩
          else if tx.Protected && !X.IsEIP155 env.header.Number then
            .val ⟨env, now, [], logs, some .errCouldNotApplyTransaction⟩
          else
            let env1 := { env with state := X.SetTxContext env.state tx.Hash env.tcount }
            match commitTransaction X env1 tx interruptCtx now with
            | .panic => .panic
            | .val (env2, .error _) =>
              .val ⟨env2, now, [], logs, some .errCouldNotApplyTransaction⟩
            | .val (env2, .ok txLogs) =>
              commitBundleLoop X interrupt interruptCtx gasLimit rest
                { env2 with tcount := env2.tcount + 1 } (now + 1) (logs ++ txLogs)

/-- Method `worker.commitBundle`: apply the transactions of a merged bundle. -/
def commitBundle (X : Ext) (w : worker) (env : environment) (txs : List Transaction)
    (interrupt : InterruptFlag) (interruptCtx : InterruptCtx) (now : Nat) : Ret CommitResult :=
  let gasLimit := env.header.GasLimit
  let env0 := env.withGasPool
  match commitBundleLoop X interrupt interruptCtx gasLimit txs env0 now [] with
  | .panic => .panic
  | .val ⟨env1, now1, events, _, some err⟩ => .val ⟨env1, now1, events, some err⟩
  | .val ⟨env1, now1, events, logs, none⟩ =>
    let sent := if !w.running && 0 < logs.length then [Event.pendingLogs logs] else []
    let adj := match interrupt with
      | none => []
      | some _ => [Event.adjust { ratio := 0, inc := false }]
    .val ⟨env1, now1, events ++ sent ++ adj, none⟩

/-- How the loop of `commitTransactions` is left: `ret = some _` when the
function returned from inside the loop. -/
structure TxLoopEnd where
  env : environment
  now : Nat
  logs : List Log
  deps : DepsMap
  ret : Option Err

/-- The checks at the top of an iteration of `commitTransactions`: either the
loop is left, or the iteration goes on with the environment and the gas it
found in the pool. -/
inductive IterHead where
  | leave (r : Ret TxLoopEnd)
  | go (env : environment) (gas : Nat)

/-- The top of an iteration of the `mainloop` of `commitTransactions`: the
interruption signal, the deadline context, the gas left. -/
def commitTransactionsHead (X : Ext) (capture : Bool) (interrupt : InterruptFlag)
    (interruptCtx : InterruptCtx) (env : environment) (now : Nat) (logs : List Log)
    (deps : DepsMap) : IterHead :=
  let signal : Int := match interrupt with
    | none => commitInterruptNone
    | some load => load now
  if signal ≠ commitInterruptNone then
    match signalToErr signal with
    | .panic => .leave .panic
    | .val err => .leave (.val ⟨env, now, logs, deps, some err⟩)
  else
    let env1 :=
      if interruptCtx.isSome && capture then
        { env with state := X.AddEmptyMVHashMap env.state }
      else env
    if ctxFired interruptCtx now then
      .leave (.val ⟨env1, now, logs, deps, none⟩)
    else
      match env1.gasPool with
      | none => .leave .panic
      | some gas =>
        if gas < X.TxGas then .leave (.val ⟨env1, now, logs, deps, none⟩)
        else .go env1 gas

/-- Whether a conditional transaction is dropped: some bound of its options is
violated for the header or the state. -/
def conditionViolated (X : Ext) (env : environment) (tx : Transaction) : Bool :=
  match tx.Options with
  | none => false
  | some options =>
    if !X.ValidateBlockNumberOptions4337 env.header options.BlockNumberMin
        options.BlockNumberMax then true
    else if !X.ValidateTimestampOptions4337 env.header options.TimestampMin
        options.TimestampMax then true
    else !X.ValidateKnownAccounts env.state options.KnownAccounts

/-- The end of an iteration of `commitTransactions`, when dependencies are
captured: the read and write maps of the state are cleared. -/
def clearMaps (X : Ext) (capture : Bool) (env : environment) : environment :=
  if capture then { env with state := X.ClearWriteMap (X.ClearReadMap env.state) } else env

/-- The success case of the switch in `commitTransactions`: count the
transaction and, when dependencies are captured, record its read and write
sets and feed the dependency collector. -/
def recordSuccess (X : Ext) (capture : Bool) (env : environment) (deps : DepsMap) :
    environment × DepsMap :=
  let env1 := { env with tcount := env.tcount + 1 }
  if capture then
    let env2 := { env1 with
      depsMVFullWriteList := env1.depsMVFullWriteList ++ [X.MVFullWriteList env1.state]
      mvReadMapList := env1.mvReadMapList ++ [X.MVReadMap env1.state] }
    let temp : TxDep :=
      { Index := env2.tcount - 1
        ReadList := X.MVReadList env2.state
        FullWriteList := env2.depsMVFullWriteList }
    (env2, X.UpdateDeps deps temp)
  else (env1, deps)

/-- The `mainloop` of `commitTransactions` over the iterator. -/
def commitTransactionsLoop (X : Ext) (capture : Bool) (interrupt : InterruptFlag)
    (interruptCtx : InterruptCtx) :
    transactionsByPriceAndNonce → environment → Nat → List Log → DepsMap → Ret TxLoopEnd
  | .done, env, now, logs, deps =>
    match commitTransactionsHead X capture interrupt interruptCtx env now logs deps with
    | .leave r => r
    | .go env1 _ => .val ⟨env1, now, logs, deps, none⟩
  | .next ltx shift pop, env, now, logs, deps =>
    match commitTransactionsHead X capture interrupt interruptCtx env now logs deps with
    | .leave r => r
    | .go env1 _ =>
      match ltx.Tx with
      | none =>
        commitTransactionsLoop X capture interrupt interruptCtx pop env1 (now + 1) logs deps
      | some tx =>
        if conditionViolated X env1 tx then
          commitTransactionsLoop X capture interrupt interruptCtx pop env1 (now + 1) logs deps
        else if tx.Protected && !X.IsEIP155 env1.header.Number then
          commitTransactionsLoop X capture interrupt interruptCtx pop env1 (now + 1) logs deps
        else
          let env2 := { env1 with state := X.SetTxContext env1.state tx.Hash env1.tcount }
          match commitTransaction X env2 tx interruptCtx now with
          | .panic => .panic
          | .val (env3, .error .ErrNonceTooLow) =>
            commitTransactionsLoop X capture interrupt interruptCtx shift
              (clearMaps X capture env3) (now + 1) logs deps
          | .val (env3, .ok txLogs) =>
            let r := recordSuccess X capture env3 deps
            commitTransactionsLoop X capture interrupt interruptCtx shift
              (clearMaps X capture r.1) (now + 1) (logs ++ txLogs) r.2
          | .val (env3, .error _) =>
            commitTransactionsLoop X capture interrupt interruptCtx pop
              (clearMaps X capture env3) (now + 1) logs deps

/-- The keys of `deps[i]`, in iteration order; empty when the row is absent. -/
def depsRow (deps : DepsMap) (i : Nat) : List Nat :=
  match deps.lookup i with
  | none => []
  | some keys => keys

/-- Rows `i, i+1, ...` of `tempDeps`, given the read maps of the transactions
`i-1, i, ...`; `none` when one of these transactions read the balance of the
coinbase or of the burn contract (the `delayFlag` is cleared). -/
def tempDepsFrom (X : Ext) (env : environment) (deps : DepsMap) :
    List (List Nat) → Nat → Option (List (List Nat))
  | [], _ => some []
  | reads :: rest, i =>
    if X.NewSubpathKey env.coinbase X.BalancePath ∈ reads
        ∨ X.NewSubpathKey (X.CalculateBurntContract env.header.Number) X.BalancePath ∈ reads then
      none
    else
      match tempDepsFrom X env deps rest (i + 1) with
      | none => none
      | some rows => some (depsRow deps i :: rows)

/-- The block of `commitTransactions` that follows the loop in a capturing
build: the dependency matrix goes into `header.Extra` between the vanity and
the seal.  The slices `tempVanity` and `tempSeal` share the backing array of
the old `Extra`, and the first `append` may write into that array. -/
def commitTransactionsExtra (X : Ext) (env : environment) (deps : DepsMap) :
    Ret (environment × Option Err) :=
  let extra := env.header.Extra
  let len := extra.bytes.length
  if extra.array.length < X.ExtraVanityLength then .panic
  else if len < X.ExtraSealLength then .panic
  else
    let tempVanity : ByteSlice :=
      { bytes := extra.array.take X.ExtraVanityLength
        spare := extra.array.drop X.ExtraVanityLength }
    let decoded : Ret (Except Err BlockExtraData) :=
      if 0 < env.mvReadMapList.length then
        let tempDeps : Option (List (List Nat)) :=
          match tempDepsFrom X env deps
              (env.mvReadMapList.take (env.mvReadMapList.length - 1)) 1 with
          | none => none
          | some rows => some (depsRow deps 0 :: rows)
        if len - X.ExtraSealLength < X.ExtraVanityLength then .panic
        else
          match X.DecodeBlockExtraData
              ((extra.bytes.take (len - X.ExtraSealLength)).drop X.ExtraVanityLength) with
          | .error err => .val (.error err)
          | .ok blockExtraData => .val (.ok { blockExtraData with TxDependency := tempDeps })
      else .val (.ok { ValidatorBytes := [], TxDependency := none })
    match decoded with
    | .panic => .panic
    | .val (.error err) => .val (env, some err)
    | .val (.ok blockExtraData) =>
      match X.EncodeBlockExtraData blockExtraData with
      | .error err => .val (env, some err)
      | .ok blockExtraDataBytes =>
        let inPlace : Bool := blockExtraDataBytes.length ≤ tempVanity.spare.length
        let array1 : List Nat :=
          if inPlace then
            tempVanity.bytes ++ blockExtraDataBytes
              ++ tempVanity.spare.drop blockExtraDataBytes.length
          else extra.array
        let tempSeal : List Nat := (array1.take len).drop (len - X.ExtraSealLength)
        let extra1 := tempVanity.goAppend X.growslice blockExtraDataBytes
        let extra2 := extra1.goAppend X.growslice tempSeal
        .val ({ env with header := { env.header with Extra := extra2 } }, none)

/-- Method `worker.commitTransactions`: the interruptible executor. -/
def commitTransactions (X : Ext) (w : worker) (env : environment)
    (txs : transactionsByPriceAndNonce) (interrupt : InterruptFlag)
    (interruptCtx : InterruptCtx) (now : Nat) : Ret CommitResult :=
  let env0 := env.withGasPool
  let capture : Bool := X.IsCancun env0.header.Number && w.running
  match commitTransactionsLoop X capture interrupt interruptCtx txs env0 now [] [] with
  | .panic => .panic
  | .val ⟨env1, now1, _, _, some err⟩ => .val ⟨env1, now1, [], some err⟩
  | .val ⟨env1, now1, logs, deps, none⟩ =>
    let written : Ret (environment × Option Err) :=
      if capture then commitTransactionsExtra X env1 deps else .val (env1, none)
    match written with
    | .panic => .panic
    | .val (env2, some err) => .val ⟨env2, now1, [], some err⟩
    | .val (env2, none) =>
      let sent := if !w.running && 0 < logs.length then [Event.pendingLogs logs] else []
      .val ⟨env2, now1, sent, none⟩

/-! ## Bundles -/

/-- Function `containsHash`. -/
def containsHash (arr : List Nat) (hash : Nat) : Bool :=
  match arr with
  | [] => false
  | elem :: rest => if elem = hash then true else containsHash rest hash

/-- The zero value `simulatedBundle{}`. -/
def simulatedBundle.zero : simulatedBundle :=
  { mevGasPrice := 0, totalEth := 0, ethSentToCoinbase := 0, totalGasUsed := 0
    originalBundle :=
      { Txs := [], BlockNumber := 0, MinTimestamp := 0, MaxTimestamp := 0
        RevertingTxHashes := [] } }

/-- What the loop of `computeBundleGas` has accumulated. -/
structure BundleGas where
  state : StateDB
  gasPool : Nat
  tempGasUsed : Nat
  totalGasUsed : Nat
  gasFees : Int
  ethSentToCoinbase : Int

/-- The loop of `computeBundleGas` over the transactions of a bundle, `i` being
the index of the next one. -/
def computeBundleGasLoop (X : Ext) (env : environment) (bundle : MevBundle)
    (currentTxCount : Nat) (interruptCtx : InterruptCtx) (now : Nat) :
    List Transaction → Nat → BundleGas → Except Err BundleGas
  | [], _, acc => .ok acc
  | tx :: rest, i, acc =>
    if env.header.BaseFee.isSome && tx.TxType = 2 && 2 ^ 256 ≤ tx.GasFeeCap.natAbs then
      .error .ErrFeeCapVeryHigh
    else if env.header.BaseFee.isSome && tx.TxType = 2 && 2 ^ 256 ≤ tx.GasTipCap.natAbs then
      .error .ErrTipVeryHigh
    else if env.header.BaseFee.isSome && tx.TxType = 2 && tx.GasFeeCap < tx.GasTipCap then
      .error .ErrTipAboveFeeCap
    else
      let state1 := X.SetTxContext acc.state tx.Hash (i + currentTxCount)
      let coinbaseBalanceBefore := X.GetBalance state1 env.coinbase
      match X.ApplyTransaction env.coinbase acc.gasPool state1 env.header tx acc.tempGasUsed
          interruptCtx now with
      | .err err => .error err
      | .ok receipt state2 gasPool2 usedGas2 =>
        if receipt.Status = X.ReceiptStatusFailed
            && !containsHash bundle.RevertingTxHashes receipt.TxHash then
          .error .errFailedTx
        else
          match X.Sender env.signer tx with
          | (_, some err) => .error err
          | (sender, none) =>
            let txInPendingPool : Bool := tx.Nonce < X.PoolNonce sender
            match X.EffectiveGasTip tx env.header.BaseFee with
            | (_, some err) => .error err
            | (gasPrice, none) =>
              let gasFeesTx : Int := (receipt.GasUsed : Int) * gasPrice
              let coinbaseBalanceAfter := X.GetBalance state2 env.coinbase
              let coinbaseDelta := coinbaseBalanceAfter - coinbaseBalanceBefore - gasFeesTx
              computeBundleGasLoop X env bundle currentTxCount interruptCtx now rest (i + 1)
                { state := state2
                  gasPool := gasPool2
                  tempGasUsed := usedGas2
                  totalGasUsed := (acc.totalGasUsed + receipt.GasUsed) % 2 ^ 64
                  gasFees := if txInPendingPool then acc.gasFees else acc.gasFees + gasFeesTx
                  ethSentToCoinbase := acc.ethSentToCoinbase + coinbaseDelta }

/-- Method `worker.computeBundleGas`: run a bundle on the given state and gas
pool and price it.  On success the state and the gas pool it leaves are
returned with the simulation; the final `big.Int` division panics when no gas
was used. -/
def computeBundleGas (X : Ext) (env : environment) (bundle : MevBundle) (state : StateDB)
    (gasPool : Nat) (currentTxCount : Nat) (interruptCtx : InterruptCtx) (now : Nat) :
    Ret (Except Err (simulatedBundle × StateDB × Nat)) :=
  match computeBundleGasLoop X env bundle currentTxCount interruptCtx now bundle.Txs 0
      { state := state, gasPool := gasPool, tempGasUsed := 0, totalGasUsed := 0
        gasFees := 0, ethSentToCoinbase := 0 } with
  | .error err => .val (.error err)
  | .ok acc =>
    let totalEth := acc.ethSentToCoinbase + acc.gasFees
    if acc.totalGasUsed = 0 then .panic
    else
      .val (.ok ({ mevGasPrice := Int.ediv totalEth (acc.totalGasUsed : Int)
                   totalEth := totalEth
                   ethSentToCoinbase := acc.ethSentToCoinbase
                   totalGasUsed := acc.totalGasUsed
                   originalBundle := bundle }, acc.state, acc.gasPool))

/-- Method `worker.simulateBundles`: every non-empty bundle that simulates
without error on a copy of the state of the environment, in order. -/
def simulateBundles (X : Ext) (env : environment) (interruptCtx : InterruptCtx) (now : Nat) :
    List MevBundle → Ret (List simulatedBundle)
  | [] => .val []
  | bundle :: rest =>
    if bundle.Txs.length = 0 then simulateBundles X env interruptCtx now rest
    else
      match computeBundleGas X env bundle env.state env.header.GasLimit 0 interruptCtx now with
      | .panic => .panic
      | .val (.error _) => simulateBundles X env interruptCtx now rest
      | .val (.ok (simmed, _, _)) =>
        match simulateBundles X env interruptCtx now rest with
        | .panic => .panic
        | .val more => .val (simmed :: more)

/-- What the loop of `mergeBundles` has accumulated. -/
structure Merge where
  finalBundle : List Transaction
  currentState : StateDB
  gasPool : Nat
  totalEth : Int
  ethSentToCoinbase : Int
  totalGasUsed : Nat
  count : Nat

/-- The loop of `mergeBundles` over the ranked bundles. -/
def mergeBundlesLoop (X : Ext) (w : worker) (env : environment) (interruptCtx : InterruptCtx)
    (now : Nat) : List simulatedBundle → Merge → Ret Merge
  | [], m => .val m
  | bundle :: rest, m =>
    let floorGasPrice : Int := Int.ediv (bundle.mevGasPrice * 99) 100
    match computeBundleGas X env bundle.originalBundle m.currentState m.gasPool
        m.finalBundle.length interruptCtx now with
    | .panic => .panic
    | .val (.error _) => mergeBundlesLoop X w env interruptCtx now rest m
    | .val (.ok (simmed, state, gasPool)) =>
      if simmed.mevGasPrice ≤ floorGasPrice then
        mergeBundlesLoop X w env interruptCtx now rest m
      else
        let m1 : Merge :=
          { finalBundle := m.finalBundle ++ bundle.originalBundle.Txs
            currentState := state
            gasPool := gasPool
            totalEth := m.totalEth + simmed.totalEth
            ethSentToCoinbase := m.ethSentToCoinbase + simmed.ethSentToCoinbase
            totalGasUsed := (m.totalGasUsed + simmed.totalGasUsed) % 2 ^ 64
            count := m.count + 1 }
        if w.maxMergedBundles ≤ m1.count then .val m1
        else mergeBundlesLoop X w env interruptCtx now rest m1

/-- Method `worker.mergeBundles`: the merged transactions, the merged
statistics and the number of bundles merged. -/
def mergeBundles (X : Ext) (w : worker) (env : environment) (bundles : List simulatedBundle)
    (interruptCtx : InterruptCtx) (now : Nat) :
    Ret (List Transaction × simulatedBundle × Nat) :=
  match mergeBundlesLoop X w env interruptCtx now bundles
      { finalBundle := [], currentState := env.state, gasPool := env.header.GasLimit
        totalEth := 0, ethSentToCoinbase := 0, totalGasUsed := 0, count := 0 } with
  | .panic => .panic
  | .val m =>
    if m.finalBundle.length = 0 ∨ m.count ≠ w.maxMergedBundles then
      .val ([], simulatedBundle.zero, m.count)
    else if m.totalGasUsed = 0 then .panic
    else
      .val (m.finalBundle,
        { simulatedBundle.zero with
            mevGasPrice := Int.ediv m.totalEth (m.totalGasUsed : Int)
            totalEth := m.totalEth
            ethSentToCoinbase := m.ethSentToCoinbase
            totalGasUsed := m.totalGasUsed },
        m.count)

/-- Method `worker.generateFlashbotsBundle`: simulate, rank by descending
`mevGasPrice` with a stable sort, merge. -/
def generateFlashbotsBundle (X : Ext) (w : worker) (env : environment)
    (bundles : List MevBundle) (interruptCtx : InterruptCtx) (now : Nat) :
    Ret (List Transaction × simulatedBundle × Nat) :=
  match simulateBundles X env interruptCtx now bundles with
  | .panic => .panic
  | .val simulatedBundles =>
    mergeBundles X w env
      (simulatedBundles.insertionSort fun a b => b.mevGasPrice ≤ a.mevGasPrice)
      interruptCtx now

/-! ## A build round -/

/-- The struct `generateParams`. -/
structure generateParams where
  timestamp : Nat
  forceTime : Bool
  parentHash : Nat
  coinbase : Nat
  random : Nat
  withdrawals : List Nat
  noTxs : Bool
  deriving DecidableEq, Repr

/-- The parent that `prepareWork` builds on: the chain head when the parent
hash is empty, else the header of the block with that hash, which has to be
known. -/
def prepareWorkParent (X : Ext) (genParams : generateParams) : Except Err Header :=
  if genParams.parentHash ≠ 0 then
    match X.GetBlockByHash genParams.parentHash with
    | none => .error .errMissingParent
    | some block => .ok block.header
  else .ok X.CurrentBlock

/-- The header that `prepareWork` builds on a parent before it runs the
consensus preparation, or the error of the timestamp check. -/
def prepareWorkHeader (X : Ext) (w : worker) (genParams : generateParams) (parent : Header) :
    Except Err Header :=
  if genParams.timestamp ≤ parent.Time ∧ genParams.forceTime then
    .error (.errInvalidTimestamp parent.Time genParams.timestamp)
  else
    let timestamp : Nat :=
      if genParams.timestamp ≤ parent.Time then (parent.Time + 1) % 2 ^ 64
      else genParams.timestamp
    let header0 : Header :=
      { ParentHash := X.HeaderHash parent
        Number := parent.Number + 1
        GasLimit := X.CalcGasLimit parent.GasLimit w.gasCeil
        Time := timestamp
        Coinbase := genParams.coinbase
        Root := 0
        GasUsed := 0
        Extra := if w.extra.bytes.length ≠ 0 then w.extra else { bytes := [], spare := [] }
        MixDigest := if genParams.random ≠ 0 then genParams.random else 0
        BaseFee := none }
    if X.IsLondon header0.Number then
      let h := { header0 with BaseFee := some (X.CalcBaseFee parent) }
      if !X.IsLondon parent.Number then
        .ok { h with GasLimit :=
                X.CalcGasLimit ((parent.GasLimit * X.ElasticityMultiplier) % 2 ^ 64) w.gasCeil }
      else .ok h
    else .ok header0

/-- Method `worker.prepareWork`: resolve the parent, fix the timestamp, build
the header, run the consensus preparation and make the environment. -/
def prepareWork (X : Ext) (w : worker) (genParams : generateParams) : Except Err environment :=
  match prepareWorkParent X genParams with
  | .error err => .error err
  | .ok parent =>
    match prepareWorkHeader X w genParams parent with
    | .error err => .error err
    | .ok header1 =>
      match X.Prepare header1 with
      | .error err => .error err
      | .ok header => makeEnv X parent header genParams.coinbase

/-- The split of the pending transactions in `fillTransactions`: every local
account with pending transactions moves from the remote map to the local one. -/
def splitLocals : List Nat → List (Nat × List LazyTransaction) →
    List (Nat × List LazyTransaction) →
    List (Nat × List LazyTransaction) × List (Nat × List LazyTransaction)
  | [], localTxs, remoteTxs => (localTxs, remoteTxs)
  | account :: rest, localTxs, remoteTxs =>
    match remoteTxs.lookup account with
    | none => splitLocals rest localTxs remoteTxs
    | some txs =>
      if 0 < txs.length then
        splitLocals rest (localTxs.filter (fun e => e.1 ≠ account) ++ [(account, txs)])
          (remoteTxs.filter fun e => e.1 ≠ account)
      else splitLocals rest localTxs remoteTxs

/-- One of the two ordinary phases of `fillTransactions`: when the map is not
empty, commit its transactions in price-and-nonce order. -/
def fillPhase (X : Ext) (w : worker) (interrupt : InterruptFlag) (interruptCtx : InterruptCtx)
    (txsByAccount : List (Nat × List LazyTransaction)) (env : environment) (now : Nat) :
    Ret CommitResult :=
  if 0 < txsByAccount.length then
    commitTransactions X w env
      (X.newTransactionsByPriceAndNonce env.signer txsByAccount env.header.BaseFee)
      interrupt interruptCtx now
  else .val ⟨env, now, [], none⟩

/-- The ordinary part of `fillTransactions`: the local transactions, then the
remote ones; the first error ends it. -/
def fillOrdinary (X : Ext) (w : worker) (interrupt : InterruptFlag)
    (interruptCtx : InterruptCtx) (env : environment) (now : Nat) : Ret CommitResult :=
  let split := splitLocals X.Locals [] X.Pending
  match fillPhase X w interrupt interruptCtx split.1 env now with
  | .panic => .panic
  | .val ⟨env1, now1, events1, some err⟩ => .val ⟨env1, now1, events1, some err⟩
  | .val ⟨env1, now1, events1, none⟩ =>
    match fillPhase X w interrupt interruptCtx split.2 env1 now1 with
    | .panic => .panic
    | .val ⟨env2, now2, events2, err⟩ => .val ⟨env2, now2, events1 ++ events2, err⟩

/-- Method `worker.fillTransactions`: in bundle mode the merged bundle first,
then the pending transactions of the pool. -/
def fillTransactions (X : Ext) (w : worker) (interrupt : InterruptFlag) (env : environment)
    (interruptCtx : InterruptCtx) (now : Nat) : Ret CommitResult :=
  if w.isFlashbots then
    match X.MevBundles env.header.Number env.header.Time with
    | .error err => .val ⟨env, now, [], some err⟩
    | .ok bundles =>
      match generateFlashbotsBundle X w env bundles interruptCtx now with
      | .panic => .panic
      | .val (bundleTxs, bundle, _) =>
        if bundleTxs.length = 0 then .val ⟨env, now, [], none⟩
        else
          match commitBundle X w env bundleTxs interrupt interruptCtx now with
          | .panic => .panic
          | .val ⟨env1, now1, events1, some err⟩ => .val ⟨env1, now1, events1, some err⟩
          | .val ⟨env1, now1, events1, none⟩ =>
            let env2 := { env1 with profit := env1.profit + bundle.ethSentToCoinbase }
            match fillOrdinary X w interrupt interruptCtx env2 now1 with
            | .panic => .panic
            | .val ⟨env3, now3, events3, err⟩ => .val ⟨env3, now3, events1 ++ events3, err⟩
  else fillOrdinary X w interrupt interruptCtx env now

/-- Method `worker.isTTDReached`. -/
def isTTDReached (X : Ext) (header : Header) : Bool :=
  match X.GetTd header.ParentHash ((header.Number % 2 ^ 64 + 2 ^ 64 - 1) % 2 ^ 64),
      X.TerminalTotalDifficulty with
  | some td, some ttd => decide (ttd ≤ td)
  | _, _ => false

/-- Method `worker.commit`: when the worker is running, assemble the block and
send it as a task; then update the snapshot when asked.  `interval` tells
whether an interval hook was passed. -/
def commit (X : Ext) (w : worker) (env : environment) (interval update : Bool) :
    List Event × Option Err :=
  let snap := if update then [Event.updateSnapshot env] else []
  if w.running then
    let hook := if interval then [Event.fullTaskHook] else []
    let env1 := env.copy
    match X.FinalizeAndAssemble env1.header env1.state env1.txs env1.receipts [] with
    | .error err => (hook, some err)
    | .ok (block, state) =>
      let sent :=
        if !isTTDReached X block.header then
          if w.exitSelected then [Event.workerExited]
          else [Event.taskSent
            { receipts := env1.receipts, state := state, block := block, profit := env1.profit
              isFlashbots := w.isFlashbots, worker := w.maxMergedBundles }]
        else []
      (hook ++ sent ++ snap, none)
  else (snap, none)

/-- The closure of `commitWork` that prepares the work: a running worker
without etherbase refuses to mine and leaves `work` nil with a nil error;
otherwise the result of `prepareWork`. -/
def commitWorkPrepare (X : Ext) (w : worker) (timestamp : Int) :
    Except Err (Option environment) :=
  if w.running && w.coinbase = 0 then .ok none
  else
    match prepareWork X w
        { timestamp := (timestamp % 2 ^ 64).toNat, forceTime := false, parentHash := 0
          coinbase := if w.running then w.coinbase else 0, random := 0, withdrawals := []
          noTxs := false } with
    | .error err => .error err
    | .ok env => .ok (some env)

/-- Function `getInterruptTimer`: a context with a deadline at the time of the
header of the work, whose observation stream is `deadline`.  It dereferences
the work and the current block. -/
def getInterruptTimer (deadline : Nat → Bool) (work : Option environment)
    (current : Option Block) : Ret InterruptCtx :=
  match work, current with
  | some _, some _ => .val (some deadline)
  | _, _ => .panic

/-- The interrupt context of a round of `commitWork`: the timer context when
the request allows empty blocks and the worker interrupts commits, the
background context otherwise. -/
def commitWorkCtx (X : Ext) (w : worker) (noempty : Bool) (deadline : Nat → Bool)
    (work : Option environment) : Ret InterruptCtx :=
  if !noempty && w.interruptCommitFlag then
    getInterruptTimer deadline work (X.GetBlockByHash (X.HeaderHash X.CurrentBlock))
  else .val backgroundCtx

/-- The pre-seal of `commitWork`: an empty copy of the work is committed
before the transactions are filled, unless the request or the worker says
`noempty`. -/
def commitWorkEmpty (X : Ext) (w : worker) (noempty : Bool) (work : environment) : List Event :=
  if !noempty && !w.noempty then (commit X w work.copy false false).1 else []

/-- Method `worker.commitWork`: one build round.  `deadline` is the
observation stream of the timer context.  The result is the worker after the
round and what the round sent. -/
def commitWork (X : Ext) (w : worker) (interrupt : InterruptFlag) (noempty : Bool)
    (timestamp : Int) (deadline : Nat → Bool) (now : Nat) : Ret (worker × List Event) :=
  if w.syncing then .val (w, [])
  else
    match commitWorkPrepare X w timestamp with
    | .error _ => .val (w, [])
    | .ok prepared =>
      match commitWorkCtx X w noempty deadline prepared with
      | .panic => .panic
      | .val interruptCtx =>
        match prepared with
        | none => .panic
        | some work =>
          let empty := commitWorkEmpty X w noempty work
          match fillTransactions X w interrupt work interruptCtx now with
          | .panic => .panic
          | .val ⟨work1, _, filled, err⟩ =>
            if err = some .errBlockInterruptedByNewHead then
              .val (w, empty ++ filled ++ [Event.discard work1])
            else
              let adjusted : Ret (List Event) :=
                if err = none then .val [Event.adjust { ratio := 0, inc := false }]
                else if err = some .errBlockInterruptedByRecommit then
                  match work1.gasPool with
                  | none => .panic
                  | some gas =>
                    .val [Event.adjust
                      { ratio := usedGasRatio work1.header.GasLimit gas, inc := true }]
                else .val []
              match adjusted with
              | .panic => .panic
              | .val adj =>
                let full := (commit X w work1.copy w.hasFullTaskHook true).1
                let old : List Event :=
                  match w.current with
                  | none => []
                  | some cur => [Event.discard cur]
                .val ({ w with current := some work1 }, empty ++ filled ++ adj ++ full ++ old)

/-- The tasks sent on `taskCh` among the events of a round, in order. -/
def tasksSent : List Event → List task
  | [] => []
  | .taskSent t :: rest => t :: tasksSent rest
  | _ :: rest => tasksSent rest

/-- The interval adjustments sent on `resubmitAdjustCh` among the events of a
round, in order. -/
def adjustsSent : List Event → List intervalAdjust
  | [] => []
  | .adjust a :: rest => a :: adjustsSent rest
  | _ :: rest => adjustsSent rest

/-- The loop of `totalFees` over the transactions of the block, the receipts
from the same index on, and the fees so far. -/
def totalFeesFrom (X : Ext) (baseFee : Option Nat) :
    List Transaction → List Receipt → Int → Ret Int
  | [], _, feesWei => .val feesWei
  | _ :: _, [], _ => .panic
  | tx :: txs, r :: rs, feesWei =>
    totalFeesFrom X baseFee txs rs (feesWei + (r.GasUsed : Int) * (X.EffectiveGasTip tx baseFee).1)

/-- Function `totalFees`: the miner fees of a block given its receipts; the
index into the receipts panics when they are fewer than the transactions. -/
def totalFees (X : Ext) (block : Block) (receipts : List Receipt) : Ret Int :=
  totalFeesFrom X block.header.BaseFee block.transactions receipts 0

/-! ## The sealing loop -/

/-- The variables of `taskLoop` and the table it shares with the other loops.
Channels are numbered in the order `make` allocates them; `openChs` lists the
channels made by the loop and not closed yet. -/
structure TaskLoop where
  /-- Variable `stopCh`, nil allowed. -/
  stopCh : Option Nat
  /-- Variable `prev`, the last seal hash. -/
  prev : Nat
  /-- Variable `prevParentHash`. -/
  prevParentHash : Nat
  /-- Variable `prevProfit`, nil allowed. -/
  prevProfit : Option Int
  /-- Field `worker.pendingTasks`, by seal hash. -/
  pendingTasks : List (Nat × task)
  /-- Number of channels made so far. -/
  made : Nat
  /-- Channels made and not closed. -/
  openChs : List Nat
  deriving DecidableEq, Repr

/-- What `taskLoop` does that is visible outside, in order. -/
inductive SealEvent where
  /-- A `close(stopCh)`. -/
  | close (ch : Nat)
  /-- The log line "Proposed miner block": the task passed both filters. -/
  | proposed (t : task)
  /-- A call of `engine.Seal` for the task with the stop channel. -/
  | sealCall (t : task) (stopCh : Nat)
  deriving DecidableEq, Repr

/-- The variables of `taskLoop` when it starts. -/
def TaskLoop.init : TaskLoop :=
  { stopCh := none, prev := 0, prevParentHash := 0, prevProfit := none
    pendingTasks := [], made := 0, openChs := [] }

/-- The closure `interrupt` of `taskLoop`: abort the in-flight sealing. -/
def TaskLoop.interrupt (s : TaskLoop) : TaskLoop × List SealEvent :=
  match s.stopCh with
  | none => (s, [])
  | some ch => ({ s with stopCh := none, openChs := s.openChs.erase ch }, [.close ch])

/-- The case `task := <-w.taskCh` of `taskLoop`.  `skipSealHook` is the test
hook of that name, nil allowed; `newTaskHook` only observes the task and is
left out. -/
def TaskLoop.onTask (X : Ext) (skipSealHook : Option (task → Bool)) (s : TaskLoop) (t : task) :
    TaskLoop × List SealEvent :=
  let sealHash := X.SealHash t.block.header
  if sealHash = s.prev then (s, [])
  else
    let taskParentHash := t.block.header.ParentHash
    let regress : Bool :=
      match s.prevProfit with
      | none => false
      | some prevProfit => taskParentHash = s.prevParentHash && t.profit < prevProfit
    if regress then (s, [])
    else
      let s1 := { s with prevParentHash := taskParentHash, prevProfit := some t.profit }
      let closed := s1.interrupt
      let ch := closed.1.made
      let s2 := { closed.1 with
        stopCh := some ch, prev := sealHash, made := ch + 1, openChs := ch :: closed.1.openChs }
      let skip : Bool :=
        match skipSealHook with
        | none => false
        | some hook => hook t
      if skip then (s2, closed.2 ++ [.proposed t])
      else
        let s3 := { s2 with
          pendingTasks := (sealHash, t) :: s2.pendingTasks.filter fun e => e.1 ≠ sealHash }
        match X.Seal t.block ch with
        | none => (s3, closed.2 ++ [.proposed t, .sealCall t ch])
        | some _ =>
          ({ s3 with pendingTasks := s3.pendingTasks.filter fun e => e.1 ≠ sealHash },
            closed.2 ++ [.proposed t, .sealCall t ch])

/-- What `taskLoop` receives: a task on `taskCh`, or the closing of `exitCh`. -/
inductive TaskLoopInput where
  | task (t : task)
  | exit
  deriving DecidableEq, Repr

/-- Function `taskLoop` run on a sequence of inputs: the variables it ends with
and everything it did.  The loop returns at the first `exit`. -/
def taskLoop (X : Ext) (skipSealHook : Option (task → Bool)) :
    List TaskLoopInput → TaskLoop → TaskLoop × List SealEvent
  | [], s => (s, [])
  | .exit :: _, s => s.interrupt
  | .task t :: rest, s =>
    let step := s.onTask X skipSealHook t
    let more := taskLoop X skipSealHook rest step.1
    (more.1, step.2 ++ more.2)

/-! ## The pending-tasks table and the result loop -/

/-- Constant `staleThreshold`. -/
def staleThreshold : Nat := 7

/-- Method `Block.NumberU64`: the low 64 bits of the block number. -/
def Block.NumberU64 (b : Block) : Nat := b.header.Number % 2 ^ 64

/-- The closure `clearPending` of `newWorkLoop`: delete every pending task `t`
with `t.block.NumberU64()+staleThreshold <= number`, the sum taken in
`uint64`. -/
def clearPending (number : Nat) (pendingTasks : List (Nat × task)) : List (Nat × task) :=
  pendingTasks.filter fun e => !decide ((e.2.block.NumberU64 + staleThreshold) % 2 ^ 64 ≤ number)

/-- The head of the chain and the variables of `taskLoop`, which hold the
pending-tasks table. -/
structure PendingWorld where
  /-- Number of `w.chain.CurrentBlock()`. -/
  currentHead : Nat
  /-- The variables of `taskLoop` with `worker.pendingTasks`. -/
  loop : TaskLoop
  deriving DecidableEq, Repr

/-- What moves the head of the chain or the pending-tasks table. -/
inductive WorkerInput where
  /-- The chain sets a new head with this number. -/
  | headSet (number : Nat)
  /-- The case `<-w.startCh` of `newWorkLoop`. -/
  | start
  /-- The case `head := <-w.chainHeadCh` of `newWorkLoop` for an event whose
  block has this number. -/
  | chainHead (number : Nat)
  /-- The case `task := <-w.taskCh` of `taskLoop`. -/
  | task (t : task)
  deriving DecidableEq, Repr

/-- One step of the worker on the head and the table: `newWorkLoop` clears the
table for the current head on a start signal and for the block of the event on
a chain-head event; `taskLoop` handles a task. -/
def workerStep (X : Ext) (skipSealHook : Option (task → Bool)) (s : PendingWorld) :
    WorkerInput → PendingWorld
  | .headSet number => { s with currentHead := number }
  | .start =>
    { s with loop :=
        { s.loop with pendingTasks := clearPending (s.currentHead % 2 ^ 64) s.loop.pendingTasks } }
  | .chainHead number =>
    { s with loop :=
        { s.loop with pendingTasks := clearPending (number % 2 ^ 64) s.loop.pendingTasks } }
  | .task t => { s with loop := (s.loop.onTask X skipSealHook t).1 }

/-- The worker run on a sequence of inputs. -/
def workerRun (X : Ext) (skipSealHook : Option (task → Bool)) :
    List WorkerInput → PendingWorld → PendingWorld
  | [], s => s
  | input :: rest, s => workerRun X skipSealHook rest (workerStep X skipSealHook s input)

/-- What `resultLoop` does that is visible outside, in order. -/
inductive ResultEvent where
  /-- The log line "Block found but no relative pending task". -/
  | missingTask (sealhash : Nat)
  /-- A call of `WriteBlockAndSetHead` with the block, the receipts, the logs
  and the state. -/
  | writeBlock (block : Block) (receipts : List Receipt) (logs : List Log) (state : StateDB)
  /-- The post of a `NewMinedBlockEvent`. -/
  | minedBlock (block : Block)
  /-- An increment of `sealedBlocksCounter`. -/
  | sealedBlocksInc
  /-- An increment of `sealedEmptyBlocksCounter`. -/
  | sealedEmptyBlocksInc
  deriving DecidableEq, Repr

/-- The inner loop of `resultLoop` over the logs of a task receipt: a copy of
every log with the block hash set. -/
def resultLoopLogs (hash : Nat) : List Log → List Log
  | [] => []
  | taskLog :: rest => { taskLog with BlockHash := hash } :: resultLoopLogs hash rest

/-- The loop of `resultLoop` over the receipts of a task from index `i`, with
the receipts and the logs gathered so far. -/
def resultLoopReceipts (hash number : Nat) :
    List Receipt → Nat → List Receipt × List Log → List Receipt × List Log
  | [], _, acc => acc
  | taskReceipt :: rest, i, (receipts, logs) =>
    let receiptLogs := resultLoopLogs hash taskReceipt.Logs
    let receipt : Receipt :=
      { taskReceipt with
          BlockHash := hash, BlockNumber := number, TransactionIndex := i, Logs := receiptLogs }
    resultLoopReceipts hash number rest (i + 1) (receipts ++ [receipt], logs ++ receiptLogs)

/-- The case `block := <-w.resultCh` of `resultLoop` for one block, nil
allowed: the pending-tasks table it leaves and what it did. -/
def resultLoopBlock (X : Ext) (pendingTasks : List (Nat × task)) :
    Option Block → List (Nat × task) × List ResultEvent
  | none => (pendingTasks, [])
  | some block =>
    if X.HasBlock (X.HeaderHash block.header) block.NumberU64 then (pendingTasks, [])
    else
      let sameAuthor : Bool :=
        match X.GetBlockByNumber block.NumberU64 with
        | none => false
        | some oldBlock => X.Author oldBlock.header = X.Author block.header
      if sameAuthor then (pendingTasks, [])
      else
        let sealhash := X.SealHash block.header
        let hash := X.HeaderHash block.header
        match pendingTasks.lookup sealhash with
        | none => (pendingTasks, [.missingTask sealhash])
        | some task =>
          let copied := resultLoopReceipts hash block.header.Number task.receipts 0 ([], [])
          let write := ResultEvent.writeBlock block copied.1 copied.2 task.state
          match X.WriteBlockAndSetHead block copied.1 copied.2 task.state with
          | some _ => (pendingTasks, [write])
          | none =>
            (pendingTasks,
              [write, .minedBlock block, .sealedBlocksInc]
                ++ (if block.transactions.length = 0 then [.sealedEmptyBlocksInc] else []))

/-- Function `resultLoop` run on the blocks that arrive on `resultCh`. -/
def resultLoop (X : Ext) : List (Option Block) → List (Nat × task) →
    List (Nat × task) × List ResultEvent
  | [], pendingTasks => (pendingTasks, [])
  | block :: rest, pendingTasks =>
    let step := resultLoopBlock X pendingTasks block
    let more := resultLoop X rest step.1
    (more.1, step.2 ++ more.2)

/-! ## Sealing blocks on request -/

/-- The flag that `generateWork` allocates: it holds None until the timer of
`newpayloadTimeout` has fired and Timeout from then on. -/
def payloadInterrupt (fired : Nat → Bool) : InterruptFlag :=
  some fun t => if fired t then commitInterruptTimeout else commitInterruptNone

/-- Method `worker.generateWork`: prepare the work, fill it unless an empty
block is asked for, assemble the block and compute its fees.  The error of the
filling is only logged. -/
def generateWork (X : Ext) (w : worker) (params : generateParams) (fired : Nat → Bool)
    (now : Nat) : Ret (List Event × Except Err (Block × Int)) :=
  match prepareWork X w params with
  | .error err => .val ([], .error err)
  | .ok work =>
    let filled : Ret (environment × List Event) :=
      if !params.noTxs then
        match fillTransactions X w (payloadInterrupt fired) work backgroundCtx now with
        | .panic => .panic
        | .val r => .val (r.env, r.events)
      else .val (work, [])
    match filled with
    | .panic => .panic
    | .val (work1, events) =>
      match X.FinalizeAndAssemble work1.header work1.state work1.txs work1.receipts
          params.withdrawals with
      | .error err => .val (events ++ [.discard work1], .error err)
      | .ok (block, _) =>
        match totalFees X block work1.receipts with
        | .panic => .panic
        | .val fees => .val (events ++ [.discard work1], .ok (block, fees))

/-- Method `worker.getSealingBlock`: ask `mainLoop` for a block built with the
given parameters and an immutable timestamp.  `closed` tells that the select
took the `exitCh` branch. -/
def getSealingBlock (X : Ext) (w : worker) (parent timestamp coinbase random : Nat)
    (withdrawals : List Nat) (noTxs : Bool) (closed : Bool) (fired : Nat → Bool) (now : Nat) :
    Ret (List Event × Except Err (Block × Int)) :=
  if closed then .val ([], .error .errMinerClosed)
  else
    generateWork X w
      { timestamp := timestamp, forceTime := true, parentHash := parent, coinbase := coinbase
        random := random, withdrawals := withdrawals, noTxs := noTxs } fired now

/-! ## The work loop -/

/-- Constant `minRecommitInterval`: one second.  A `time.Duration` counts
nanoseconds. -/
def minRecommitInterval : Int := 1000000000

set_option linter.unusedVariables false in
/-- Function `recalcRecommit`: the computation is commented out in the source
and the previous interval is returned. -/
def recalcRecommit (minRecommit prev : Int) (target : ℚ) (inc : Bool) : Int := prev

/-- A request on `newWorkCh`.  The interrupt flag is named by the order in
which `newWorkLoop` allocated it. -/
structure newWorkReq where
  interrupt : Nat
  noempty : Bool
  timestamp : Int
  deriving DecidableEq, Repr

/-- What `newWorkLoop` does that is visible outside, in order. -/
inductive LoopEvent where
  /-- A call of the closure `clearPending`. -/
  | clearPending (number : Nat)
  /-- A `Store` of a signal into a flag. -/
  | store (flag : Nat) (signal : Int)
  /-- The allocation `new(atomic.Int32)` of a flag, which holds None. -/
  | alloc (flag : Nat)
  /-- A send on `newWorkCh`. -/
  | request (req : newWorkReq)
  /-- A `timer.Reset`. -/
  | timerReset (d : Int)
  /-- The `w.newTxs.Store(0)`. -/
  | newTxsReset
  /-- A call of the `resubmitHook`. -/
  | resubmitHook (minRecommit recommit : Int)
  deriving DecidableEq, Repr

/-- The variables of `newWorkLoop`, with the number of flags allocated so
far. -/
structure NewWorkLoop where
  /-- Variable `interrupt`, nil allowed. -/
  interrupt : Option Nat
  /-- Variable `minRecommit`. -/
  minRecommit : Int
  /-- Variable `recommit`. -/
  recommit : Int
  /-- Variable `timestamp`. -/
  timestamp : Int
  /-- Number of flags allocated so far. -/
  allocated : Nat
  deriving DecidableEq, Repr

/-- The variables of `newWorkLoop` when it starts with the given interval. -/
def NewWorkLoop.init (recommit : Int) : NewWorkLoop :=
  { interrupt := none, minRecommit := recommit, recommit := recommit, timestamp := 0
    allocated := 0 }

/-- The closure `commit` of `newWorkLoop`: store the signal into the flag of
the previous round, allocate a flag, send the request, reset the timer.
`exiting` tells that the select took the `exitCh` branch. -/
def NewWorkLoop.commit (s : NewWorkLoop) (noempty : Bool) (signal : Int) (exiting : Bool) :
    NewWorkLoop × List LoopEvent :=
  let stored : List LoopEvent :=
    match s.interrupt with
    | none => []
    | some flag => [.store flag signal]
  let interrupt := s.allocated
  let s1 := { s with interrupt := some interrupt, allocated := s.allocated + 1 }
  if exiting then (s1, stored ++ [.alloc interrupt])
  else
    (s1, stored ++ [.alloc interrupt,
      .request { interrupt := interrupt, noempty := noempty, timestamp := s.timestamp },
      .timerReset s.recommit, .newTxsReset])

/-- What the select of `newWorkLoop` receives. -/
inductive LoopInput where
  /-- A signal on `startCh`, with the number of the current block, the Unix
  time and whether the select of `commit` takes the `exitCh` branch. -/
  | start (head : Nat) (unixNow : Int) (exiting : Bool)
  /-- A chain-head event for a block with the given number. -/
  | chainHead (number : Nat) (unixNow : Int) (exiting : Bool)
  /-- A tick of the timer, with what `IsRunning` and `newTxs.Load` give. -/
  | timer (running : Bool) (newTxs : Int) (exiting : Bool)
  /-- An interval on `resubmitIntervalCh`. -/
  | resubmitInterval (interval : Int)
  /-- An adjustment on `resubmitAdjustCh`. -/
  | resubmitAdjust (adjust : intervalAdjust)
  /-- The closing of `exitCh`. -/
  | exit
  deriving Repr

/-- One case of the select of `newWorkLoop` other than `exitCh`.
`resubmitHook` tells whether the hook is set, `periodic` whether the chain is
not a Clique chain of period zero. -/
def NewWorkLoop.step (resubmitHook periodic : Bool) (s : NewWorkLoop) :
    LoopInput → NewWorkLoop × List LoopEvent
  | .start head unixNow exiting =>
    let r := NewWorkLoop.commit { s with timestamp := unixNow } false commitInterruptNewHead
      exiting
    (r.1, .clearPending (head % 2 ^ 64) :: r.2)
  | .chainHead number unixNow exiting =>
    let r := NewWorkLoop.commit { s with timestamp := unixNow } false commitInterruptNewHead
      exiting
    (r.1, .clearPending (number % 2 ^ 64) :: r.2)
  | .timer running newTxs exiting =>
    if running && periodic then
      if newTxs = 0 then (s, [.timerReset s.recommit])
      else s.commit true commitInterruptResubmit exiting
    else (s, [])
  | .resubmitInterval interval =>
    let interval1 := if interval < minRecommitInterval then minRecommitInterval else interval
    let s1 := { s with minRecommit := interval1, recommit := interval1 }
    (s1, if resubmitHook then [.resubmitHook s1.minRecommit s1.recommit] else [])
  | .resubmitAdjust adjust =>
    let recommit1 :=
      if adjust.inc then
        recalcRecommit s.minRecommit s.recommit ((s.recommit : ℚ) / adjust.ratio) true
      else recalcRecommit s.minRecommit s.recommit (s.minRecommit : ℚ) false
    let s1 := { s with recommit := recommit1 }
    (s1, if resubmitHook then [.resubmitHook s1.minRecommit s1.recommit] else [])
  | .exit => (s, [])

/-- Function `newWorkLoop` run on a sequence of inputs: the variables it ends
with and everything it did.  The loop returns at the first `exit`. -/
def newWorkLoop (resubmitHook periodic : Bool) :
    List LoopInput → NewWorkLoop → NewWorkLoop × List LoopEvent
  | [], s => (s, [])
  | .exit :: _, s => (s, [])
  | input :: rest, s =>
    let step := s.step resubmitHook periodic input
    let more := newWorkLoop resubmitHook periodic rest step.1
    (more.1, step.2 ++ more.2)

/-! ## Making and starting a worker -/

/-- The fields of `Config` that `newWorker` reads. -/
structure Config where
  Etherbase : Nat
  ExtraData : ByteSlice
  GasCeil : Nat
  Recommit : Int
  CommitInterruptFlag : Bool
  deriving DecidableEq, Repr

/-- What `newWorker` leaves: the worker, the interval it hands to
`newWorkLoop` and the number of signals buffered on `startCh`. -/
structure NewWorker where
  worker : worker
  recommit : Int
  startCh : Nat
  deriving DecidableEq, Repr

/-- Function `newWorker`, as far as the fields of `worker` go: the flag
`noempty` is stored true and then false when commits are not interrupted, the
interval is raised to `minRecommitInterval`, and `init` buffers a start
signal. -/
def newWorker (config : Config) (isFlashbots : Bool) (maxMergedBundles : Nat) (init : Bool) :
    NewWorker :=
  let worker0 : worker :=
    { running := false, syncing := false, coinbase := config.Etherbase
      extra := config.ExtraData, gasCeil := config.GasCeil
      interruptCommitFlag := config.CommitInterruptFlag, noempty := true
      isFlashbots := isFlashbots, maxMergedBundles := maxMergedBundles, current := none
      hasFullTaskHook := false, exitSelected := false }
  let worker1 := if !worker0.interruptCommitFlag then { worker0 with noempty := false } else worker0
  let recommit :=
    if config.Recommit < minRecommitInterval then minRecommitInterval else config.Recommit
  { worker := worker1, recommit := recommit, startCh := if init then 1 else 0 }

/-- Method `worker.start`: store the running flag and send on `startCh`, a
channel with a buffer of one.  The result is the worker and the number of
signals buffered after the send, `none` when the buffer is full and the send
has to wait for `newWorkLoop`. -/
def start (w : worker) (startCh : Nat) : worker × Option Nat :=
  ({ w with running := true }, if startCh < 1 then some (startCh + 1) else none)

/-! ## A concrete world

Used to run the definitions on concrete inputs. -/

/-- A receipt for a transaction that used `gas` gas. -/
def demoReceipt (tx : Transaction) (gas cumulative : Nat) : Receipt :=
  { Status := 1, CumulativeGasUsed := cumulative, TxHash := tx.Hash, GasUsed := gas
    Logs := [], BlockHash := 0, BlockNumber := 0, TransactionIndex := 0 }

/-- A header with the given number, gas limit and time and nothing else. -/
def demoHeader (number gasLimit time : Nat) : Header :=
  { ParentHash := 0, Coinbase := 0, Root := 0, Number := number, GasLimit := gasLimit
    GasUsed := 0, Time := time, Extra := { bytes := [], spare := [] }, MixDigest := 0
    BaseFee := none }

/-- A world in which a transaction uses exactly its gas limit and fails with
`ErrGasLimitReached` when the pool holds less, the chain head is block 10, no
fork rule is active and the pool holds the given pending transactions. -/
def demoExt (pending : List (Nat × List LazyTransaction)) : Ext where
  TxGas := 21000
  ExtraVanityLength := 32
  ExtraSealLength := 65
  ApplyTransaction := fun _ gasPool state _ tx usedGas _ _ =>
    if gasPool < tx.Gas then .err .ErrGasLimitReached
    else .ok (demoReceipt tx tx.Gas (usedGas + tx.Gas)) { id := state.id + 1 }
      (gasPool - tx.Gas) (usedGas + tx.Gas)
  EffectiveGasTip := fun tx _ => (tx.GasTipCap, none)
  Sender := fun _ tx => (tx.Hash, none)
  MakeSigner := fun _ _ => 0
  SetTxContext := fun state _ _ => state
  AddEmptyMVHashMap := fun state => state
  ClearReadMap := fun state => state
  ClearWriteMap := fun state => state
  MVFullWriteList := fun _ => []
  MVReadMap := fun _ => []
  MVReadList := fun _ => []
  ValidateKnownAccounts := fun _ _ => true
  GetBalance := fun _ _ => 0
  ValidateBlockNumberOptions4337 := fun _ _ _ => true
  ValidateTimestampOptions4337 := fun _ _ _ => true
  IsCancun := fun _ => false
  IsEIP155 := fun _ => true
  IsLondon := fun _ => false
  CalculateBurntContract := fun _ => 0
  NewSubpathKey := fun addr path => 2 * addr + path
  BalancePath := 1
  UpdateDeps := fun deps _ => deps
  DecodeBlockExtraData := fun _ => .ok { ValidatorBytes := [], TxDependency := none }
  EncodeBlockExtraData := fun _ => .ok []
  growslice := fun _ needed => needed
  StateAt := fun root => .ok { id := root }
  ReceiptStatusFailed := 0
  PoolNonce := fun _ => 0
  MevBundles := fun _ _ => .ok []
  Pending := pending
  Locals := []
  newTransactionsByPriceAndNonce := fun _ txs _ =>
    (txs.map fun e => e.2).flatten.foldr (fun ltx rest => .next ltx rest rest) .done
  CurrentBlock := demoHeader 10 30000000 1000
  HeaderHash := fun header => header.Number + 1
  GetBlockByHash := fun hash =>
    if hash = 11 then some { header := demoHeader 10 30000000 1000, transactions := [] }
    else none
  CalcGasLimit := fun parentGasLimit _ => parentGasLimit
  CalcBaseFee := fun _ => 0
  ElasticityMultiplier := 2
  Prepare := fun header => .ok header
  FinalizeAndAssemble := fun header state txs _ _ =>
    .ok ({ header := header, transactions := txs }, state)
  GetTd := fun _ _ => none
  TerminalTotalDifficulty := none
  SealHash := fun header => header.Number + 1
  Seal := fun _ _ => none
  HasBlock := fun _ _ => false
  GetBlockByNumber := fun _ => none
  Author := fun header => header.Coinbase
  WriteBlockAndSetHead := fun _ _ _ _ => none

/-- A plain transfer with the given hash and tip, using 21000 gas. -/
def demoTx (hash : Nat) (tip : Int) : Transaction :=
  { Hash := hash, Nonce := 0, Gas := 21000, GasFeeCap := tip, GasTipCap := tip, TxType := 0
    Protected := false, Options := none }

/-- The pending handle of a transaction. -/
def demoLazy (tx : Transaction) : LazyTransaction :=
  { Hash := tx.Hash, Tx := some tx, GasFeeCap := tx.GasFeeCap, GasTipCap := tx.GasTipCap }

/-- A running worker with an etherbase, in ordinary mode, with the pre-seal of
empty blocks enabled. -/
def demoWorker : worker :=
  { running := true, syncing := false, coinbase := 7, extra := { bytes := [], spare := [] }
    gasCeil := 30000000, interruptCommitFlag := false, noempty := false, isFlashbots := false
    maxMergedBundles := 0, current := none, hasFullTaskHook := false, exitSelected := false }

/-- An environment over a block of gas limit 100000 with a full gas pool. -/
def demoEnv : environment :=
  { signer := 0, state := { id := 0 }, tcount := 0, gasPool := some 100000, coinbase := 7
    profit := 0, header := demoHeader 11 100000 1001, txs := [], receipts := []
    depsMVFullWriteList := [], mvReadMapList := [] }

/-- An interrupt flag that always holds NewHead. -/
def demoNewHead : Nat → Int := fun _ => commitInterruptNewHead

/-- An interrupt flag that always holds Resubmit. -/
def demoResubmit : Nat → Int := fun _ => commitInterruptResubmit

/-- An interrupt flag that always holds None. -/
def demoNoSignal : Nat → Int := fun _ => commitInterruptNone

/-- A deadline context that has fired. -/
def demoFired : Nat → Bool := fun _ => true

/-- A deadline context that never fires. -/
def demoNotFired : Nat → Bool := fun _ => false

/-- An iterator holding one plain transfer. -/
def demoIter : transactionsByPriceAndNonce :=
  .next (demoLazy (demoTx 1 5)) .done .done

/-- The environment `demoEnv` after `commitTransaction` ran the transfer
`demoTx 1 5` on it. -/
def demoEnvAfter : environment :=
  { demoEnv with
      state := { id := 1 }
      gasPool := some 79000
      profit := 105000
      header := { demoHeader 11 100000 1001 with GasUsed := 21000 }
      txs := [demoTx 1 5]
      receipts := [demoReceipt (demoTx 1 5) 21000 21000] }

/-- A pool holding one pending transfer of account 1. -/
def demoPending : List (Nat × List LazyTransaction) :=
  [(1, [demoLazy (demoTx 1 5)])]

/-- The environment that `prepareWork` makes for `demoWorker` on top of the
head of `demoExt` for the timestamp 2000. -/
def demoWork : environment :=
  { signer := 0, state := { id := 0 }, tcount := 0, gasPool := some 30000000, coinbase := 7
    profit := 0
    header := { demoHeader 11 30000000 2000 with ParentHash := 11, Coinbase := 7 }
    txs := [], receipts := [], depsMVFullWriteList := [], mvReadMapList := [] }

/-- The task that holds the empty block on top of `demoWork`. -/
def demoEmptyTask : task :=
  { receipts := [], state := { id := 0 }
    block := { header := demoWork.header, transactions := [] }
    profit := 0, isFlashbots := false, worker := 0 }

/-- The tasks that passed both filters of `taskLoop`, in order. -/
def proposedTasks : List SealEvent → List task
  | [] => []
  | .proposed t :: rest => t :: proposedTasks rest
  | _ :: rest => proposedTasks rest

/-- The tasks for which `engine.Seal` was called, in order. -/
def sealCalls : List SealEvent → List task
  | [] => []
  | .sealCall t _ :: rest => t :: sealCalls rest
  | _ :: rest => sealCalls rest

/-- A trace of `taskLoop` seals one block at a time, given the channels closed
before it starts and a bound `next` under the channels still to be made:
whenever `engine.Seal` is called, the channel it is given was never given to an
earlier call, every channel made before it has been closed, and it has not
been closed itself. -/
def Serialized : List SealEvent → List Nat → Nat → Prop
  | [], _, _ => True
  | .close c :: rest, closed, next => Serialized rest (c :: closed) next
  | .proposed _ :: rest, closed, next => Serialized rest closed next
  | .sealCall _ ch :: rest, closed, next =>
    next ≤ ch ∧ (∀ c, c < ch → c ∈ closed) ∧ ch ∉ closed ∧ Serialized rest closed (ch + 1)

/-- The channels of a state of `taskLoop` are in order, given the channels
closed so far: every channel made is closed or is the stop channel in flight,
no closed channel is in flight, and the open channels are the one in flight. -/
def ChannelsInOrder (s : TaskLoop) (closed : List Nat) (next : Nat) : Prop :=
  (∀ c, c < s.made → c ∈ closed ∨ s.stopCh = some c)
  ∧ (∀ c, c ∈ closed → c < s.made ∧ s.stopCh ≠ some c)
  ∧ (∀ c, s.stopCh = some c → c < s.made)
  ∧ s.openChs = s.stopCh.toList
  ∧ next ≤ s.made

/-- The second task does not regress on the first: when both build on the
same parent, the second has at least the profit of the first. -/
def NoRegress (a b : task) : Prop :=
  a.block.header.ParentHash = b.block.header.ParentHash → a.profit ≤ b.profit

/-- A task for a block with the given number, parent hash and profit. -/
def demoTask (number parentHash : Nat) (profit : Int) : task :=
  { receipts := [], state := { id := 0 }
    block := { header := { demoHeader number 30000000 2000 with ParentHash := parentHash }
               transactions := [] }
    profit := profit, isFlashbots := false, worker := 0 }

/-- A `skipSealHook` that skips every task. -/
def demoSkipAll : task → Bool := fun _ => true

/-- A log of the transaction with the given hash, at the given index of the
block, with no block hash yet. -/
def demoLog (txHash index : Nat) : Log :=
  { Address := 0, Topics := [], Data := [], BlockNumber := 11, TxHash := txHash, TxIndex := 0
    BlockHash := 0, Index := index }

/-- A task for block 11 with two transfers, the first with two logs and the
second with one. -/
def demoSealedTask : task :=
  { receipts :=
      [{ demoReceipt (demoTx 1 5) 21000 21000 with Logs := [demoLog 1 0, demoLog 1 1] },
       { demoReceipt (demoTx 2 5) 21000 42000 with Logs := [demoLog 2 2] }]
    state := { id := 2 }
    block := { header := { demoHeader 11 30000000 2000 with ParentHash := 11 }
               transactions := [demoTx 1 5, demoTx 2 5] }
    profit := 210000, isFlashbots := false, worker := 0 }

/-- A world like `demoExt` in which a transaction needs a gas limit of at
least 21000 and the state counts the balance of the coinbase: a transaction
pays its tip on every unit of gas, lowered by `decay` when it does not run on
the initial state. -/
def bundleExt (decay : Nat) : Ext :=
  { demoExt [] with
      ApplyTransaction := fun _ gasPool state _ tx usedGas _ _ =>
        if tx.Gas < 21000 then .err (.other 0)
        else if gasPool < tx.Gas then .err .ErrGasLimitReached
        else
          .ok (demoReceipt tx tx.Gas (usedGas + tx.Gas))
            { id := state.id
                + tx.Gas * (tx.GasTipCap.toNat - if state.id = 0 then 0 else decay) }
            (gasPool - tx.Gas) (usedGas + tx.Gas)
      GetBalance := fun state _ => (state.id : Int) }

/-- A bundle for block 11 that holds one plain transfer with the given hash
and tip. -/
def demoBundle (hash : Nat) (tip : Int) : MevBundle :=
  { Txs := [demoTx hash tip], BlockNumber := 11, MinTimestamp := 0, MaxTimestamp := 0
    RevertingTxHashes := [] }

/-- A worker in bundle mode that merges the given number of bundles. -/
def demoBundleWorker (maxMergedBundles : Nat) : worker :=
  { demoWorker with isFlashbots := true, maxMergedBundles := maxMergedBundles }

/-! ## The merge in the words of the specification -/

/-- The ranked bundles that the merge accepts, each with its re-simulation, in
rank order: a bundle is tried on the state, gas pool and transaction count
left by the bundles accepted before it, and is accepted when the
re-simulation succeeds with a price above 99/100 of the price of its first
simulation, rounded down; `room` is the number of bundles that may still be
accepted. -/
def acceptedBundles (X : Ext) (env : environment) (interruptCtx : InterruptCtx) (now : Nat) :
    List simulatedBundle → StateDB → Nat → Nat → Nat →
    Ret (List (simulatedBundle × simulatedBundle))
  | [], _, _, _, _ => .val []
  | _ :: _, _, _, _, 0 => .val []
  | bundle :: rest, state, gasPool, txCount, room + 1 =>
    match computeBundleGas X env bundle.originalBundle state gasPool txCount interruptCtx now with
    | .panic => .panic
    | .val (.error _) =>
      acceptedBundles X env interruptCtx now rest state gasPool txCount (room + 1)
    | .val (.ok (simmed, state1, gasPool1)) =>
      if simmed.mevGasPrice ≤ Int.ediv (bundle.mevGasPrice * 99) 100 then
        acceptedBundles X env interruptCtx now rest state gasPool txCount (room + 1)
      else
        match acceptedBundles X env interruptCtx now rest state1 gasPool1
            (txCount + bundle.originalBundle.Txs.length) room with
        | .panic => .panic
        | .val more => .val ((bundle, simmed) :: more)

/-- What the merge returns for the accepted bundles: their transactions in
rank order with the sums of their re-simulations when exactly
`maxMergedBundles` were accepted, nothing otherwise.  The gas sum is a
`uint64` and the price is a `big.Int` division, which panics on zero. -/
def mergedResult (maxMergedBundles : Nat) (accepted : List (simulatedBundle × simulatedBundle)) :
    Ret (List Transaction × simulatedBundle × Nat) :=
  if accepted.length = maxMergedBundles then
    let totalEth : Int := (accepted.map fun a => a.2.totalEth).sum
    let totalGasUsed : Nat := (accepted.map fun a => a.2.totalGasUsed).sum % 2 ^ 64
    if totalGasUsed = 0 then .panic
    else
      .val ((accepted.map fun a => a.1.originalBundle.Txs).flatten,
        { simulatedBundle.zero with
            mevGasPrice := Int.ediv totalEth (totalGasUsed : Int)
            totalEth := totalEth
            ethSentToCoinbase := (accepted.map fun a => a.2.ethSentToCoinbase).sum
            totalGasUsed := totalGasUsed },
        accepted.length)
  else .val ([], simulatedBundle.zero, accepted.length)

/-- The outcome of the loop of `mergeBundles` started from `m` agrees with a
list of accepted bundles. -/
def MergedAs (m : Merge) : Ret Merge → Ret (List (simulatedBundle × simulatedBundle)) → Prop
  | .panic, .panic => True
  | .val m1, .val accepted =>
    m1.finalBundle = m.finalBundle ++ (accepted.map fun a => a.1.originalBundle.Txs).flatten
    ∧ m1.totalEth = m.totalEth + (accepted.map fun a => a.2.totalEth).sum
    ∧ m1.ethSentToCoinbase = m.ethSentToCoinbase + (accepted.map fun a => a.2.ethSentToCoinbase).sum
    ∧ m1.totalGasUsed = (m.totalGasUsed + (accepted.map fun a => a.2.totalGasUsed).sum) % 2 ^ 64
    ∧ m1.count = m.count + accepted.length
  | _, _ => False

/-! ## Properties of the work loop -/

/-- The flags into which a trace of `newWorkLoop` stores a signal, in order. -/
def storedFlags : List LoopEvent → List Nat
  | [] => []
  | .store flag _ :: rest => flag :: storedFlags rest
  | _ :: rest => storedFlags rest

/-- The signal that a flag holds after a trace of `newWorkLoop`, given the
signal it held before: the last signal stored into it. -/
def flagValue (flag : Nat) : List LoopEvent → Int → Int
  | [], value => value
  | .store f signal :: rest, value => flagValue flag rest (if f = flag then signal else value)
  | _ :: rest, value => flagValue flag rest value

/-- A trace of `newWorkLoop` handles its flags in order, given the flag that
the variable `interrupt` holds and nothing was stored into yet, the number of
flags allocated before the trace and the flags stored into before it: a store
puts NewHead or Resubmit into the flag held by `interrupt`, which was never
stored into, and no further store follows before the next allocation; an
allocation makes the next flag, never stored into, and `interrupt` holds it; a
request carries the flag held by `interrupt`, which nothing was stored
into. -/
def FlagsInOrder : List LoopEvent → Option Nat → Nat → List Nat → Prop
  | [], _, _, _ => True
  | .store flag signal :: rest, interrupt, allocated, stored =>
    interrupt = some flag ∧ flag ∉ stored
      ∧ (signal = commitInterruptNewHead ∨ signal = commitInterruptResubmit)
      ∧ FlagsInOrder rest none allocated (flag :: stored)
  | .alloc flag :: rest, _, allocated, stored =>
    flag = allocated ∧ flag ∉ stored ∧ FlagsInOrder rest (some flag) (allocated + 1) stored
  | .request req :: rest, interrupt, allocated, stored =>
    interrupt = some req.interrupt ∧ req.interrupt ∉ stored
      ∧ FlagsInOrder rest interrupt allocated stored
  | _ :: rest, interrupt, allocated, stored => FlagsInOrder rest interrupt allocated stored

/-- The flag held by the variable `interrupt` was allocated and never stored
into, and every flag stored into was allocated. -/
def FlagsFresh (s : NewWorkLoop) (stored : List Nat) : Prop :=
  (∀ f, s.interrupt = some f → f < s.allocated ∧ f ∉ stored) ∧ ∀ g ∈ stored, g < s.allocated

/-- The input is not an interval sent by `setRecommitInterval`. -/
def LoopInput.keepsInterval : LoopInput → Bool
  | .resubmitInterval _ => false
  | _ => true

/-- The events of one emit of `newWorkLoop` whose request is sent: the store
into the flag held by `interrupt`, if any, the allocation of the next flag,
the request that carries it, and the resets. -/
def emitted (s : NewWorkLoop) (noempty : Bool) (signal : Int) : List LoopEvent :=
  (s.interrupt.toList.map fun flag => LoopEvent.store flag signal)
    ++ [.alloc s.allocated,
      .request { interrupt := s.allocated, noempty := noempty, timestamp := s.timestamp },
      .timerReset s.recommit, .newTxsReset]

/-! ## A worker configuration and inputs of the work loop -/

/-- A worker configuration: etherbase 7 and commits that are not
interrupted. -/
def demoConfig : Config :=
  { Etherbase := 7, ExtraData := ⟨[], []⟩, GasCeil := 30000000, Recommit := 3000000000
    CommitInterruptFlag := false }

/-- Inputs of `newWorkLoop`: two start signals, a timer tick with new
transactions, one without, an interval of half a second and an adjustment. -/
def demoLoopInputs : List LoopInput :=
  [.start 10 50 false, .start 10 100 false, .timer true 3 false, .timer true 0 false,
    .resubmitInterval 500000000, .resubmitAdjust ⟨0, true⟩]

/-! ## The profit of an environment -/

/-- The fees of the receipts of a list of transactions: the sum over the
indices of the gas used by the receipt times the effective tip of the
transaction under the base fee. -/
def feeSum (X : Ext) (baseFee : Option Nat) : List Transaction → List Receipt → Int
  | tx :: txs, r :: rs =>
    (r.GasUsed : Int) * (X.EffectiveGasTip tx baseFee).1 + feeSum X baseFee txs rs
  | _, _ => 0

/-- The profit of an environment is the fees of its transactions plus
`extra`, and it has as many receipts as transactions. -/
def ProfitIs (X : Ext) (extra : Int) (env : environment) : Prop :=
  env.txs.length = env.receipts.length
    ∧ env.profit = feeSum X env.header.BaseFee env.txs env.receipts + extra

/-- A world like `demoExt` in which the state counts the balance of the
coinbase, every transaction pays its tip on its gas and `pay` more to the
coinbase, and the pool offers the given bundles. -/
def payExt (pay : Nat) (bundles : List MevBundle) : Ext :=
  { demoExt [] with
      ApplyTransaction := fun _ gasPool state _ tx usedGas _ _ =>
        if gasPool < tx.Gas then .err .ErrGasLimitReached
        else
          .ok (demoReceipt tx tx.Gas (usedGas + tx.Gas))
            { id := state.id + tx.Gas * tx.GasTipCap.toNat + pay }
            (gasPool - tx.Gas) (usedGas + tx.Gas)
      GetBalance := fun state _ => (state.id : Int)
      MevBundles := fun _ _ => .ok bundles }

/-! ## A world whose state keeps the transaction context -/

/-- A world like `demoExt` in which the state handle keeps track of the
transaction context: its number grows by 1000 whenever `SetTxContext` is
called on it. -/
def contextExt : Ext :=
  { demoExt [] with SetTxContext := fun state _ _ => { id := state.id + 1000 } }

/-! ## A world that captures dependencies -/

/-- A world like `demoExt` in which Cancun is active, so that a running worker
captures dependencies.  The transaction that leaves the state numbered
`reader` has read the balance of the coinbase 7 (key 15), and the extra data
are encoded as one byte for the dependency matrix followed by one byte and
the entries for each row; the nil matrix is the byte 192. -/
def captureExt (reader : Nat) : Ext :=
  { demoExt [] with
      IsCancun := fun _ => true
      MVReadMap := fun state => if state.id = reader then [15] else []
      EncodeBlockExtraData := fun data =>
        match data.TxDependency with
        | none => .ok [192]
        | some rows => .ok ((193 + rows.length) :: rows.flatMap fun row => (192 + row.length) :: row) }

/-- The environment `demoEnv` with an `Extra` of 32 vanity bytes 1, the given
middle and 65 seal bytes 9, in a backing array with no room to spare. -/
def captureEnv (middle : List Nat) : environment :=
  { demoEnv with
      header :=
        { demoHeader 11 100000 1001 with
            Extra := { bytes := List.replicate 32 1 ++ middle ++ List.replicate 65 9, spare := [] } } }

/-- An iterator holding two plain transfers. -/
def demoIterTwo : transactionsByPriceAndNonce :=
  .next (demoLazy (demoTx 1 5)) (.next (demoLazy (demoTx 2 5)) .done .done) .done

/-! ## Properties of environments -/

/-- Two environments hold the same block under construction: they agree on
everything but the state handle. -/
def SameBlock (a b : environment) : Prop :=
  a.txs = b.txs ∧ a.receipts = b.receipts ∧ a.tcount = b.tcount ∧ a.gasPool = b.gasPool
    ∧ a.profit = b.profit ∧ a.header = b.header

/-- The gas used by a list of receipts, summed. -/
def sumGasUsed (receipts : List Receipt) : Nat :=
  (receipts.map fun r => r.GasUsed).sum

/-- The assumption on `core.ApplyTransaction` under which gas is accounted
for: a successful execution takes exactly the `GasUsed` of its receipt out of
the gas pool, and an execution that needs more than the pool holds fails. -/
def AppliesWithinPool (X : Ext) : Prop :=
  ∀ (coinbase gasPool : Nat) (state : StateDB) (header : Header) (tx : Transaction)
    (usedGas : Nat) (ctx : InterruptCtx) (now : Nat) (receipt : Receipt) (state1 : StateDB)
    (gasPool1 usedGas1 : Nat),
    X.ApplyTransaction coinbase gasPool state header tx usedGas ctx now
        = .ok receipt state1 gasPool1 usedGas1 →
      receipt.GasUsed ≤ gasPool ∧ gasPool1 = gasPool - receipt.GasUsed

/-- The assumption on `core.ApplyTransaction` that a successful execution uses
gas: the `GasUsed` of its receipt is positive. -/
def UsesGas (X : Ext) : Prop :=
  ∀ (coinbase gasPool : Nat) (state : StateDB) (header : Header) (tx : Transaction)
    (usedGas : Nat) (ctx : InterruptCtx) (now : Nat) (receipt : Receipt) (state1 : StateDB)
    (gasPool1 usedGas1 : Nat),
    X.ApplyTransaction coinbase gasPool state header tx usedGas ctx now
        = .ok receipt state1 gasPool1 usedGas1 →
      0 < receipt.GasUsed

/-- The gas of an environment is accounted for: the pool is allocated and,
together with the gas used by the receipts, makes up the gas limit of the
header. -/
def GasAccounted (env : environment) : Prop :=
  ∃ gas : Nat, env.gasPool = some gas ∧ sumGasUsed env.receipts + gas = env.header.GasLimit

/-- An environment made by `makeEnv` and then taken through any sequence of
`commitTransaction`, `commitTransactions` and `commitBundle` calls. -/
inductive Built (X : Ext) : environment → Prop where
  | makeEnv (parent header : Header) (coinbase : Nat) (env : environment) :
      makeEnv X parent header coinbase = .ok env → Built X env
  | commitTransaction (env : environment) (tx : Transaction) (ctx : InterruptCtx) (now : Nat)
      (env1 : environment) (r : Except Err (List Log)) :
      Built X env → commitTransaction X env tx ctx now = .val (env1, r) → Built X env1
  | commitTransactions (w : worker) (env : environment) (txs : transactionsByPriceAndNonce)
      (interrupt : InterruptFlag) (ctx : InterruptCtx) (now : Nat) (r : CommitResult) :
      Built X env → commitTransactions X w env txs interrupt ctx now = .val r → Built X r.env
  | commitBundle (w : worker) (env : environment) (txs : List Transaction)
      (interrupt : InterruptFlag) (ctx : InterruptCtx) (now : Nat) (r : CommitResult) :
      Built X env → commitBundle X w env txs interrupt ctx now = .val r → Built X r.env

/-- A receipt that some execution of the transaction produced. -/
def Produced (X : Ext) (tx : Transaction) (receipt : Receipt) : Prop :=
  ∃ (coinbase gasPool : Nat) (state : StateDB) (header : Header) (usedGas : Nat)
    (ctx : InterruptCtx) (now : Nat) (state1 : StateDB) (gasPool1 usedGas1 : Nat),
    X.ApplyTransaction coinbase gasPool state header tx usedGas ctx now
      = .ok receipt state1 gasPool1 usedGas1

/-- The receipts of an environment are aligned with its transactions: as many
of the one as of the other, the receipt at each index produced by executing
the transaction at that index. -/
def Aligned (X : Ext) (env : environment) : Prop :=
  List.Forall₂ (Produced X) env.txs env.receipts

/-- The transactions of an environment are counted by `tcount`. -/
def Counted (env : environment) : Prop :=
  env.txs.length = env.tcount ∧ env.receipts.length = env.tcount

/-- An environment made by `makeEnv` and then taken through any sequence of
`commitTransactions`, `commitBundle` and `copy` calls. -/
inductive Filled (X : Ext) : environment → Prop where
  | makeEnv (parent header : Header) (coinbase : Nat) (env : environment) :
      makeEnv X parent header coinbase = .ok env → Filled X env
  | commitTransactions (w : worker) (env : environment) (txs : transactionsByPriceAndNonce)
      (interrupt : InterruptFlag) (ctx : InterruptCtx) (now : Nat) (r : CommitResult) :
      Filled X env → commitTransactions X w env txs interrupt ctx now = .val r → Filled X r.env
  | commitBundle (w : worker) (env : environment) (txs : List Transaction)
      (interrupt : InterruptFlag) (ctx : InterruptCtx) (now : Nat) (r : CommitResult) :
      Filled X env → commitBundle X w env txs interrupt ctx now = .val r → Filled X r.env
  | copy (env : environment) : Filled X env → Filled X env.copy

/-- A property of environments that the commit loops keep: it does not depend
on the state, the recorded read and write sets or the extra data, it survives
the allocation of a missing gas pool and a failed `commitTransaction`, and it
survives a successful `commitTransaction` followed by the count of the
transaction. -/
structure BuildInvariant (X : Ext) (P : environment → Prop) : Prop where
  state : ∀ (env : environment) (st : StateDB), P env → P { env with state := st }
  deps : ∀ (env : environment) (a b : List (List Nat)), P env →
    P { env with depsMVFullWriteList := a, mvReadMapList := b }
  extra : ∀ (env : environment) (e : ByteSlice), P env →
    P { env with header := { env.header with Extra := e } }
  pool : ∀ env : environment, P env → P env.withGasPool
  failed : ∀ (env : environment) (tx : Transaction) (ctx : InterruptCtx) (now : Nat)
    (env1 : environment) (err : Err), P env →
    commitTransaction X env tx ctx now = .val (env1, .error err) → P env1
  counted : ∀ (env : environment) (tx : Transaction) (ctx : InterruptCtx) (now : Nat)
    (env1 : environment) (logs : List Log), P env →
    commitTransaction X env tx ctx now = .val (env1, .ok logs) →
    P { env1 with tcount := env1.tcount + 1 }

/-! # Theorems -/

/-! ## Interruption of a build -/

theorem signalToErr_val_iff (signal : Int) (err : Err) :
    signalToErr signal = .val err ↔
      (signal = commitInterruptNewHead ∧ err = .errBlockInterruptedByNewHead)
      ∨ (signal = commitInterruptResubmit ∧ err = .errBlockInterruptedByRecommit)
      ∨ (signal = commitInterruptTimeout ∧ err = .errBlockInterruptedByTimeout) := by
  unfold signalToErr commitInterruptNewHead commitInterruptResubmit commitInterruptTimeout
  by_cases h1 : signal = 1
  · subst h1; simp; exact eq_comm
  · by_cases h2 : signal = 2
    · subst h2; simp; exact eq_comm
    · by_cases h3 : signal = 3
      · subst h3; simp; exact eq_comm
      · simp [h1, h2, h3]

theorem commitTransactionsLoop_eq_head (X : Ext) (capture : Bool) (interrupt : InterruptFlag)
    (interruptCtx : InterruptCtx) (txs : transactionsByPriceAndNonce) (env : environment)
    (now : Nat) (logs : List Log) (deps : DepsMap) (r : Ret TxLoopEnd)
    (h : commitTransactionsHead X capture interrupt interruptCtx env now logs deps = .leave r) :
    commitTransactionsLoop X capture interrupt interruptCtx txs env now logs deps = r := by
  cases txs <;> simp [commitTransactionsLoop, h]

theorem commitTransactionsHead_interrupted (X : Ext) (capture : Bool) (load : Nat → Int)
    (interruptCtx : InterruptCtx) (env : environment) (now : Nat) (logs : List Log)
    (deps : DepsMap) (err : Err) (h : signalToErr (load now) = .val err) :
    commitTransactionsHead X capture (some load) interruptCtx env now logs deps
      = .leave (.val ⟨env, now, logs, deps, some err⟩) := by
  have hne : load now ≠ commitInterruptNone := by
    intro h0
    rw [h0] at h
    simp [signalToErr, commitInterruptNone, commitInterruptNewHead, commitInterruptResubmit,
      commitInterruptTimeout] at h
  simp [commitTransactionsHead, hne, h]

theorem commitTransactions_of_loop_ret (X : Ext) (w : worker) (env : environment)
    (txs : transactionsByPriceAndNonce) (interrupt : InterruptFlag)
    (interruptCtx : InterruptCtx) (now : Nat) (env1 : environment) (now1 : Nat)
    (logs : List Log) (deps : DepsMap) (err : Err)
    (h : commitTransactionsLoop X (X.IsCancun env.withGasPool.header.Number && w.running)
        interrupt interruptCtx txs env.withGasPool now [] []
      = .val ⟨env1, now1, logs, deps, some err⟩) :
    commitTransactions X w env txs interrupt interruptCtx now = .val ⟨env1, now1, [], some err⟩ := by
  simp [commitTransactions, h]

/-- C1: when the interrupt flag holds NewHead, Resubmit or Timeout at the start
of an iteration of the loop of `commitTransactions`, the loop is left at once
with the error of that signal and the environment, the clock and the collected
logs are those of the start of the iteration; `commitTransactions` then returns
that error with that environment, and called with the flag already set it
returns the error with the environment it was given (a nil gas pool replaced).
The three errors are pairwise distinct. -/
theorem commitTransactions_interrupt_returns (X : Ext) (w : worker) (capture : Bool)
    (load : Nat → Int) (interruptCtx : InterruptCtx) (txs : transactionsByPriceAndNonce)
    (env : environment) (now : Nat) (logs : List Log) (deps : DepsMap)
    (hsig : load now = commitInterruptNewHead ∨ load now = commitInterruptResubmit
      ∨ load now = commitInterruptTimeout) :
    ∃ err : Err,
      signalToErr (load now) = .val err
      ∧ (load now = commitInterruptNewHead → err = .errBlockInterruptedByNewHead)
      ∧ (load now = commitInterruptResubmit → err = .errBlockInterruptedByRecommit)
      ∧ (load now = commitInterruptTimeout → err = .errBlockInterruptedByTimeout)
      ∧ commitTransactionsLoop X capture (some load) interruptCtx txs env now logs deps
          = .val ⟨env, now, logs, deps, some err⟩
      ∧ (∀ (env0 : environment) (txs0 : transactionsByPriceAndNonce) (now0 : Nat),
          commitTransactionsLoop X (X.IsCancun env0.withGasPool.header.Number && w.running)
              (some load) interruptCtx txs0 env0.withGasPool now0 [] []
            = commitTransactionsLoop X capture (some load) interruptCtx txs env now logs deps →
          commitTransactions X w env0 txs0 (some load) interruptCtx now0
            = .val ⟨env, now, [], some err⟩)
      ∧ commitTransactions X w env txs (some load) interruptCtx now
          = .val ⟨env.withGasPool, now, [], some err⟩
      ∧ env.withGasPool.txs = env.txs ∧ env.withGasPool.receipts = env.receipts
      ∧ env.withGasPool.profit = env.profit
      ∧ (∀ gas, env.gasPool = some gas → env.withGasPool = env)
      ∧ Err.errBlockInterruptedByNewHead ≠ Err.errBlockInterruptedByRecommit
      ∧ Err.errBlockInterruptedByNewHead ≠ Err.errBlockInterruptedByTimeout
      ∧ Err.errBlockInterruptedByRecommit ≠ Err.errBlockInterruptedByTimeout := by
  have key : ∃ err : Err, signalToErr (load now) = .val err
      ∧ (load now = commitInterruptNewHead → err = .errBlockInterruptedByNewHead)
      ∧ (load now = commitInterruptResubmit → err = .errBlockInterruptedByRecommit)
      ∧ (load now = commitInterruptTimeout → err = .errBlockInterruptedByTimeout) := by
    rcases hsig with h | h | h <;> rw [h] <;>
      simp [signalToErr, commitInterruptNewHead, commitInterruptResubmit,
        commitInterruptTimeout]
  obtain ⟨err, herr, h1, h2, h3⟩ := key
  have hloop : ∀ (c : Bool) (t : transactionsByPriceAndNonce) (e : environment) (l : List Log)
      (d : DepsMap), commitTransactionsLoop X c (some load) interruptCtx t e now l d
        = .val ⟨e, now, l, d, some err⟩ := fun c t e l d =>
    commitTransactionsLoop_eq_head X c (some load) interruptCtx t e now l d _
      (commitTransactionsHead_interrupted X c load interruptCtx e now l d err herr)
  refine ⟨err, herr, h1, h2, h3, hloop _ _ _ _ _, ?_, ?_, ?_, ?_, ?_, ?_, ?_, ?_, ?_⟩
  · intro env0 txs0 now0 h0
    rw [hloop] at h0
    exact commitTransactions_of_loop_ret X w env0 txs0 (some load) interruptCtx now0 _ _ _ _ _ h0
  · exact commitTransactions_of_loop_ret X w env txs (some load) interruptCtx now _ _ _ _ _
      (hloop _ _ _ _ _)
  · unfold environment.withGasPool; cases env.gasPool <;> rfl
  · unfold environment.withGasPool; cases env.gasPool <;> rfl
  · unfold environment.withGasPool; cases env.gasPool <;> rfl
  · intro gas hg; unfold environment.withGasPool; rw [hg]
  · decide
  · decide
  · decide

/-- Witness of C1: a flag holding NewHead at the first iteration. -/
theorem commitTransactions_interrupt_returns_witness :
    demoNewHead 0 = commitInterruptNewHead
    ∧ commitTransactions (demoExt []) demoWorker demoEnv demoIter (some demoNewHead) none 0
        = .val ⟨demoEnv, 0, [], some .errBlockInterruptedByNewHead⟩ := by
  have h : demoNewHead 0 = commitInterruptNewHead := rfl
  obtain ⟨err, -, h1, -, -, -, -, h7, -⟩ :=
    commitTransactions_interrupt_returns (demoExt []) demoWorker false demoNewHead none demoIter
      demoEnv 0 [] [] (Or.inl h)
  refine ⟨h, ?_⟩
  rw [h7, h1 h]
  rfl

/-- C5, as stated, fails: `signalToErr` panics on None (0) and on a value above
Timeout (4). -/
theorem signalToErr_panics_on_none :
    signalToErr commitInterruptNone = Ret.panic ∧ signalToErr 4 = Ret.panic := by
  constructor <;> rfl

/-- C5, amended: `signalToErr` returns an error exactly on the three
interruption signals NewHead, Resubmit and Timeout, each mapped to its own
error, and panics on every other value. -/
theorem signalToErr_defined_iff (signal : Int) :
    (∀ err : Err, signalToErr signal = .val err ↔
      (signal = commitInterruptNewHead ∧ err = .errBlockInterruptedByNewHead)
      ∨ (signal = commitInterruptResubmit ∧ err = .errBlockInterruptedByRecommit)
      ∨ (signal = commitInterruptTimeout ∧ err = .errBlockInterruptedByTimeout))
    ∧ (signalToErr signal = .panic ↔
      signal ≠ commitInterruptNewHead ∧ signal ≠ commitInterruptResubmit
        ∧ signal ≠ commitInterruptTimeout) := by
  refine ⟨fun err => signalToErr_val_iff signal err, ?_⟩
  unfold signalToErr
  by_cases h1 : signal = commitInterruptNewHead
  · simp [h1]
  · by_cases h2 : signal = commitInterruptResubmit
    · subst h2; simp [commitInterruptResubmit, commitInterruptNewHead]
    · by_cases h3 : signal = commitInterruptTimeout
      · subst h3
        simp [commitInterruptResubmit, commitInterruptNewHead, commitInterruptTimeout]
      · simp [h1, h2, h3]

/-- Witness of C5: the signal Resubmit. -/
theorem signalToErr_defined_iff_witness :
    signalToErr commitInterruptResubmit = .val .errBlockInterruptedByRecommit :=
  ((signalToErr_defined_iff commitInterruptResubmit).1 .errBlockInterruptedByRecommit).2
    (Or.inr (Or.inl ⟨rfl, rfl⟩))

/-- C3, as stated, fails: with the flag at None and the deadline context fired
at the first iteration, `commitTransactions` returns nil, not the timeout
error, leaving the pending transaction unexecuted. -/
theorem commitTransactions_deadline_not_timeout :
    commitTransactions (demoExt []) demoWorker demoEnv demoIter (some demoNoSignal)
        (some demoFired) 0
      = .val ⟨demoEnv, 0, [], none⟩ := by
  rfl

theorem commitTransactionsHead_deadline (X : Ext) (capture : Bool) (interrupt : InterruptFlag)
    (fired : Nat → Bool) (env : environment) (now : Nat) (logs : List Log) (deps : DepsMap)
    (hflag : interrupt = none ∨ ∃ load, interrupt = some load ∧ load now = commitInterruptNone)
    (hfired : fired now = true) :
    commitTransactionsHead X capture interrupt (some fired) env now logs deps
      = .leave (.val ⟨if capture then { env with state := X.AddEmptyMVHashMap env.state } else env,
          now, logs, deps, none⟩) := by
  rcases hflag with h | ⟨load, h, h0⟩
  · subst h
    cases capture <;> simp [commitTransactionsHead, ctxFired, hfired]
  · subst h
    cases capture <;> simp [commitTransactionsHead, ctxFired, hfired, h0]

/-- C3, amended: when the deadline context has fired at the start of an
iteration while the interrupt flag is nil or holds None, the loop of
`commitTransactions` is left without executing a further transaction (the
transactions, receipts, gas pool, profit and count of the environment are
those of the start of the iteration) and without an error.  Called in that
situation, `commitTransactions` returns nil when the build does not capture
dependencies; when it does, the block after the loop runs and the call returns
what that block returns. -/
theorem commitTransactions_deadline_returns_nil (X : Ext) (w : worker) (capture : Bool)
    (interrupt : InterruptFlag) (fired : Nat → Bool) (txs : transactionsByPriceAndNonce)
    (env : environment) (now : Nat) (logs : List Log) (deps : DepsMap)
    (hflag : interrupt = none ∨ ∃ load, interrupt = some load ∧ load now = commitInterruptNone)
    (hfired : fired now = true) :
    (∃ env1 : environment,
      commitTransactionsLoop X capture interrupt (some fired) txs env now logs deps
        = .val ⟨env1, now, logs, deps, none⟩
      ∧ env1.txs = env.txs ∧ env1.receipts = env.receipts ∧ env1.gasPool = env.gasPool
      ∧ env1.profit = env.profit ∧ env1.tcount = env.tcount ∧ env1.header = env.header)
    ∧ ((X.IsCancun env.withGasPool.header.Number && w.running) = false →
        commitTransactions X w env txs interrupt (some fired) now
          = .val ⟨env.withGasPool, now, [], none⟩)
    ∧ ((X.IsCancun env.withGasPool.header.Number && w.running) = true →
        commitTransactions X w env txs interrupt (some fired) now
          = match commitTransactionsExtra X
              { env.withGasPool with state := X.AddEmptyMVHashMap env.withGasPool.state } [] with
            | .panic => .panic
            | .val (env2, err) => .val ⟨env2, now, [], err⟩) := by
  have hloop : ∀ (c : Bool) (e : environment) (l : List Log) (d : DepsMap),
      commitTransactionsLoop X c interrupt (some fired) txs e now l d
        = .val ⟨if c then { e with state := X.AddEmptyMVHashMap e.state } else e,
            now, l, d, none⟩ := fun c e l d =>
    commitTransactionsLoop_eq_head X c interrupt (some fired) txs e now l d _
      (commitTransactionsHead_deadline X c interrupt fired e now l d hflag hfired)
  refine ⟨⟨_, hloop capture env logs deps, ?_⟩, ?_, ?_⟩
  · cases capture <;> simp
  · intro hc
    simp [commitTransactions, hc, hloop]
  · intro hc
    simp only [commitTransactions, hc, hloop, if_true]
    generalize commitTransactionsExtra X _ _ = r
    cases r with
    | panic => simp
    | val p =>
      obtain ⟨env2, err⟩ := p
      cases err <;> simp

/-- Witness of C3: the deadline fired before the first transaction. -/
theorem commitTransactions_deadline_returns_nil_witness :
    demoFired 0 = true
    ∧ commitTransactions (demoExt []) demoWorker demoEnv demoIter (some demoNoSignal)
        (some demoFired) 0 = .val ⟨demoEnv.withGasPool, 0, [], none⟩ :=
  ⟨rfl, (commitTransactions_deadline_returns_nil (demoExt []) demoWorker false (some demoNoSignal)
    demoFired demoIter demoEnv 0 [] [] (Or.inr ⟨demoNoSignal, rfl, rfl⟩) rfl).2.1 rfl⟩

/-! ## Invariants of the commit loops -/

theorem commitTransactionsHead_go_inv {X : Ext} {P : environment → Prop}
    (hP : BuildInvariant X P) {capture : Bool} {interrupt : InterruptFlag}
    {interruptCtx : InterruptCtx} {env : environment} {now : Nat} {logs : List Log}
    {deps : DepsMap} {env1 : environment} {gas : Nat} (h : P env)
    (hh : commitTransactionsHead X capture interrupt interruptCtx env now logs deps
      = .go env1 gas) : P env1 := by
  unfold commitTransactionsHead at hh
  simp only at hh
  split at hh
  · split at hh <;> simp at hh
  · split at hh
    · simp at hh
    · split at hh
      · simp at hh
      · split at hh
        · simp at hh
        · simp only [IterHead.go.injEq] at hh
          rw [← hh.1]
          split
          · exact hP.state _ _ h
          · exact h

theorem commitTransactionsHead_leave_inv {X : Ext} {P : environment → Prop}
    (hP : BuildInvariant X P) {capture : Bool} {interrupt : InterruptFlag}
    {interruptCtx : InterruptCtx} {env : environment} {now : Nat} {logs : List Log}
    {deps : DepsMap} {r : TxLoopEnd} (h : P env)
    (hh : commitTransactionsHead X capture interrupt interruptCtx env now logs deps
      = .leave (.val r)) : P r.env := by
  have hs : P (if interruptCtx.isSome && capture then
      { env with state := X.AddEmptyMVHashMap env.state } else env) := by
    split
    · exact hP.state _ _ h
    · exact h
  unfold commitTransactionsHead at hh
  simp only at hh
  split at hh
  · split at hh
    · simp at hh
    · simp only [IterHead.leave.injEq, Ret.val.injEq] at hh
      rw [← hh]; exact h
  · split at hh
    · simp only [IterHead.leave.injEq, Ret.val.injEq] at hh
      rw [← hh]; exact hs
    · split at hh
      · simp at hh
      · split at hh
        · simp only [IterHead.leave.injEq, Ret.val.injEq] at hh
          rw [← hh]; exact hs
        · simp at hh

theorem clearMaps_inv {X : Ext} {P : environment → Prop} (hP : BuildInvariant X P)
    (capture : Bool) {env : environment} (h : P env) : P (clearMaps X capture env) := by
  unfold clearMaps
  split
  · exact hP.state _ _ h
  · exact h

theorem recordSuccess_inv {X : Ext} {P : environment → Prop} (hP : BuildInvariant X P)
    (capture : Bool) {env : environment} (deps : DepsMap)
    (h : P { env with tcount := env.tcount + 1 }) : P (recordSuccess X capture env deps).1 := by
  unfold recordSuccess
  simp only
  split
  · exact hP.deps _ _ _ h
  · exact h

theorem commitTransactionsLoop_inv {X : Ext} {P : environment → Prop}
    (hP : BuildInvariant X P) (capture : Bool) (interrupt : InterruptFlag)
    (interruptCtx : InterruptCtx) :
    ∀ (txs : transactionsByPriceAndNonce) (env : environment) (now : Nat) (logs : List Log)
      (deps : DepsMap) (r : TxLoopEnd), P env →
      commitTransactionsLoop X capture interrupt interruptCtx txs env now logs deps = .val r →
      P r.env := by
  intro txs
  induction txs with
  | done =>
    intro env now logs deps r h hr
    simp only [commitTransactionsLoop] at hr
    split at hr
    · rename_i r0 hh
      subst hr
      exact commitTransactionsHead_leave_inv hP h hh
    · rename_i env1 gas hh
      simp only [Ret.val.injEq] at hr
      rw [← hr]
      exact commitTransactionsHead_go_inv hP h hh
  | next ltx shift pop ihs ihp =>
    intro env now logs deps r h hr
    simp only [commitTransactionsLoop] at hr
    split at hr
    · rename_i r0 hh
      subst hr
      exact commitTransactionsHead_leave_inv hP h hh
    · rename_i env1 gas hh
      have h1 : P env1 := commitTransactionsHead_go_inv hP h hh
      split at hr
      · exact ihp _ _ _ _ _ h1 hr
      · rename_i tx htx
        split at hr
        · exact ihp _ _ _ _ _ h1 hr
        · split at hr
          · exact ihp _ _ _ _ _ h1 hr
          · have h2 : P { env1 with state := X.SetTxContext env1.state tx.Hash env1.tcount } :=
              hP.state _ _ h1
            split at hr
            · simp at hr
            · rename_i env3 hct
              exact ihs _ _ _ _ _ (clearMaps_inv hP capture (hP.failed _ _ _ _ _ _ h2 hct)) hr
            · rename_i env3 txLogs hct
              exact ihs _ _ _ _ _
                (clearMaps_inv hP capture
                  (recordSuccess_inv hP capture deps (hP.counted _ _ _ _ _ _ h2 hct))) hr
            · rename_i env3 err hne hct
              exact ihp _ _ _ _ _ (clearMaps_inv hP capture (hP.failed _ _ _ _ _ _ h2 hct)) hr

theorem commitTransactionsExtra_inv {X : Ext} {P : environment → Prop}
    (hP : BuildInvariant X P) {env : environment} {deps : DepsMap} {env1 : environment}
    {err : Option Err} (h : P env)
    (hr : commitTransactionsExtra X env deps = .val (env1, err)) : P env1 := by
  unfold commitTransactionsExtra at hr
  simp only at hr
  split at hr
  · simp at hr
  · split at hr
    · simp at hr
    · split at hr
      · simp at hr
      · simp only [Ret.val.injEq, Prod.mk.injEq] at hr
        rw [← hr.1]; exact h
      · split at hr
        · simp only [Ret.val.injEq, Prod.mk.injEq] at hr
          rw [← hr.1]; exact h
        · simp only [Ret.val.injEq, Prod.mk.injEq] at hr
          rw [← hr.1]; exact hP.extra _ _ h

theorem commitTransactions_inv {X : Ext} {P : environment → Prop} (hP : BuildInvariant X P)
    {w : worker} {env : environment} {txs : transactionsByPriceAndNonce}
    {interrupt : InterruptFlag} {interruptCtx : InterruptCtx} {now : Nat} {r : CommitResult}
    (h : P env) (hr : commitTransactions X w env txs interrupt interruptCtx now = .val r) :
    P r.env := by
  unfold commitTransactions at hr
  simp only at hr
  split at hr
  · simp at hr
  · rename_i env1 now1 l d err hl
    simp only [Ret.val.injEq] at hr
    rw [← hr]
    exact commitTransactionsLoop_inv hP _ _ _ _ _ _ _ _ _ (hP.pool _ h) hl
  · rename_i env1 now1 l d hl
    have h1 : P env1 := commitTransactionsLoop_inv hP _ _ _ _ _ _ _ _ _ (hP.pool _ h) hl
    split at hr
    · simp at hr
    · rename_i env2 err hw
      simp only [Ret.val.injEq] at hr
      rw [← hr]
      split at hw
      · exact commitTransactionsExtra_inv hP h1 hw
      · simp only [Ret.val.injEq, Prod.mk.injEq] at hw
        rw [← hw.1]; exact h1
    · rename_i env2 hw
      simp only [Ret.val.injEq] at hr
      rw [← hr]
      split at hw
      · exact commitTransactionsExtra_inv hP h1 hw
      · simp only [Ret.val.injEq, Prod.mk.injEq] at hw
        rw [← hw.1]; exact h1

theorem commitBundleLoop_inv {X : Ext} {P : environment → Prop} (hP : BuildInvariant X P)
    (interrupt : InterruptFlag) (interruptCtx : InterruptCtx) (gasLimit : Nat) :
    ∀ (txs : List Transaction) (env : environment) (now : Nat) (logs : List Log)
      (r : BundleLoopEnd), P env →
      commitBundleLoop X interrupt interruptCtx gasLimit txs env now logs = .val r →
      P r.env := by
  intro txs
  induction txs with
  | nil =>
    intro env now logs r h hr
    simp only [commitBundleLoop, Ret.val.injEq] at hr
    rw [← hr]; exact h
  | cons tx rest ih =>
    intro env now logs r h hr
    simp only [commitBundleLoop] at hr
    split at hr
    · simp only [Ret.val.injEq] at hr
      rw [← hr]; exact h
    · split at hr
      · split at hr
        · split at hr
          · simp at hr
          · simp only [Ret.val.injEq] at hr
            rw [← hr]; exact h
        · simp only [Ret.val.injEq] at hr
          rw [← hr]; exact h
      · split at hr
        · simp at hr
        · split at hr
          · simp only [Ret.val.injEq] at hr
            rw [← hr]; exact h
          · split at hr
            · simp only [Ret.val.injEq] at hr
              rw [← hr]; exact h
            · have h2 : P { env with state := X.SetTxContext env.state tx.Hash env.tcount } :=
                hP.state _ _ h
              split at hr
              · simp at hr
              · rename_i env2 err hct
                simp only [Ret.val.injEq] at hr
                rw [← hr]; exact hP.failed _ _ _ _ _ _ h2 hct
              · rename_i env2 txLogs hct
                exact ih _ _ _ _ (hP.counted _ _ _ _ _ _ h2 hct) hr

theorem commitBundle_inv {X : Ext} {P : environment → Prop} (hP : BuildInvariant X P)
    {w : worker} {env : environment} {txs : List Transaction} {interrupt : InterruptFlag}
    {interruptCtx : InterruptCtx} {now : Nat} {r : CommitResult} (h : P env)
    (hr : commitBundle X w env txs interrupt interruptCtx now = .val r) : P r.env := by
  unfold commitBundle at hr
  simp only at hr
  split at hr
  · simp at hr
  · rename_i env1 now1 events l err hl
    simp only [Ret.val.injEq] at hr
    rw [← hr]
    exact commitBundleLoop_inv hP _ _ _ _ _ _ _ _ (hP.pool _ h) hl
  · rename_i env1 now1 events l hl
    simp only [Ret.val.injEq] at hr
    rw [← hr]
    exact commitBundleLoop_inv hP _ _ _ _ _ _ _ _ (hP.pool _ h) hl

/-! ## Gas accounting -/

theorem sumGasUsed_append (rs : List Receipt) (r : Receipt) :
    sumGasUsed (rs ++ [r]) = sumGasUsed rs + r.GasUsed := by
  simp [sumGasUsed]

theorem commitTransaction_cases (X : Ext) (env : environment) (tx : Transaction)
    (ctx : InterruptCtx) (now : Nat) (env1 : environment) (r : Except Err (List Log))
    (h : commitTransaction X env tx ctx now = .val (env1, r)) :
    ∃ gp : Nat, env.gasPool = some gp ∧
      ((∃ err, r = .error err ∧ env1 = { env with state := env.state, gasPool := some gp })
      ∨ (∃ (receipt : Receipt) (state : StateDB) (gasPool usedGas : Nat),
          X.ApplyTransaction env.coinbase gp env.state env.header tx env.header.GasUsed ctx now
            = .ok receipt state gasPool usedGas
          ∧ r = .ok receipt.Logs
          ∧ env1 = { env with
              state := state
              gasPool := some gasPool
              header := { env.header with GasUsed := usedGas }
              txs := env.txs ++ [tx]
              receipts := env.receipts ++ [receipt]
              profit := env.profit + (receipt.GasUsed : Int) * (X.EffectiveGasTip tx
                env.header.BaseFee).1 })) := by
  unfold commitTransaction at h
  split at h
  · simp at h
  · rename_i gp hgp
    refine ⟨gp, hgp, ?_⟩
    simp only at h
    split at h
    · rename_i tip err htip
      simp only [Ret.val.injEq, Prod.mk.injEq] at h
      left
      refine ⟨err, h.2.symm, ?_⟩
      rw [← h.1]
      cases env
      simp_all
    · rename_i gasPrice htip
      split at h
      · rename_i err happ
        simp only [Ret.val.injEq, Prod.mk.injEq] at h
        left
        exact ⟨err, h.2.symm, h.1.symm⟩
      · rename_i receipt state gasPool usedGas happ
        simp only [Ret.val.injEq, Prod.mk.injEq] at h
        right
        refine ⟨receipt, state, gasPool, usedGas, happ, h.2.symm, ?_⟩
        rw [← h.1, htip]

theorem gasAccounted_invariant (X : Ext) (hX : AppliesWithinPool X) :
    BuildInvariant X GasAccounted where
  state := fun env st h => h
  deps := fun env a b h => h
  extra := fun env e h => h
  pool := fun env h => by
    obtain ⟨gas, hg, hs⟩ := h
    unfold environment.withGasPool
    rw [hg]
    exact ⟨gas, hg, hs⟩
  failed := fun env tx ctx now env1 err h hct => by
    obtain ⟨gas, hg, hs⟩ := h
    obtain ⟨gp, hgp, hc | hc⟩ := commitTransaction_cases X env tx ctx now env1 _ hct
    · obtain ⟨_, _, he⟩ := hc
      rw [he]
      rw [hg] at hgp
      cases hgp
      exact ⟨gas, rfl, hs⟩
    · obtain ⟨_, _, _, _, _, hr, _⟩ := hc
      cases hr
  counted := fun env tx ctx now env1 logs h hct => by
    obtain ⟨gas, hg, hs⟩ := h
    obtain ⟨gp, hgp, hc | hc⟩ := commitTransaction_cases X env tx ctx now env1 _ hct
    · obtain ⟨_, hr, _⟩ := hc
      cases hr
    · obtain ⟨receipt, state, gasPool, usedGas, happ, _, he⟩ := hc
      rw [hg] at hgp
      cases hgp
      obtain ⟨hle, hgp1⟩ := hX _ _ _ _ _ _ _ _ _ _ _ _ happ
      rw [he]
      refine ⟨gasPool, rfl, ?_⟩
      show sumGasUsed (env.receipts ++ [receipt]) + gasPool = env.header.GasLimit
      rw [sumGasUsed_append, hgp1, ← hs]
      omega

theorem makeEnv_eq {X : Ext} {parent header : Header} {coinbase : Nat} {env : environment}
    (h : makeEnv X parent header coinbase = .ok env) :
    env.gasPool = some header.GasLimit ∧ env.header = header ∧ env.txs = []
      ∧ env.receipts = [] ∧ env.tcount = 0 ∧ env.profit = 0 ∧ env.coinbase = coinbase := by
  unfold makeEnv at h
  split at h
  · simp at h
  · simp only [Except.ok.injEq] at h
    rw [← h]
    simp

/-- C6: under the assumption that a successful execution takes exactly the
`GasUsed` of its receipt out of the gas pool and fails when the pool holds
less, every environment made by `makeEnv` and taken through any sequence of
`commitTransaction`, `commitTransactions` and `commitBundle` calls has its gas
pool allocated, the gas used by its receipts plus the gas left in the pool
equal to the gas limit of its header, and hence the gas used by its receipts at
most the gas limit. -/
theorem built_gas_accounted (X : Ext) (hX : AppliesWithinPool X) (env : environment)
    (hb : Built X env) :
    ∃ gas : Nat, env.gasPool = some gas
      ∧ sumGasUsed env.receipts + gas = env.header.GasLimit
      ∧ sumGasUsed env.receipts ≤ env.header.GasLimit := by
  have hP := gasAccounted_invariant X hX
  have key : GasAccounted env := by
    induction hb with
    | makeEnv parent header coinbase env h =>
      obtain ⟨hg, hh, _, hr, _⟩ := makeEnv_eq h
      exact ⟨header.GasLimit, hg, by rw [hr, hh]; simp [sumGasUsed]⟩
    | commitTransaction env tx ctx now env1 r _ hct ih =>
      cases r with
      | error err => exact hP.failed _ _ _ _ _ _ ih hct
      | ok logs => exact hP.counted _ _ _ _ _ _ ih hct
    | commitTransactions w env txs interrupt ctx now r _ hr ih =>
      exact commitTransactions_inv hP ih hr
    | commitBundle w env txs interrupt ctx now r _ hr ih =>
      exact commitBundle_inv hP ih hr
  obtain ⟨gas, hg, hs⟩ := key
  exact ⟨gas, hg, hs, by omega⟩

theorem demoExt_appliesWithinPool (pending : List (Nat × List LazyTransaction)) :
    AppliesWithinPool (demoExt pending) := by
  intro coinbase gasPool state header tx usedGas ctx now receipt state1 gasPool1 usedGas1 h
  simp only [demoExt] at h
  split at h
  · simp at h
  · rename_i hlt
    simp only [ApplyResult.ok.injEq] at h
    obtain ⟨hr, -, hg, -⟩ := h
    subst hr hg
    have hge : tx.Gas ≤ gasPool := Nat.le_of_not_lt hlt
    exact ⟨hge, rfl⟩

/-- Witness of C6: the environment `demoEnv` is what `makeEnv` makes, and one
transfer run on it leaves 79000 of the 100000 gas. -/
theorem built_gas_accounted_witness :
    AppliesWithinPool (demoExt []) ∧ Built (demoExt []) demoEnvAfter
      ∧ sumGasUsed demoEnvAfter.receipts + 79000 = demoEnvAfter.header.GasLimit := by
  have hX := demoExt_appliesWithinPool []
  have hb : Built (demoExt []) demoEnvAfter :=
    Built.commitTransaction demoEnv (demoTx 1 5) none 0 demoEnvAfter (.ok [])
      (Built.makeEnv (demoHeader 10 30000000 1000) (demoHeader 11 100000 1001) 7 demoEnv rfl) rfl
  obtain ⟨gas, hg, hs, -⟩ := built_gas_accounted (demoExt []) hX demoEnvAfter hb
  have h79 : gas = 79000 := by
    have : demoEnvAfter.gasPool = some 79000 := rfl
    rw [this] at hg
    exact (Option.some.inj hg).symm
  rw [h79] at hs
  exact ⟨hX, hb, hs⟩

/-! ## Alignment of receipts and transactions -/

/-- C7, as stated, fails: `commitTransaction` run on the environment that
`makeEnv` makes appends a transaction and its receipt and leaves `tcount` at
zero. -/
theorem commitTransaction_leaves_tcount :
    makeEnv (demoExt []) (demoHeader 10 30000000 1000) (demoHeader 11 100000 1001) 7
        = .ok demoEnv
    ∧ commitTransaction (demoExt []) demoEnv (demoTx 1 5) none 0 = .val (demoEnvAfter, .ok [])
    ∧ demoEnvAfter.txs.length = 1 ∧ demoEnvAfter.receipts.length = 1
    ∧ demoEnvAfter.tcount = 0 := by
  refine ⟨rfl, rfl, rfl, rfl, rfl⟩

theorem aligned_counted_invariant (X : Ext) :
    BuildInvariant X (fun env => Aligned X env ∧ Counted env) where
  state := fun env st h => h
  deps := fun env a b h => h
  extra := fun env e h => h
  pool := fun env h => by
    unfold environment.withGasPool
    cases env.gasPool <;> exact h
  failed := fun env tx ctx now env1 err h hct => by
    obtain ⟨gp, hgp, hc | hc⟩ := commitTransaction_cases X env tx ctx now env1 _ hct
    · obtain ⟨_, _, he⟩ := hc
      rw [he]; exact h
    · obtain ⟨_, _, _, _, _, hr, _⟩ := hc
      cases hr
  counted := fun env tx ctx now env1 logs h hct => by
    obtain ⟨gp, hgp, hc | hc⟩ := commitTransaction_cases X env tx ctx now env1 _ hct
    · obtain ⟨_, hr, _⟩ := hc
      cases hr
    · obtain ⟨receipt, state, gasPool, usedGas, happ, _, he⟩ := hc
      rw [he]
      refine ⟨?_, ?_, ?_⟩
      · show List.Forall₂ (Produced X) (env.txs ++ [tx]) (env.receipts ++ [receipt])
        exact List.rel_append h.1
          (List.Forall₂.cons ⟨_, _, _, _, _, _, _, _, _, _, happ⟩ List.Forall₂.nil)
      · show (env.txs ++ [tx]).length = env.tcount + 1
        rw [List.length_append, h.2.1]; rfl
      · show (env.receipts ++ [receipt]).length = env.tcount + 1
        rw [List.length_append, h.2.2]; rfl

theorem copy_eq (env : environment) : env.copy = env := by
  cases env
  simp [environment.copy, copyReceipts]

/-- C7, amended: every environment made by `makeEnv` and taken through any
sequence of `commitTransactions`, `commitBundle` and `copy` calls has as many
transactions as receipts as `tcount` says, the receipt at each index produced
by executing the transaction at that index.  `commitTransaction` keeps the
receipts aligned with the transactions and leaves `tcount` as it is, to be
counted by its caller: on failure the transactions and receipts are unchanged,
on success exactly the transaction and a receipt produced by executing it are
appended. -/
theorem filled_aligned_counted (X : Ext) :
    (∀ env : environment, Filled X env →
      Aligned X env ∧ env.txs.length = env.receipts.length ∧ env.receipts.length = env.tcount)
    ∧ (∀ (env : environment) (tx : Transaction) (ctx : InterruptCtx) (now : Nat)
        (env1 : environment) (r : Except Err (List Log)),
        Aligned X env → commitTransaction X env tx ctx now = .val (env1, r) →
        Aligned X env1 ∧ env1.txs.length = env1.receipts.length ∧ env1.tcount = env.tcount
        ∧ ((∃ err, r = .error err) → env1.txs = env.txs ∧ env1.receipts = env.receipts)
        ∧ ((∃ logs, r = .ok logs) → ∃ receipt : Receipt, Produced X tx receipt
            ∧ env1.txs = env.txs ++ [tx] ∧ env1.receipts = env.receipts ++ [receipt])) := by
  have hP := aligned_counted_invariant X
  constructor
  · intro env hf
    have key : Aligned X env ∧ Counted env := by
      induction hf with
      | makeEnv parent header coinbase env h =>
        obtain ⟨_, _, ht, hr, hc, _⟩ := makeEnv_eq h
        refine ⟨?_, ?_, ?_⟩
        · unfold Aligned; rw [ht, hr]; exact List.Forall₂.nil
        · rw [ht, hc]; rfl
        · rw [hr, hc]; rfl
      | commitTransactions w env txs interrupt ctx now r _ hr ih =>
        exact commitTransactions_inv hP ih hr
      | commitBundle w env txs interrupt ctx now r _ hr ih =>
        exact commitBundle_inv hP ih hr
      | copy env _ ih => rw [copy_eq]; exact ih
    exact ⟨key.1, by rw [key.2.1, key.2.2], key.2.2⟩
  · intro env tx ctx now env1 r ha hct
    obtain ⟨gp, hgp, hc | hc⟩ := commitTransaction_cases X env tx ctx now env1 r hct
    · obtain ⟨err, hr, he⟩ := hc
      subst he hr
      refine ⟨ha, List.Forall₂.length_eq ha, rfl, fun _ => ⟨rfl, rfl⟩, ?_⟩
      rintro ⟨logs, hl⟩
      cases hl
    · obtain ⟨receipt, state, gasPool, usedGas, happ, hr, he⟩ := hc
      have hprod : Produced X tx receipt := ⟨_, _, _, _, _, _, _, _, _, _, happ⟩
      have ha1 : Aligned X env1 := by
        rw [he]
        show List.Forall₂ (Produced X) (env.txs ++ [tx]) (env.receipts ++ [receipt])
        exact List.rel_append ha (List.Forall₂.cons hprod List.Forall₂.nil)
      refine ⟨ha1, List.Forall₂.length_eq ha1, by rw [he], ?_, ?_⟩
      · rintro ⟨err, hl⟩
        rw [hr] at hl
        cases hl
      · intro _
        exact ⟨receipt, hprod, by rw [he], by rw [he]⟩

/-- Witness of C7: the environment that `makeEnv` makes, copied; and the
transfer that `commitTransaction` appends to it. -/
theorem filled_aligned_counted_witness :
    Filled (demoExt []) demoEnv.copy
    ∧ demoEnv.copy.txs.length = demoEnv.copy.tcount
    ∧ demoEnvAfter.txs = demoEnv.txs ++ [demoTx 1 5]
    ∧ demoEnvAfter.tcount = demoEnv.tcount := by
  have hf : Filled (demoExt []) demoEnv.copy :=
    Filled.copy demoEnv
      (Filled.makeEnv (demoHeader 10 30000000 1000) (demoHeader 11 100000 1001) 7 demoEnv rfl)
  have h1 := (filled_aligned_counted (demoExt [])).1 demoEnv.copy hf
  have h2 := (filled_aligned_counted (demoExt [])).2 demoEnv (demoTx 1 5) none 0 demoEnvAfter
    (.ok []) List.Forall₂.nil rfl
  obtain ⟨receipt, -, ht, -⟩ := h2.2.2.2.2 ⟨[], rfl⟩
  exact ⟨hf, by rw [h1.2.1, h1.2.2], ht, h2.2.2.1⟩

/-! ## What a round sends -/

theorem tasksSent_append (a b : List Event) : tasksSent (a ++ b) = tasksSent a ++ tasksSent b := by
  induction a with
  | nil => rfl
  | cons e rest ih => cases e <;> simp [tasksSent, ih]

theorem adjustsSent_append (a b : List Event) :
    adjustsSent (a ++ b) = adjustsSent a ++ adjustsSent b := by
  induction a with
  | nil => rfl
  | cons e rest ih => cases e <;> simp [adjustsSent, ih]

theorem commitTransactions_events {X : Ext} {w : worker} {env : environment}
    {txs : transactionsByPriceAndNonce} {interrupt : InterruptFlag}
    {interruptCtx : InterruptCtx} {now : Nat} {r : CommitResult}
    (hr : commitTransactions X w env txs interrupt interruptCtx now = .val r) :
    tasksSent r.events = [] ∧ adjustsSent r.events = [] := by
  unfold commitTransactions at hr
  simp only at hr
  split at hr
  · simp at hr
  · simp only [Ret.val.injEq] at hr
    rw [← hr]; exact ⟨rfl, rfl⟩
  · split at hr
    · simp at hr
    · simp only [Ret.val.injEq] at hr
      rw [← hr]; exact ⟨rfl, rfl⟩
    · simp only [Ret.val.injEq] at hr
      rw [← hr]
      simp only
      split <;> exact ⟨rfl, rfl⟩

theorem commitBundleLoop_events (X : Ext) (interrupt : InterruptFlag)
    (interruptCtx : InterruptCtx) (gasLimit : Nat) :
    ∀ (txs : List Transaction) (env : environment) (now : Nat) (logs : List Log)
      (r : BundleLoopEnd),
      commitBundleLoop X interrupt interruptCtx gasLimit txs env now logs = .val r →
      r.events = [] ∨ (r.ret = some .errBundleInterrupted
        ∧ ∃ a : intervalAdjust, r.events = [.adjust a]) := by
  intro txs
  induction txs with
  | nil =>
    intro env now logs r hr
    simp only [commitBundleLoop, Ret.val.injEq] at hr
    rw [← hr]; exact Or.inl rfl
  | cons tx rest ih =>
    intro env now logs r hr
    simp only [commitBundleLoop] at hr
    split at hr
    · simp only [Ret.val.injEq] at hr
      rw [← hr]; exact Or.inl rfl
    · split at hr
      · split at hr
        · split at hr
          · simp at hr
          · simp only [Ret.val.injEq] at hr
            rw [← hr]; exact Or.inr ⟨rfl, _, rfl⟩
        · simp only [Ret.val.injEq] at hr
          rw [← hr]; exact Or.inl rfl
      · split at hr
        · simp at hr
        · split at hr
          · simp only [Ret.val.injEq] at hr
            rw [← hr]; exact Or.inl rfl
          · split at hr
            · simp only [Ret.val.injEq] at hr
              rw [← hr]; exact Or.inl rfl
            · split at hr
              · simp at hr
              · simp only [Ret.val.injEq] at hr
                rw [← hr]; exact Or.inl rfl
              · exact ih _ _ _ _ hr

theorem commitBundle_events {X : Ext} {w : worker} {env : environment}
    {txs : List Transaction} {interrupt : InterruptFlag} {interruptCtx : InterruptCtx}
    {now : Nat} {r : CommitResult}
    (hr : commitBundle X w env txs interrupt interruptCtx now = .val r) :
    tasksSent r.events = []
      ∧ (r.err ≠ some .errBundleInterrupted →
          ∀ a ∈ adjustsSent r.events, a.inc = false) := by
  unfold commitBundle at hr
  simp only at hr
  split at hr
  · simp at hr
  · rename_i env1 now1 events l err hl
    simp only [Ret.val.injEq] at hr
    rw [← hr]
    rcases commitBundleLoop_events X _ _ _ _ _ _ _ _ hl with h | ⟨h1, a, h2⟩
    · simp only at h
      subst h
      exact ⟨rfl, fun _ a ha => by simp [adjustsSent] at ha⟩
    · simp only at h1 h2
      subst h2
      exact ⟨rfl, fun hne => absurd h1 hne⟩
  · rename_i env1 now1 events l hl
    simp only [Ret.val.injEq] at hr
    rw [← hr]
    rcases commitBundleLoop_events X _ _ _ _ _ _ _ _ hl with h | ⟨h1, _⟩
    · simp only at h
      subst h
      simp only [List.nil_append]
      constructor
      · cases interrupt <;> (split <;> rfl)
      · intro _ a ha
        cases interrupt <;> (split at ha <;> simp [adjustsSent] at ha <;> simp [ha])
    · simp at h1

theorem fillPhase_events {X : Ext} {w : worker} {interrupt : InterruptFlag}
    {interruptCtx : InterruptCtx} {txsByAccount : List (Nat × List LazyTransaction)}
    {env : environment} {now : Nat} {r : CommitResult}
    (hr : fillPhase X w interrupt interruptCtx txsByAccount env now = .val r) :
    tasksSent r.events = [] ∧ adjustsSent r.events = [] := by
  unfold fillPhase at hr
  split at hr
  · exact commitTransactions_events hr
  · simp only [Ret.val.injEq] at hr
    rw [← hr]; exact ⟨rfl, rfl⟩

theorem fillPhase_inv {X : Ext} {P : environment → Prop} (hP : BuildInvariant X P) {w : worker}
    {interrupt : InterruptFlag} {interruptCtx : InterruptCtx}
    {txsByAccount : List (Nat × List LazyTransaction)} {env : environment} {now : Nat}
    {r : CommitResult} (h : P env)
    (hr : fillPhase X w interrupt interruptCtx txsByAccount env now = .val r) : P r.env := by
  unfold fillPhase at hr
  split at hr
  · exact commitTransactions_inv hP h hr
  · simp only [Ret.val.injEq] at hr
    rw [← hr]; exact h

theorem fillOrdinary_events {X : Ext} {w : worker} {interrupt : InterruptFlag}
    {interruptCtx : InterruptCtx} {env : environment} {now : Nat} {r : CommitResult}
    (hr : fillOrdinary X w interrupt interruptCtx env now = .val r) :
    tasksSent r.events = [] ∧ adjustsSent r.events = [] := by
  unfold fillOrdinary at hr
  simp only at hr
  split at hr
  · simp at hr
  · rename_i env1 now1 events1 err h1
    simp only [Ret.val.injEq] at hr
    rw [← hr]
    exact fillPhase_events h1
  · rename_i env1 now1 events1 h1
    split at hr
    · simp at hr
    · rename_i env2 now2 events2 err h2
      simp only [Ret.val.injEq] at hr
      rw [← hr]
      have e1 := fillPhase_events h1
      have e2 := fillPhase_events h2
      simp only at e1 e2
      simp only [tasksSent_append, adjustsSent_append, e1, e2, List.append_nil, and_self]

theorem fillOrdinary_inv {X : Ext} {P : environment → Prop} (hP : BuildInvariant X P)
    {w : worker} {interrupt : InterruptFlag} {interruptCtx : InterruptCtx} {env : environment}
    {now : Nat} {r : CommitResult} (h : P env)
    (hr : fillOrdinary X w interrupt interruptCtx env now = .val r) : P r.env := by
  unfold fillOrdinary at hr
  simp only at hr
  split at hr
  · simp at hr
  · rename_i env1 now1 events1 err h1
    simp only [Ret.val.injEq] at hr
    rw [← hr]
    exact fillPhase_inv hP h h1
  · rename_i env1 now1 events1 h1
    have p1 : P env1 := fillPhase_inv hP h h1
    split at hr
    · simp at hr
    · rename_i env2 now2 events2 err h2
      simp only [Ret.val.injEq] at hr
      rw [← hr]
      show P env2
      exact fillPhase_inv hP p1 h2

theorem fillTransactions_events {X : Ext} {w : worker} {interrupt : InterruptFlag}
    {env : environment} {interruptCtx : InterruptCtx} {now : Nat} {r : CommitResult}
    (hr : fillTransactions X w interrupt env interruptCtx now = .val r) :
    tasksSent r.events = []
      ∧ (r.err ≠ some .errBundleInterrupted → ∀ a ∈ adjustsSent r.events, a.inc = false)
      ∧ (w.isFlashbots = false → adjustsSent r.events = []) := by
  unfold fillTransactions at hr
  split at hr
  · rename_i hfb
    have hfalse : w.isFlashbots = false → adjustsSent r.events = [] := fun h => by
      rw [h] at hfb; cases hfb
    split at hr
    · simp only [Ret.val.injEq] at hr
      rw [← hr] at hfalse ⊢
      exact ⟨rfl, fun _ a ha => (by simp [adjustsSent] at ha), hfalse⟩
    · split at hr
      · simp at hr
      · split at hr
        · simp only [Ret.val.injEq] at hr
          rw [← hr] at hfalse ⊢
          exact ⟨rfl, fun _ a ha => (by simp [adjustsSent] at ha), hfalse⟩
        · split at hr
          · simp at hr
          · rename_i env1 now1 events1 err hb
            simp only [Ret.val.injEq] at hr
            rw [← hr] at hfalse ⊢
            exact ⟨(commitBundle_events hb).1, (commitBundle_events hb).2, hfalse⟩
          · rename_i env1 now1 events1 hb
            simp only at hr
            split at hr
            · simp at hr
            · rename_i env3 now3 events3 err ho
              simp only [Ret.val.injEq] at hr
              rw [← hr] at hfalse ⊢
              have eb := commitBundle_events hb
              have eo := fillOrdinary_events ho
              simp only at eb eo
              refine ⟨by simp only [tasksSent_append, eb.1, eo.1, List.append_nil], ?_, hfalse⟩
              intro _ a ha
              simp only [adjustsSent_append, eo.2, List.append_nil] at ha
              exact eb.2 (by simp) a ha
  · have eo := fillOrdinary_events hr
    exact ⟨eo.1, fun _ a ha => (by rw [eo.2] at ha; cases ha), fun _ => eo.2⟩

theorem fillTransactions_inv {X : Ext} {P : environment → Prop} (hP : BuildInvariant X P)
    (hprofit : ∀ (env : environment) (p : Int), P env → P { env with profit := p })
    {w : worker} {interrupt : InterruptFlag} {env : environment} {interruptCtx : InterruptCtx}
    {now : Nat} {r : CommitResult} (h : P env)
    (hr : fillTransactions X w interrupt env interruptCtx now = .val r) : P r.env := by
  unfold fillTransactions at hr
  split at hr
  · split at hr
    · simp only [Ret.val.injEq] at hr
      rw [← hr]; exact h
    · split at hr
      · simp at hr
      · split at hr
        · simp only [Ret.val.injEq] at hr
          rw [← hr]; exact h
        · split at hr
          · simp at hr
          · rename_i env1 now1 events1 err hb
            simp only [Ret.val.injEq] at hr
            rw [← hr]
            exact commitBundle_inv hP h hb
          · rename_i env1 now1 events1 hb
            have p1 : P env1 := commitBundle_inv hP h hb
            simp only at hr
            split at hr
            · simp at hr
            · rename_i env3 now3 events3 err ho
              simp only [Ret.val.injEq] at hr
              rw [← hr]
              show P env3
              exact fillOrdinary_inv hP (hprofit _ _ p1) ho
  · exact fillOrdinary_inv hP h hr

theorem gasPool_allocated_invariant (X : Ext) :
    BuildInvariant X (fun env => env.gasPool ≠ none) where
  state := fun env st h => h
  deps := fun env a b h => h
  extra := fun env e h => h
  pool := fun env _ => by
    unfold environment.withGasPool
    cases hg : env.gasPool <;> simp [hg]
  failed := fun env tx ctx now env1 err _ hct => by
    obtain ⟨gp, hgp, hc | hc⟩ := commitTransaction_cases X env tx ctx now env1 _ hct
    · obtain ⟨_, _, he⟩ := hc
      rw [he]; simp
    · obtain ⟨_, _, _, _, _, hr, _⟩ := hc
      cases hr
  counted := fun env tx ctx now env1 logs _ hct => by
    obtain ⟨gp, hgp, hc | hc⟩ := commitTransaction_cases X env tx ctx now env1 _ hct
    · obtain ⟨_, hr, _⟩ := hc
      cases hr
    · obtain ⟨_, _, _, _, _, _, he⟩ := hc
      rw [he]; simp

theorem commitWorkPrepare_gasPool {X : Ext} {w : worker} {timestamp : Int} {work : environment}
    (h : commitWorkPrepare X w timestamp = .ok (some work)) : work.gasPool ≠ none := by
  unfold commitWorkPrepare at h
  split at h
  · simp at h
  · split at h
    · simp at h
    · rename_i env hp
      simp only [Except.ok.injEq, Option.some.injEq] at h
      subst h
      unfold prepareWork at hp
      split at hp
      · simp at hp
      · split at hp
        · simp at hp
        · split at hp
          · simp at hp
          · rw [(makeEnv_eq hp).1]
            simp

/-! ## Rounds interrupted by a new head or by a resubmit -/

/-- C2, as stated, fails: a running worker with the pre-seal of empty blocks
enabled sends the empty block as a task before it fills the transactions; the
flag holds NewHead at the first iteration of `commitTransactions`, the filling
returns the new-head error, and the round has sent a task all the same. -/
theorem commitWork_newHead_sends_empty_task :
    fillTransactions (demoExt demoPending) demoWorker (some demoNewHead) demoWork backgroundCtx 0
        = .val ⟨demoWork, 0, [], some .errBlockInterruptedByNewHead⟩
    ∧ commitWork (demoExt demoPending) demoWorker (some demoNewHead) false 2000 demoNotFired 0
        = .val (demoWorker, [.taskSent demoEmptyTask, .discard demoWork]) := by
  constructor <;> rfl

/-- C2, amended: in a round of `commitWork` whose filling is interrupted by a
new head (`fillTransactions` returns the new-head error, which is what
`commitTransactions` returns when it finds NewHead at the start of an
iteration), the work is discarded, no full block is committed, the current
environment of the worker is not replaced, and the filling itself sends no
task.  The only tasks of the round are those of the pre-seal of the empty
block, sent before the filling started; there is none when the request or the
worker says `noempty`. -/
theorem commitWork_newHead_discards (X : Ext) (w : worker) (interrupt : InterruptFlag)
    (noempty : Bool) (timestamp : Int) (deadline : Nat → Bool) (now : Nat) (work : environment)
    (interruptCtx : InterruptCtx) (r : CommitResult)
    (hsync : w.syncing = false)
    (hprep : commitWorkPrepare X w timestamp = .ok (some work))
    (hctx : commitWorkCtx X w noempty deadline (some work) = .val interruptCtx)
    (hfill : fillTransactions X w interrupt work interruptCtx now = .val r)
    (herr : r.err = some .errBlockInterruptedByNewHead) :
    commitWork X w interrupt noempty timestamp deadline now
        = .val (w, commitWorkEmpty X w noempty work ++ r.events ++ [.discard r.env])
    ∧ tasksSent r.events = []
    ∧ tasksSent (commitWorkEmpty X w noempty work ++ r.events ++ [.discard r.env])
        = tasksSent (commitWorkEmpty X w noempty work)
    ∧ (noempty = true ∨ w.noempty = true →
        tasksSent (commitWorkEmpty X w noempty work ++ r.events ++ [.discard r.env]) = []) := by
  have ht : tasksSent r.events = [] := (fillTransactions_events hfill).1
  have hall : tasksSent (commitWorkEmpty X w noempty work ++ r.events ++ [.discard r.env])
      = tasksSent (commitWorkEmpty X w noempty work) := by
    simp [tasksSent_append, ht, tasksSent]
  refine ⟨?_, ht, hall, ?_⟩
  · obtain ⟨env1, now1, events, err⟩ := r
    simp only at herr
    subst herr
    simp [commitWork, hsync, hprep, hctx, hfill]
  · intro hne
    rw [hall]
    unfold commitWorkEmpty
    rcases hne with h | h <;> simp [h, tasksSent]

/-- Witness of C2: a round of a worker that does not pre-seal empty blocks,
interrupted by a new head at the first iteration, sends nothing but the
discard of its work and leaves the worker as it was. -/
theorem commitWork_newHead_discards_witness :
    commitWork (demoExt demoPending) { demoWorker with noempty := true } (some demoNewHead)
        false 2000 demoNotFired 0
      = .val ({ demoWorker with noempty := true }, [.discard demoWork])
    ∧ tasksSent ([] ++ [] ++ [Event.discard demoWork]) = [] := by
  have h := commitWork_newHead_discards (demoExt demoPending) { demoWorker with noempty := true }
    (some demoNewHead) false 2000 demoNotFired 0 demoWork backgroundCtx
    ⟨demoWork, 0, [], some .errBlockInterruptedByNewHead⟩ rfl rfl rfl rfl rfl
  exact ⟨h.1, h.2.2.2 (Or.inr rfl)⟩

theorem usedGasRatio_eq (gasLimit gas : Nat) (hpos : 0 < gasLimit) (hle : gas ≤ gasLimit)
    (h64 : gasLimit < 2 ^ 64) :
    usedGasRatio gasLimit gas = max (1 / 10) (((gasLimit : ℚ) - (gas : ℚ)) / (gasLimit : ℚ))
      ∧ 1 / 10 ≤ usedGasRatio gasLimit gas ∧ usedGasRatio gasLimit gas ≤ 1 := by
  have hmod : (gasLimit + 2 ^ 64 - gas) % 2 ^ 64 = gasLimit - gas := by
    have : gasLimit + 2 ^ 64 - gas = (gasLimit - gas) + 2 ^ 64 := by omega
    rw [this, Nat.add_mod_right]
    exact Nat.mod_eq_of_lt (by omega)
  have hcast : ((gasLimit - gas : Nat) : ℚ) = (gasLimit : ℚ) - (gas : ℚ) := Nat.cast_sub hle
  have hposq : (0 : ℚ) < (gasLimit : ℚ) := by exact_mod_cast hpos
  have hgas : (0 : ℚ) ≤ (gas : ℚ) := by exact_mod_cast Nat.zero_le gas
  have hr1 : ((gasLimit : ℚ) - (gas : ℚ)) / (gasLimit : ℚ) ≤ 1 := by
    rw [div_le_one hposq]
    linarith
  unfold usedGasRatio
  simp only [hmod, hcast]
  by_cases hlt : ((gasLimit : ℚ) - (gas : ℚ)) / (gasLimit : ℚ) < 1 / 10
  · rw [if_pos hlt, max_eq_left (le_of_lt hlt)]
    exact ⟨rfl, le_refl _, by norm_num⟩
  · rw [if_neg hlt, max_eq_right (not_lt.mp hlt)]
    exact ⟨rfl, not_lt.mp hlt, hr1⟩

theorem commit_adjustsSent (X : Ext) (w : worker) (env : environment) (interval update : Bool) :
    adjustsSent (commit X w env interval update).1 = [] := by
  unfold commit
  simp only
  split
  · split
    · cases interval <;> simp [adjustsSent]
    · cases interval <;> cases update <;> simp only [adjustsSent_append] <;>
        (repeat' split) <;> simp [adjustsSent]
  · cases update <;> simp [adjustsSent]

theorem commitWorkEmpty_adjustsSent (X : Ext) (w : worker) (noempty : Bool) (work : environment) :
    adjustsSent (commitWorkEmpty X w noempty work) = [] := by
  unfold commitWorkEmpty
  split
  · exact commit_adjustsSent X w _ _ _
  · rfl

/-- C4: in a round of `commitWork` whose filling is interrupted by a resubmit
(`fillTransactions` returns the recommit error), the round sends, after what
the pre-seal and the filling sent, one interval adjustment with `inc = true`
and the ratio of used gas, then commits the partially filled work as the full
block (with the full-task hook and the snapshot update) and replaces the
current environment.  That adjustment is the only one of the round with
`inc = true`, and the only one at all outside bundle mode.  With a positive
gas limit and at most that much gas left in the pool the ratio is
`max(1/10, (gasLimit - gasLeft) / gasLimit)` and lies between `1/10` and `1`.
The `float64` ratio is taken as an exact rational. -/
theorem commitWork_resubmit_adjusts (X : Ext) (w : worker) (interrupt : InterruptFlag)
    (noempty : Bool) (timestamp : Int) (deadline : Nat → Bool) (now : Nat) (work : environment)
    (interruptCtx : InterruptCtx) (r : CommitResult)
    (hsync : w.syncing = false)
    (hprep : commitWorkPrepare X w timestamp = .ok (some work))
    (hctx : commitWorkCtx X w noempty deadline (some work) = .val interruptCtx)
    (hfill : fillTransactions X w interrupt work interruptCtx now = .val r)
    (herr : r.err = some .errBlockInterruptedByRecommit) :
    ∃ (gas : Nat) (events : List Event),
      r.env.gasPool = some gas
      ∧ events = commitWorkEmpty X w noempty work ++ r.events
          ++ [.adjust { ratio := usedGasRatio r.env.header.GasLimit gas, inc := true }]
          ++ (commit X w r.env.copy w.hasFullTaskHook true).1
          ++ (match w.current with
              | none => []
              | some cur => [Event.discard cur])
      ∧ commitWork X w interrupt noempty timestamp deadline now
          = .val ({ w with current := some r.env }, events)
      ∧ (adjustsSent events).filter (fun a => a.inc)
          = [{ ratio := usedGasRatio r.env.header.GasLimit gas, inc := true }]
      ∧ (w.isFlashbots = false →
          adjustsSent events = [{ ratio := usedGasRatio r.env.header.GasLimit gas, inc := true }])
      ∧ (0 < r.env.header.GasLimit → gas ≤ r.env.header.GasLimit →
          r.env.header.GasLimit < 2 ^ 64 →
          usedGasRatio r.env.header.GasLimit gas
              = max (1 / 10) (((r.env.header.GasLimit : ℚ) - (gas : ℚ))
                  / (r.env.header.GasLimit : ℚ))
            ∧ 1 / 10 ≤ usedGasRatio r.env.header.GasLimit gas
            ∧ usedGasRatio r.env.header.GasLimit gas ≤ 1) := by
  have hpool : r.env.gasPool ≠ none :=
    fillTransactions_inv (gasPool_allocated_invariant X) (fun _ _ h => h)
      (commitWorkPrepare_gasPool hprep) hfill
  obtain ⟨gas, hgas⟩ := Option.ne_none_iff_exists'.mp hpool
  have hev := fillTransactions_events hfill
  have hfilled : ∀ a ∈ adjustsSent r.events, a.inc = false :=
    hev.2.1 (by rw [herr]; simp)
  have hold : adjustsSent (match w.current with
      | none => []
      | some cur => [Event.discard cur]) = [] := by
    cases w.current <;> rfl
  refine ⟨gas, _, hgas, rfl, ?_, ?_, ?_, usedGasRatio_eq _ _⟩
  · obtain ⟨env1, now1, events, err⟩ := r
    simp only at herr hgas
    subst herr
    simp [commitWork, hsync, hprep, hctx, hfill, hgas]
  · simp only [adjustsSent_append, commitWorkEmpty_adjustsSent, commit_adjustsSent, hold,
      List.nil_append, List.append_nil, List.filter_append, adjustsSent]
    have hnone : (adjustsSent r.events).filter (fun a => a.inc) = [] := by
      rw [List.filter_eq_nil_iff]
      intro a ha
      simp [hfilled a ha]
    rw [hnone]
    simp
  · intro hfb
    simp only [adjustsSent_append, commitWorkEmpty_adjustsSent, commit_adjustsSent, hold,
      List.nil_append, List.append_nil, adjustsSent, hev.2.2 hfb]

/-- Witness of C4: a round of `demoWorker` interrupted by a resubmit before the
first transaction sends exactly one adjustment, `inc = true` with the floor
ratio `1/10`. -/
theorem commitWork_resubmit_adjusts_witness :
    (match commitWork (demoExt demoPending) demoWorker (some demoResubmit) true 2000
        demoNotFired 0 with
      | .val (_, events) => adjustsSent events
      | .panic => [])
      = [{ ratio := 1 / 10, inc := true }] := by
  obtain ⟨gas, events, hg, -, hc, -, hall, hb⟩ :=
    commitWork_resubmit_adjusts (demoExt demoPending) demoWorker (some demoResubmit) true 2000
      demoNotFired 0 demoWork backgroundCtx
      ⟨demoWork, 0, [], some .errBlockInterruptedByRecommit⟩ rfl rfl rfl rfl rfl
  have hgas : gas = 30000000 := by
    have : demoWork.gasPool = some 30000000 := rfl
    simp only at hg
    rw [this] at hg
    exact (Option.some.inj hg).symm
  subst hgas
  have hGL : demoWork.header.GasLimit = 30000000 := rfl
  simp only [hGL] at hall hb
  obtain ⟨hratio, -, -⟩ := hb (by norm_num) (by norm_num) (by norm_num)
  rw [hc]
  simp only
  rw [hall rfl, hratio]
  norm_num

/-! ## The sealing loop -/

theorem onTask_cases (X : Ext) (hook : Option (task → Bool)) (s : TaskLoop) (t : task) :
    (s.onTask X hook t = (s, [])
      ∧ (X.SealHash t.block.header = s.prev
        ∨ ∃ prevProfit, s.prevProfit = some prevProfit
            ∧ t.block.header.ParentHash = s.prevParentHash ∧ t.profit < prevProfit))
    ∨ (X.SealHash t.block.header ≠ s.prev
      ∧ (∀ prevProfit, s.prevProfit = some prevProfit →
          t.block.header.ParentHash = s.prevParentHash → prevProfit ≤ t.profit)
      ∧ (s.onTask X hook t).1.prev = X.SealHash t.block.header
      ∧ (s.onTask X hook t).1.prevParentHash = t.block.header.ParentHash
      ∧ (s.onTask X hook t).1.prevProfit = some t.profit
      ∧ (s.onTask X hook t).1.stopCh = some s.made
      ∧ (s.onTask X hook t).1.made = s.made + 1
      ∧ (s.onTask X hook t).1.openChs
          = s.made :: (match s.stopCh with
              | none => s.openChs
              | some ch => s.openChs.erase ch)
      ∧ ((s.onTask X hook t).2
            = (match s.stopCh with
                | none => []
                | some ch => [SealEvent.close ch]) ++ [.proposed t]
          ∧ (∃ h, hook = some h ∧ h t = true)
        ∨ (s.onTask X hook t).2
            = (match s.stopCh with
                | none => []
                | some ch => [SealEvent.close ch]) ++ [.proposed t, .sealCall t s.made]
          ∧ (hook = none ∨ ∃ h, hook = some h ∧ h t = false))) := by
  by_cases h1 : X.SealHash t.block.header = s.prev
  · left
    exact ⟨by simp [TaskLoop.onTask, h1], Or.inl h1⟩
  · cases hp : s.prevProfit with
    | none =>
      right
      refine ⟨h1, fun p h => (by cases h), ?_⟩
      cases hs : s.stopCh <;> cases hook with
      | none =>
        cases hseal : X.Seal t.block s.made <;>
          simp [TaskLoop.onTask, TaskLoop.interrupt, h1, hp, hs, hseal]
      | some h =>
        cases hk : h t <;> cases hseal : X.Seal t.block s.made <;>
          simp [TaskLoop.onTask, TaskLoop.interrupt, h1, hp, hs, hseal, hk]
    | some prevProfit =>
      by_cases h2 : t.block.header.ParentHash = s.prevParentHash ∧ t.profit < prevProfit
      · left
        refine ⟨by simp [TaskLoop.onTask, h1, hp, h2.1, h2.2], Or.inr ⟨prevProfit, rfl, h2⟩⟩
      · right
        have h2' : (decide (t.block.header.ParentHash = s.prevParentHash)
            && decide (t.profit < prevProfit)) = false := by
          simpa using h2
        refine ⟨h1, fun p h hpar => ?_, ?_⟩
        · cases h
          exact not_lt.mp fun hlt => h2 ⟨hpar, hlt⟩
        · cases hs : s.stopCh <;> cases hook with
          | none =>
            cases hseal : X.Seal t.block s.made <;>
              simp [TaskLoop.onTask, TaskLoop.interrupt, h1, hp, hs, hseal, h2']
          | some h =>
            cases hk : h t <;> cases hseal : X.Seal t.block s.made <;>
              simp [TaskLoop.onTask, TaskLoop.interrupt, h1, hp, hs, hseal, hk, h2']

theorem proposedTasks_append (a b : List SealEvent) :
    proposedTasks (a ++ b) = proposedTasks a ++ proposedTasks b := by
  induction a with
  | nil => rfl
  | cons e rest ih => cases e <;> simp [proposedTasks, ih]

theorem sealCalls_append (a b : List SealEvent) :
    sealCalls (a ++ b) = sealCalls a ++ sealCalls b := by
  induction a with
  | nil => rfl
  | cons e rest ih => cases e <;> simp [sealCalls, ih]

theorem closes_proposed (stopCh : Option Nat) :
    proposedTasks (match stopCh with
      | none => []
      | some ch => [SealEvent.close ch]) = []
    ∧ sealCalls (match stopCh with
      | none => []
      | some ch => [SealEvent.close ch]) = [] := by
  cases stopCh <;> exact ⟨rfl, rfl⟩

/-- A step of `taskLoop` on a task either drops it, changing nothing and doing
nothing, or accepts it: the task is the one proposed, its seal hash, parent
hash and profit are remembered, and `Seal` is called at most once, for it. -/
theorem onTask_proposed (X : Ext) (hook : Option (task → Bool)) (s : TaskLoop) (t : task) :
    (s.onTask X hook t = (s, []))
    ∨ (proposedTasks (s.onTask X hook t).2 = [t]
      ∧ (s.onTask X hook t).1.prev = X.SealHash t.block.header
      ∧ (s.onTask X hook t).1.prevParentHash = t.block.header.ParentHash
      ∧ (s.onTask X hook t).1.prevProfit = some t.profit
      ∧ (∀ prevProfit, s.prevProfit = some prevProfit →
          t.block.header.ParentHash = s.prevParentHash → prevProfit ≤ t.profit)
      ∧ X.SealHash t.block.header ≠ s.prev
      ∧ (sealCalls (s.onTask X hook t).2 = []
        ∨ (sealCalls (s.onTask X hook t).2 = [t]
          ∧ (hook = none ∨ ∃ h, hook = some h ∧ h t = false)))
      ∧ ((hook = none ∨ ∃ h, hook = some h ∧ h t = false) →
          sealCalls (s.onTask X hook t).2 = [t])) := by
  rcases onTask_cases X hook s t with ⟨h, _⟩ | ⟨hne, hprofit, hprev, hpar, hpp, _, _, _, hev⟩
  · exact Or.inl h
  · right
    have hc := closes_proposed s.stopCh
    rcases hev with ⟨he, hk⟩ | ⟨he, hk⟩
    · refine ⟨?_, hprev, hpar, hpp, hprofit, hne, Or.inl ?_, ?_⟩
      · rw [he, proposedTasks_append, hc.1]; rfl
      · rw [he, sealCalls_append, hc.2]; rfl
      · obtain ⟨h, hh, hskip⟩ := hk
        rintro (hnone | ⟨h', hh', hno⟩)
        · rw [hh] at hnone; cases hnone
        · rw [hh] at hh'
          cases hh'
          rw [hskip] at hno; cases hno
    · have hs : sealCalls (s.onTask X hook t).2 = [t] := by
        rw [he, sealCalls_append, hc.2]; rfl
      refine ⟨?_, hprev, hpar, hpp, hprofit, hne, Or.inr ⟨hs, hk⟩, fun _ => hs⟩
      rw [he, proposedTasks_append, hc.1]; rfl

theorem interrupt_keeps (s : TaskLoop) :
    s.interrupt.1.prev = s.prev ∧ s.interrupt.1.prevParentHash = s.prevParentHash
      ∧ s.interrupt.1.prevProfit = s.prevProfit ∧ proposedTasks s.interrupt.2 = []
      ∧ sealCalls s.interrupt.2 = [] := by
  unfold TaskLoop.interrupt
  cases s.stopCh <;> exact ⟨rfl, rfl, rfl, rfl, rfl⟩

/-- After any run of `taskLoop`, the remembered seal hash, parent hash and
profit are those of the task proposed last, or the initial ones when no task
was proposed. -/
theorem taskLoop_remembers (X : Ext) (hook : Option (task → Bool)) :
    ∀ (inputs : List TaskLoopInput) (s : TaskLoop),
      match (proposedTasks (taskLoop X hook inputs s).2).getLast? with
      | some last =>
        (taskLoop X hook inputs s).1.prev = X.SealHash last.block.header
          ∧ (taskLoop X hook inputs s).1.prevParentHash = last.block.header.ParentHash
          ∧ (taskLoop X hook inputs s).1.prevProfit = some last.profit
      | none =>
        (taskLoop X hook inputs s).1.prev = s.prev
          ∧ (taskLoop X hook inputs s).1.prevParentHash = s.prevParentHash
          ∧ (taskLoop X hook inputs s).1.prevProfit = s.prevProfit := by
  intro inputs
  induction inputs with
  | nil => intro s; simp [taskLoop, proposedTasks]
  | cons input rest ih =>
    intro s
    cases input with
    | exit =>
      have hk := interrupt_keeps s
      simp only [taskLoop, hk.2.2.2.1, List.getLast?_nil]
      exact ⟨hk.1, hk.2.1, hk.2.2.1⟩
    | task t =>
      simp only [taskLoop, proposedTasks_append, List.getLast?_append]
      have ih' := ih (s.onTask X hook t).1
      rcases onTask_proposed X hook s t with hd | ⟨hp, hprev, hpar, hpp, _⟩
      · rw [hd] at ih' ⊢
        simp only [proposedTasks, List.getLast?_nil, Option.or_none]
        exact ih'
      · rw [hp]
        cases hl : (proposedTasks (taskLoop X hook rest (s.onTask X hook t).1).2).getLast? with
        | none =>
          rw [hl] at ih'
          simp only [List.getLast?_singleton, Option.or]
          simp only at ih'
          rw [ih'.1, ih'.2.1, ih'.2.2]
          exact ⟨hprev, hpar, hpp⟩
        | some last =>
          rw [hl] at ih'
          simpa using ih'

/-- C8, as stated, fails: with a `skipSealHook` that skips every task, two
back-to-back tasks with the same non-zero seal hash cause no `Seal` call at
all, although the first one is accepted. -/
theorem taskLoop_skip_hook_no_seal :
    (demoExt []).SealHash (demoTask 11 5 10).block.header = 12
    ∧ proposedTasks (taskLoop (demoExt []) (some demoSkipAll)
        [.task (demoTask 11 5 10), .task (demoTask 11 5 10)] .init).2 = [demoTask 11 5 10]
    ∧ sealCalls (taskLoop (demoExt []) (some demoSkipAll)
        [.task (demoTask 11 5 10), .task (demoTask 11 5 10)] .init).2 = [] := by
  refine ⟨rfl, rfl, rfl⟩

/-- C8, amended: after any sequence of tasks, a task whose seal hash equals the
seal hash of the task accepted last is dropped: the step does nothing (no
`Seal` call, nothing closed) and leaves every variable of the loop and the
pending-tasks table as they were.  From the initial state, two back-to-back
tasks with the same non-zero seal hash cause at most one `Seal` call, and
exactly one, for the first task, when no `skipSealHook` skips it. -/
theorem taskLoop_drops_duplicate (X : Ext) (hook : Option (task → Bool)) (tasks : List task)
    (last t : task)
    (hlast : (proposedTasks (taskLoop X hook (tasks.map .task) .init).2).getLast? = some last)
    (hsame : X.SealHash t.block.header = X.SealHash last.block.header) :
    TaskLoop.onTask X hook (taskLoop X hook (tasks.map .task) .init).1 t
        = ((taskLoop X hook (tasks.map .task) .init).1, [])
    ∧ (∀ t1 t2 : task, X.SealHash t2.block.header = X.SealHash t1.block.header →
        X.SealHash t1.block.header ≠ 0 →
        (sealCalls (taskLoop X hook [.task t1, .task t2] .init).2).length ≤ 1
        ∧ ((hook = none ∨ ∃ h, hook = some h ∧ h t1 = false) →
            sealCalls (taskLoop X hook [.task t1, .task t2] .init).2 = [t1])) := by
  constructor
  · have hr := taskLoop_remembers X hook (tasks.map .task) .init
    rw [hlast] at hr
    simp only at hr
    simp [TaskLoop.onTask, hsame, hr.1]
  · intro t1 t2 h12 hne
    have hstep2 : ∀ s : TaskLoop, s.prev = X.SealHash t1.block.header →
        s.onTask X hook t2 = (s, []) := fun s hs => by
      simp [TaskLoop.onTask, h12, hs]
    rcases onTask_proposed X hook .init t1 with hd | ⟨_, hprev, _, _, _, _, hcalls, hone⟩
    · exfalso
      rcases onTask_cases X hook .init t1 with ⟨_, hz | ⟨p, hp, _⟩⟩ | ⟨_, _, hprev, _⟩
      · exact hne hz
      · cases hp
      · rw [hd] at hprev
        exact hne hprev.symm
    · have hrun : sealCalls (taskLoop X hook [.task t1, .task t2] .init).2
          = sealCalls (TaskLoop.onTask X hook .init t1).2 := by
        simp [taskLoop, hstep2 _ hprev, sealCalls_append, sealCalls]
      rw [hrun]
      refine ⟨?_, hone⟩
      rcases hcalls with h0 | ⟨h1, _⟩
      · rw [h0]; simp
      · rw [h1]; simp

/-- Witness of C8: the same task delivered again right after it was accepted. -/
theorem taskLoop_drops_duplicate_witness :
    TaskLoop.onTask (demoExt []) none
        (taskLoop (demoExt []) none ([demoTask 11 5 10].map .task) .init).1 (demoTask 11 5 10)
      = ((taskLoop (demoExt []) none ([demoTask 11 5 10].map .task) .init).1, []) :=
  (taskLoop_drops_duplicate (demoExt []) none [demoTask 11 5 10] (demoTask 11 5 10)
    (demoTask 11 5 10) rfl rfl).1

/-- C9, as stated, fails: a task on parent 5 with profit 10, then a task on
parent 6, then a task on parent 5 with profit 5 are all accepted and sealed,
the third with less profit than the first on the same parent. -/
theorem taskLoop_regresses_across_parents :
    sealCalls (taskLoop (demoExt []) none
        [.task (demoTask 11 5 10), .task (demoTask 12 6 1), .task (demoTask 13 5 5)] .init).2
      = [demoTask 11 5 10, demoTask 12 6 1, demoTask 13 5 5]
    ∧ (demoTask 13 5 5).block.header.ParentHash = (demoTask 11 5 10).block.header.ParentHash
    ∧ (demoTask 13 5 5).profit < (demoTask 11 5 10).profit := by
  refine ⟨rfl, rfl, by decide⟩

theorem taskLoop_chain (X : Ext) (hook : Option (task → Bool)) :
    ∀ (inputs : List TaskLoopInput) (s : TaskLoop) (p : Option task),
      (∀ t0, p = some t0 →
        s.prevProfit = some t0.profit ∧ s.prevParentHash = t0.block.header.ParentHash) →
      List.Chain' NoRegress (p.toList ++ proposedTasks (taskLoop X hook inputs s).2) := by
  intro inputs
  induction inputs with
  | nil =>
    intro s p _
    cases p <;> simp [taskLoop, proposedTasks]
  | cons input rest ih =>
    intro s p hinv
    cases input with
    | exit =>
      have hk := interrupt_keeps s
      simp only [taskLoop, hk.2.2.2.1]
      cases p <;> simp
    | task t =>
      simp only [taskLoop, proposedTasks_append]
      rcases onTask_proposed X hook s t with hd | ⟨hp, _, hpar, hpp, hprofit, _⟩
      · rw [hd]
        simp only [proposedTasks, List.nil_append]
        exact ih s p hinv
      · rw [hp]
        have ih' := ih (s.onTask X hook t).1 (some t) (fun t0 h0 => by
          cases h0
          exact ⟨hpp, hpar⟩)
        simp only [Option.toList, List.singleton_append] at ih' ⊢
        cases p with
        | none => simpa using ih'
        | some t0 =>
          simp only [List.singleton_append]
          refine List.Chain'.cons ?_ ih'
          intro hsame
          obtain ⟨h1, h2⟩ := hinv t0 rfl
          exact hprofit t0.profit h1 (by rw [h2, hsame])

theorem chain_adjacent {R : task → task → Prop} :
    ∀ (l : List task) (k : Nat) (a b : task), List.Chain' R l → l[k]? = some a →
      l[k + 1]? = some b → R a b := by
  intro l
  induction l with
  | nil => intro k a b _ h; simp at h
  | cons x rest ih =>
    intro k a b hc ha hb
    cases k with
    | zero =>
      cases rest with
      | nil => simp at hb
      | cons y rest2 =>
        simp only [List.getElem?_cons_zero, Option.some.injEq, zero_add,
          List.getElem?_cons_succ] at ha hb
        subst ha hb
        exact (List.chain'_cons.mp hc).1
    | succ k =>
      simp only [List.getElem?_cons_succ] at ha hb
      exact ih k a b (List.Chain'.tail hc) ha hb

theorem chain_segment (l : List task) (hc : List.Chain' NoRegress l) :
    ∀ (d i : Nat) (ti tj : task), l[i]? = some ti → l[i + d]? = some tj →
      (∀ k tk, i ≤ k → k ≤ i + d → l[k]? = some tk →
        tk.block.header.ParentHash = ti.block.header.ParentHash) →
      ti.profit ≤ tj.profit := by
  intro d
  induction d with
  | zero =>
    intro i ti tj hi hj _
    simp only [add_zero] at hj
    rw [hi] at hj
    cases hj
    exact le_refl _
  | succ d ih =>
    intro i ti tj hi hj hseg
    have hlt : i + d < l.length := by
      have := (List.getElem?_eq_some_iff.mp hj).1
      omega
    obtain ⟨tm, hm⟩ : ∃ tm, l[i + d]? = some tm := ⟨l[i + d], List.getElem?_eq_getElem hlt⟩
    have h1 : ti.profit ≤ tm.profit :=
      ih i ti tm hi hm (fun k tk hik hkd hk => hseg k tk hik (by omega) hk)
    have h2 : NoRegress tm tj := chain_adjacent l (i + d) tm tj hc hm hj
    have hpm := hseg (i + d) tm (by omega) (by omega) hm
    have hpj := hseg (i + d + 1) tj (by omega) (by omega) hj
    exact le_trans h1 (h2 (by rw [hpm, hpj]))

/-- C9, amended: among the tasks that `taskLoop` accepts, in the order it
accepts them, profit never decreases along a run of consecutive accepted tasks
on the same parent: if the tasks accepted from the `i`-th to the `j`-th all
have the parent hash of the `i`-th, the `j`-th has at least the profit of the
`i`-th.  In particular an accepted task has at least the profit of the task
accepted just before it when both have the same parent hash. -/
theorem taskLoop_profit_monotone_on_parent (X : Ext) (hook : Option (task → Bool))
    (inputs : List TaskLoopInput) (i j : Nat) (ti tj : task) (hij : i ≤ j)
    (hi : (proposedTasks (taskLoop X hook inputs .init).2)[i]? = some ti)
    (hj : (proposedTasks (taskLoop X hook inputs .init).2)[j]? = some tj)
    (hseg : ∀ k tk, i ≤ k → k ≤ j →
      (proposedTasks (taskLoop X hook inputs .init).2)[k]? = some tk →
      tk.block.header.ParentHash = ti.block.header.ParentHash) :
    ti.profit ≤ tj.profit := by
  have hc : List.Chain' NoRegress (proposedTasks (taskLoop X hook inputs .init).2) := by
    have := taskLoop_chain X hook inputs .init none (fun t0 h0 => by cases h0)
    simpa using this
  obtain ⟨d, rfl⟩ : ∃ d, j = i + d := ⟨j - i, by omega⟩
  exact chain_segment _ hc d i ti tj hi hj hseg

/-- Witness of C9: two tasks on parent 5 with profits 5 and 10 are accepted in
that order. -/
theorem taskLoop_profit_monotone_on_parent_witness :
    (proposedTasks (taskLoop (demoExt []) none
        [.task (demoTask 11 5 5), .task (demoTask 12 5 10)] .init).2)[1]?
      = some (demoTask 12 5 10)
    ∧ (demoTask 11 5 5).profit ≤ (demoTask 12 5 10).profit := by
  have hj : (proposedTasks (taskLoop (demoExt []) none
      [.task (demoTask 11 5 5), .task (demoTask 12 5 10)] .init).2)[1]?
        = some (demoTask 12 5 10) := rfl
  refine ⟨hj, taskLoop_profit_monotone_on_parent (demoExt []) none
    [.task (demoTask 11 5 5), .task (demoTask 12 5 10)] 0 1 (demoTask 11 5 5)
    (demoTask 12 5 10) (by decide) rfl hj ?_⟩
  intro k tk _ hk1 hk
  have hk' : k = 0 ∨ k = 1 := by omega
  rcases hk' with rfl | rfl
  · have h0 : (proposedTasks (taskLoop (demoExt []) none
        [.task (demoTask 11 5 5), .task (demoTask 12 5 10)] .init).2)[0]?
          = some (demoTask 11 5 5) := rfl
    rw [h0] at hk
    cases hk
    rfl
  · rw [hj] at hk
    cases hk
    rfl

theorem channelsInOrder_accept {s : TaskLoop} {closed : List Nat} {next : Nat}
    (h : ChannelsInOrder s closed next) (s1 : TaskLoop) (hstop : s1.stopCh = some s.made)
    (hmade : s1.made = s.made + 1)
    (hopen : s1.openChs = s.made :: (match s.stopCh with
      | none => s.openChs
      | some ch => s.openChs.erase ch)) :
    ChannelsInOrder s1 (match s.stopCh with
      | none => closed
      | some ch => ch :: closed) (s.made + 1)
    ∧ (∀ c, c < s.made → c ∈ (match s.stopCh with
      | none => closed
      | some ch => ch :: closed))
    ∧ s.made ∉ (match s.stopCh with
      | none => closed
      | some ch => ch :: closed) := by
  obtain ⟨ha, hb, hc, hd, _⟩ := h
  cases hs : s.stopCh with
  | none =>
    rw [hs] at ha hd hopen
    simp only at hopen
    have hall : ∀ c, c < s.made → c ∈ closed := fun c hlt => by
      rcases ha c hlt with h1 | h1
      · exact h1
      · cases h1
    have hnot : s.made ∉ closed := fun hin => by
      have := (hb _ hin).1
      omega
    refine ⟨⟨?_, ?_, ?_, ?_, by omega⟩, hall, hnot⟩
    · intro c hlt
      rw [hmade] at hlt
      by_cases hcm : c = s.made
      · right; rw [hstop, hcm]
      · left; exact hall c (by omega)
    · intro c hin
      have := (hb _ hin).1
      refine ⟨by omega, ?_⟩
      rw [hstop]
      intro heq
      cases heq
      omega
    · intro c hcs
      rw [hstop] at hcs
      cases hcs
      omega
    · rw [hopen, hstop, hd]
      rfl
  | some old =>
    rw [hs] at ha hd hopen
    simp only at hopen
    have hold : old < s.made := hc old hs
    have hall : ∀ c, c < s.made → c ∈ old :: closed := fun c hlt => by
      rcases ha c hlt with h1 | h1
      · exact List.mem_cons_of_mem _ h1
      · cases h1
        exact List.mem_cons_self _ _
    have hnot : s.made ∉ old :: closed := fun hin => by
      rcases List.mem_cons.mp hin with h1 | h1
      · omega
      · have := (hb _ h1).1
        omega
    refine ⟨⟨?_, ?_, ?_, ?_, by omega⟩, hall, hnot⟩
    · intro c hlt
      rw [hmade] at hlt
      by_cases hcm : c = s.made
      · right; rw [hstop, hcm]
      · left; exact hall c (by omega)
    · intro c hin
      have hlt : c < s.made := by
        rcases List.mem_cons.mp hin with h1 | h1
        · omega
        · exact (hb _ h1).1
      refine ⟨by omega, ?_⟩
      rw [hstop]
      intro heq
      cases heq
      omega
    · intro c hcs
      rw [hstop] at hcs
      cases hcs
      omega
    · rw [hopen, hstop, hd]
      simp [Option.toList]

theorem taskLoop_serialized (X : Ext) (hook : Option (task → Bool)) :
    ∀ (inputs : List TaskLoopInput) (s : TaskLoop) (closed : List Nat) (next : Nat),
      ChannelsInOrder s closed next →
      Serialized (taskLoop X hook inputs s).2 closed next
      ∧ (taskLoop X hook inputs s).1.openChs = (taskLoop X hook inputs s).1.stopCh.toList
      ∧ (TaskLoopInput.exit ∈ inputs →
          (taskLoop X hook inputs s).1.stopCh = none
          ∧ (taskLoop X hook inputs s).1.openChs = []) := by
  intro inputs
  induction inputs with
  | nil =>
    intro s closed next h
    exact ⟨trivial, h.2.2.2.1, fun hin => by cases hin⟩
  | cons input rest ih =>
    intro s closed next h
    cases input with
    | exit =>
      simp only [taskLoop, TaskLoop.interrupt]
      cases hs : s.stopCh with
      | none =>
        have hd := h.2.2.2.1
        rw [hs] at hd
        simp only [Serialized, hs, hd, Option.toList, true_and]
        exact fun _ => trivial
      | some ch =>
        have hd := h.2.2.2.1
        rw [hs] at hd
        simp [Serialized, hd, Option.toList]
    | task t =>
      simp only [taskLoop]
      rcases onTask_cases X hook s t with ⟨hd, _⟩ |
        ⟨_, _, _, _, _, hstop, hmade, hopen, hev⟩
      · rw [hd]
        simp only [List.nil_append]
        obtain ⟨h1, h2, h3⟩ := ih s closed next h
        refine ⟨h1, h2, fun hin => h3 ?_⟩
        rcases List.mem_cons.mp hin with h0 | h0
        · cases h0
        · exact h0
      · obtain ⟨hJ, hall, hnot⟩ := channelsInOrder_accept h _ hstop hmade hopen
        obtain ⟨h1, h2, h3⟩ := ih _ _ _ hJ
        have hexit : TaskLoopInput.exit ∈ TaskLoopInput.task t :: rest →
            TaskLoopInput.exit ∈ rest := fun hin => by
          rcases List.mem_cons.mp hin with h0 | h0
          · cases h0
          · exact h0
        refine ⟨?_, h2, fun hin => h3 (hexit hin)⟩
        have hnext : next ≤ s.made := h.2.2.2.2
        have hweak : ∀ (evs : List SealEvent) (cl : List Nat) (n m : Nat), n ≤ m →
            Serialized evs cl m → Serialized evs cl n := by
          intro evs
          induction evs with
          | nil => intro _ _ _ _ _; trivial
          | cons e more ihw =>
            intro cl n m hnm hser
            cases e with
            | close c => exact ihw _ _ _ hnm hser
            | proposed t0 => exact ihw _ _ _ hnm hser
            | sealCall t0 c0 =>
              obtain ⟨ha, hb, hc, hd⟩ := hser
              exact ⟨le_trans hnm ha, hb, hc, hd⟩
        rcases hev with ⟨he, _⟩ | ⟨he, _⟩
        · rw [he]
          cases hs : s.stopCh with
          | none =>
            rw [hs] at h1
            simp only [List.nil_append, List.singleton_append, Serialized]
            exact hweak _ _ _ _ (by omega) h1
          | some old =>
            rw [hs] at h1
            simp only [List.singleton_append, List.cons_append, List.nil_append, Serialized]
            exact hweak _ _ _ _ (by omega) h1
        · rw [he]
          cases hs : s.stopCh with
          | none =>
            rw [hs] at h1 hall hnot
            simp only [List.nil_append, List.cons_append, Serialized]
            exact ⟨hnext, hall, hnot, h1⟩
          | some old =>
            rw [hs] at h1 hall hnot
            simp only [List.cons_append, List.nil_append, Serialized]
            exact ⟨hnext, hall, hnot, h1⟩

theorem serialized_split :
    ∀ (pre : List SealEvent) (t : task) (ch : Nat) (post : List SealEvent) (closed : List Nat)
      (next : Nat), Serialized (pre ++ .sealCall t ch :: post) closed next →
      next ≤ ch ∧ (∀ c, c < ch → c ∈ closed ∨ SealEvent.close c ∈ pre)
      ∧ ch ∉ closed ∧ SealEvent.close ch ∉ pre
      ∧ (∀ t1 c1, SealEvent.sealCall t1 c1 ∈ pre → c1 < ch) := by
  intro pre
  induction pre with
  | nil =>
    intro t ch post closed next h
    simp only [List.nil_append, Serialized] at h
    exact ⟨h.1, fun c hc => Or.inl (h.2.1 c hc), h.2.2.1, by simp, by simp⟩
  | cons e more ih =>
    intro t ch post closed next h
    cases e with
    | close c0 =>
      simp only [List.cons_append, Serialized] at h
      obtain ⟨h1, h2, h3, h4, h5⟩ := ih t ch post _ _ h
      refine ⟨h1, ?_, fun hin => h3 (List.mem_cons_of_mem _ hin), ?_, ?_⟩
      · intro c hc
        rcases h2 c hc with hm | hm
        · rcases List.mem_cons.mp hm with h0 | h0
          · right; rw [h0]; exact List.mem_cons_self _ _
          · left; exact h0
        · right; exact List.mem_cons_of_mem _ hm
      · intro hin
        rcases List.mem_cons.mp hin with h0 | h0
        · cases h0
          exact h3 (List.mem_cons_self _ _)
        · exact h4 h0
      · intro t1 c1 hin
        rcases List.mem_cons.mp hin with h0 | h0
        · cases h0
        · exact h5 t1 c1 h0
    | proposed t0 =>
      simp only [List.cons_append, Serialized] at h
      obtain ⟨h1, h2, h3, h4, h5⟩ := ih t ch post _ _ h
      refine ⟨h1, ?_, h3, ?_, ?_⟩
      · intro c hc
        rcases h2 c hc with hm | hm
        · left; exact hm
        · right; exact List.mem_cons_of_mem _ hm
      · intro hin
        rcases List.mem_cons.mp hin with h0 | h0
        · cases h0
        · exact h4 h0
      · intro t1 c1 hin
        rcases List.mem_cons.mp hin with h0 | h0
        · cases h0
        · exact h5 t1 c1 h0
    | sealCall t0 c0 =>
      simp only [List.cons_append, Serialized] at h
      obtain ⟨hn, _, _, hrest⟩ := h
      obtain ⟨h1, h2, h3, h4, h5⟩ := ih t ch post _ _ hrest
      refine ⟨by omega, ?_, h3, ?_, ?_⟩
      · intro c hc
        rcases h2 c hc with hm | hm
        · left; exact hm
        · right; exact List.mem_cons_of_mem _ hm
      · intro hin
        rcases List.mem_cons.mp hin with h0 | h0
        · cases h0
        · exact h4 h0
      · intro t1 c1 hin
        rcases List.mem_cons.mp hin with h0 | h0
        · cases h0
          omega
        · exact h5 t1 c1 h0

/-- C10: after any sequence of inputs from its initial state, `taskLoop` has at
most one stop channel open, the one in flight; when the loop has returned on
exit no channel is open; and whenever `engine.Seal` was called, the channel it
was given had never been given to an earlier call (it was freshly made), every
channel made before it had been closed before the call, and it was itself
still open. -/
theorem taskLoop_serializes_seals (X : Ext) (hook : Option (task → Bool))
    (inputs : List TaskLoopInput) :
    (taskLoop X hook inputs .init).1.openChs = (taskLoop X hook inputs .init).1.stopCh.toList
    ∧ (taskLoop X hook inputs .init).1.openChs.length ≤ 1
    ∧ (TaskLoopInput.exit ∈ inputs →
        (taskLoop X hook inputs .init).1.stopCh = none
        ∧ (taskLoop X hook inputs .init).1.openChs = [])
    ∧ (∀ (pre : List SealEvent) (t : task) (ch : Nat) (post : List SealEvent),
        (taskLoop X hook inputs .init).2 = pre ++ .sealCall t ch :: post →
        (∀ c, c < ch → SealEvent.close c ∈ pre)
        ∧ SealEvent.close ch ∉ pre
        ∧ (∀ t1 c1, SealEvent.sealCall t1 c1 ∈ pre → c1 < ch)) := by
  have hinit : ChannelsInOrder .init [] 0 := by
    refine ⟨fun c hc => ?_, fun c hc => ?_, fun c hc => ?_, rfl, le_refl _⟩
    · simp [TaskLoop.init] at hc
    · cases hc
    · cases hc
  obtain ⟨hser, hopen, hexit⟩ := taskLoop_serialized X hook inputs .init [] 0 hinit
  refine ⟨hopen, ?_, hexit, ?_⟩
  · rw [hopen]
    cases (taskLoop X hook inputs .init).1.stopCh <;> simp [Option.toList]
  · intro pre t ch post hsplit
    rw [hsplit] at hser
    obtain ⟨_, h2, _, h4, h5⟩ := serialized_split pre t ch post [] 0 hser
    refine ⟨fun c hc => ?_, h4, h5⟩
    rcases h2 c hc with h0 | h0
    · cases h0
    · exact h0

/-- Witness of C10: two tasks sealed one after the other, then exit; the
second `Seal` call comes after the close of the first channel. -/
theorem taskLoop_serializes_seals_witness :
    (taskLoop (demoExt []) none
        [.task (demoTask 11 5 5), .task (demoTask 12 5 10), .exit] .init).2
      = [.proposed (demoTask 11 5 5), .sealCall (demoTask 11 5 5) 0, .close 0,
          .proposed (demoTask 12 5 10)]
        ++ .sealCall (demoTask 12 5 10) 1 :: [.close 1]
    ∧ SealEvent.close 0 ∈ [SealEvent.proposed (demoTask 11 5 5), .sealCall (demoTask 11 5 5) 0,
        .close 0, .proposed (demoTask 12 5 10)]
    ∧ (taskLoop (demoExt []) none
        [.task (demoTask 11 5 5), .task (demoTask 12 5 10), .exit] .init).1.openChs = [] := by
  have h := taskLoop_serializes_seals (demoExt []) none
    [.task (demoTask 11 5 5), .task (demoTask 12 5 10), .exit]
  refine ⟨rfl, ?_, (h.2.2.1 (by simp)).2⟩
  exact (h.2.2.2 [.proposed (demoTask 11 5 5), .sealCall (demoTask 11 5 5) 0, .close 0,
    .proposed (demoTask 12 5 10)] (demoTask 12 5 10) 1 [.close 1] rfl).1 0 (by decide)

/-! ## The pending-tasks table -/

theorem mem_clearPending (n : Nat) (pendingTasks : List (Nat × task)) (e : Nat × task) :
    e ∈ clearPending n pendingTasks ↔
      e ∈ pendingTasks ∧ ¬ (e.2.block.NumberU64 + staleThreshold) % 2 ^ 64 ≤ n := by
  simp [clearPending, List.mem_filter]

theorem stale_test_in_range (number n : Nat) (h : number + 7 < 2 ^ 64) :
    (number % 2 ^ 64 + staleThreshold) % 2 ^ 64 ≤ n ↔ number + 7 ≤ n := by
  have h1 : number % 2 ^ 64 = number := Nat.mod_eq_of_lt (by omega)
  rw [h1, staleThreshold, Nat.mod_eq_of_lt h]

/-- C11, as stated, fails: with head 17 a pending task for block 10 is at depth
exactly 7, not more than 7 blocks behind, and `clearPending 17` deletes it. -/
theorem clearPending_deletes_at_depth_seven :
    (demoTask 10 10 0).block.header.Number = 10 ∧ ¬ (17 - 10 > 7)
    ∧ clearPending 17 [(11, demoTask 10 10 0)] = [] := by
  refine ⟨rfl, by decide, ?_⟩
  decide

/-- C11, corrected: for every head number n and every pending-tasks table,
`clearPending n` keeps exactly the entries whose block number plus 7, summed in
uint64, is above n; for a block number below 2^64 - 7 the entry is deleted
exactly when the block is at least 7 blocks behind n (depth 7 included), kept
at depth 6 or less; the kept entries are the old ones, unchanged and in their
order. -/
theorem clearPending_keeps_iff (n : Nat) (pendingTasks : List (Nat × task)) :
    (∀ e, e ∈ clearPending n pendingTasks ↔
        e ∈ pendingTasks ∧ ¬ (e.2.block.NumberU64 + staleThreshold) % 2 ^ 64 ≤ n)
    ∧ (∀ e ∈ pendingTasks, e.2.block.header.Number + 7 < 2 ^ 64 →
        (e ∉ clearPending n pendingTasks ↔ e.2.block.header.Number + 7 ≤ n))
    ∧ (clearPending n pendingTasks).Sublist pendingTasks := by
  refine ⟨mem_clearPending n pendingTasks, ?_, List.filter_sublist _⟩
  intro e he hr
  rw [mem_clearPending, Block.NumberU64, stale_test_in_range _ _ hr]
  constructor
  · intro h
    by_contra hn
    exact h ⟨he, hn⟩
  · intro h hk
    exact hk.2 h

theorem clearPending_keeps_iff_witness :
    (12, demoTask 11 11 0) ∈ [(11, demoTask 10 10 0), (12, demoTask 11 11 0)]
    ∧ (demoTask 11 11 0).block.header.Number + 7 < 2 ^ 64
    ∧ ((12, demoTask 11 11 0) ∉
          clearPending 18 [(11, demoTask 10 10 0), (12, demoTask 11 11 0)] ↔
        (demoTask 11 11 0).block.header.Number + 7 ≤ 18) :=
  ⟨by simp, by decide,
    (clearPending_keeps_iff 18 [(11, demoTask 10 10 0), (12, demoTask 11 11 0)]).2.1
      (12, demoTask 11 11 0) (by simp) (by decide)⟩

theorem workerRun_append (X : Ext) (skipSealHook : Option (task → Bool))
    (a b : List WorkerInput) (s : PendingWorld) :
    workerRun X skipSealHook (a ++ b) s
      = workerRun X skipSealHook b (workerRun X skipSealHook a s) := by
  induction a generalizing s with
  | nil => rfl
  | cons input rest ih => exact ih _

/-- C12, as stated, fails: after a start signal at head 10 `taskLoop` accepts
the task for block 11; the chain then moves its head to 18, and until
`newWorkLoop` takes the event the table holds an entry for block 11, which is
≤ 18 - 7. -/
theorem pendingTasks_stale_between_clearings :
    (workerRun (demoExt []) none
        [.headSet 10, .start, .task (demoTask 11 11 0), .headSet 18] ⟨0, TaskLoop.init⟩).currentHead
      = 18
    ∧ (workerRun (demoExt []) none
        [.headSet 10, .start, .task (demoTask 11 11 0), .headSet 18]
        ⟨0, TaskLoop.init⟩).loop.pendingTasks = [(12, demoTask 11 11 0)]
    ∧ ((demoTask 11 11 0).block.header.Number : Int) ≤ 18 - 7 := by
  refine ⟨rfl, rfl, by decide⟩

/-- C12, corrected: in every state of the worker that is reached right after
`newWorkLoop` has processed a start signal or a chain-head event, whatever
came before, the pending-tasks table contains no entry whose block number
plus 7, in uint64, is at most n, where n is the head number the loop cleared
for (the current head of the chain for a start signal, the block of the event
for a chain-head event); for numbers in range no entry is for a block whose
number is ≤ n - 7.  Entries that `taskLoop` inserts later and heads that move
before their event is taken are not covered. -/
theorem pendingTasks_fresh_after_clearing (X : Ext) (skipSealHook : Option (task → Bool))
    (inputs : List WorkerInput) (s : PendingWorld) (n : Nat) :
    (∀ e ∈ (workerRun X skipSealHook (inputs ++ [.start]) s).loop.pendingTasks,
        ¬ (e.2.block.NumberU64 + staleThreshold) % 2 ^ 64
            ≤ (workerRun X skipSealHook (inputs ++ [.start]) s).currentHead % 2 ^ 64)
    ∧ (∀ e ∈ (workerRun X skipSealHook (inputs ++ [.chainHead n]) s).loop.pendingTasks,
        ¬ (e.2.block.NumberU64 + staleThreshold) % 2 ^ 64 ≤ n % 2 ^ 64)
    ∧ (∀ e ∈ (workerRun X skipSealHook (inputs ++ [.chainHead n]) s).loop.pendingTasks,
        e.2.block.header.Number + 7 < 2 ^ 64 → n < 2 ^ 64 →
        ¬ (e.2.block.header.Number : Int) ≤ (n : Int) - 7) := by
  have hc : ∀ e ∈ (workerRun X skipSealHook (inputs ++ [.chainHead n]) s).loop.pendingTasks,
      ¬ (e.2.block.NumberU64 + staleThreshold) % 2 ^ 64 ≤ n % 2 ^ 64 := by
    intro e he
    rw [workerRun_append] at he
    exact ((mem_clearPending _ _ e).1 he).2
  refine ⟨?_, hc, ?_⟩
  · intro e he
    rw [workerRun_append] at he ⊢
    exact ((mem_clearPending _ _ e).1 he).2
  · intro e he hr hn hle
    apply hc e he
    rw [Block.NumberU64, stale_test_in_range _ _ hr, Nat.mod_eq_of_lt hn]
    omega

theorem pendingTasks_fresh_after_clearing_witness :
    (11, demoTask 10 10 0) ∈
        (workerRun (demoExt []) none
          ([.headSet 10, .task (demoTask 3 3 0), .task (demoTask 10 10 0)] ++ [.chainHead 10])
          ⟨0, TaskLoop.init⟩).loop.pendingTasks
    ∧ (demoTask 10 10 0).block.header.Number + 7 < 2 ^ 64 ∧ 10 < 2 ^ 64
    ∧ ¬ ((demoTask 10 10 0).block.header.Number : Int) ≤ (10 : Int) - 7 :=
  ⟨by decide, by decide, by decide,
    (pendingTasks_fresh_after_clearing (demoExt []) none
      [.headSet 10, .task (demoTask 3 3 0), .task (demoTask 10 10 0)] ⟨0, TaskLoop.init⟩ 10).2.2
      (11, demoTask 10 10 0) (by decide) (by decide) (by decide)⟩

/-! ## The result loop -/

theorem resultLoopBlock_table (X : Ext) (pendingTasks : List (Nat × task))
    (block : Option Block) : (resultLoopBlock X pendingTasks block).1 = pendingTasks := by
  unfold resultLoopBlock
  cases block with
  | none => rfl
  | some b =>
    simp only
    split
    · rfl
    · split
      · rfl
      · split
        · rfl
        · split <;> rfl

theorem resultLoop_table (X : Ext) (blocks : List (Option Block))
    (pendingTasks : List (Nat × task)) : (resultLoop X blocks pendingTasks).1 = pendingTasks := by
  induction blocks generalizing pendingTasks with
  | nil => rfl
  | cons b rest ih =>
    simp only [resultLoop]
    rw [ih, resultLoopBlock_table]

/-- C13, as stated, fails: `resultLoop` accepts the sealed block of a pending
task (it writes the block and posts the event) and the entry of its seal hash
is still in the table afterwards; and when `taskLoop` rejects a task as a
duplicate seal hash, the entry of that seal hash is still in the table. -/
theorem pendingTasks_entry_survives :
    resultLoopBlock (demoExt []) [(12, demoTask 11 11 0)] (some (demoTask 11 11 0).block)
      = ([(12, demoTask 11 11 0)],
          [.writeBlock (demoTask 11 11 0).block [] [] { id := 0 },
           .minedBlock (demoTask 11 11 0).block, .sealedBlocksInc, .sealedEmptyBlocksInc])
    ∧ (taskLoop (demoExt []) none [.task (demoTask 11 11 0)] TaskLoop.init).1.prev
        = (demoExt []).SealHash (demoTask 11 11 0).block.header
    ∧ (taskLoop (demoExt []) none [.task (demoTask 11 11 0), .task (demoTask 11 11 0)]
        TaskLoop.init).1.pendingTasks.lookup 12 = some (demoTask 11 11 0) := by
  refine ⟨rfl, rfl, rfl⟩

/-- C13, corrected: when `resultLoop` processes a sealed block returned by the
consensus engine, with or without an entry for its seal hash, the
pending-tasks table is left as it was, so the entry stays in the table; and a
task that `taskLoop` rejects as a duplicate seal hash leaves the table and the
other variables of the loop unchanged and does nothing visible. -/
theorem pendingTasks_kept_by_result_and_duplicate (X : Ext)
    (skipSealHook : Option (task → Bool)) :
    (∀ (blocks : List (Option Block)) (pendingTasks : List (Nat × task)),
        (resultLoop X blocks pendingTasks).1 = pendingTasks)
    ∧ (∀ (pendingTasks : List (Nat × task)) (block : Block) (t : task),
        pendingTasks.lookup (X.SealHash block.header) = some t →
        (resultLoopBlock X pendingTasks (some block)).1.lookup (X.SealHash block.header) = some t)
    ∧ (∀ (s : TaskLoop) (t : task), X.SealHash t.block.header = s.prev →
        s.onTask X skipSealHook t = (s, [])) := by
  refine ⟨resultLoop_table X, ?_, ?_⟩
  · intro pendingTasks block t h
    rw [resultLoopBlock_table]
    exact h
  · intro s t h
    simp [TaskLoop.onTask, h]

theorem pendingTasks_kept_by_result_and_duplicate_witness :
    [(12, demoTask 11 11 0)].lookup ((demoExt []).SealHash (demoTask 11 11 0).block.header)
      = some (demoTask 11 11 0)
    ∧ (resultLoopBlock (demoExt []) [(12, demoTask 11 11 0)]
        (some (demoTask 11 11 0).block)).1.lookup
          ((demoExt []).SealHash (demoTask 11 11 0).block.header) = some (demoTask 11 11 0) :=
  ⟨rfl, (pendingTasks_kept_by_result_and_duplicate (demoExt []) none).2.1
    [(12, demoTask 11 11 0)] (demoTask 11 11 0).block (demoTask 11 11 0) rfl⟩

theorem resultLoopLogs_eq (hash : Nat) (logs : List Log) :
    resultLoopLogs hash logs = logs.map fun taskLog => { taskLog with BlockHash := hash } := by
  induction logs with
  | nil => rfl
  | cons l rest ih => simp [resultLoopLogs, ih]

theorem resultLoopReceipts_spec (hash number : Nat) (rs : List Receipt) (i : Nat)
    (acc : List Receipt × List Log) :
    (resultLoopReceipts hash number rs i acc).1.length = acc.1.length + rs.length
    ∧ (∀ j, j < acc.1.length → (resultLoopReceipts hash number rs i acc).1[j]? = acc.1[j]?)
    ∧ (∀ j r, rs[j]? = some r →
        (resultLoopReceipts hash number rs i acc).1[acc.1.length + j]?
          = some { r with
              BlockHash := hash, BlockNumber := number, TransactionIndex := i + j
              Logs := r.Logs.map fun taskLog => { taskLog with BlockHash := hash } })
    ∧ (acc.2 = (acc.1.map fun r => r.Logs).flatten →
        (resultLoopReceipts hash number rs i acc).2
          = ((resultLoopReceipts hash number rs i acc).1.map fun r => r.Logs).flatten) := by
  induction rs generalizing i acc with
  | nil =>
    obtain ⟨ar, al⟩ := acc
    simp [resultLoopReceipts]
  | cons r0 rest ih =>
    obtain ⟨ar, al⟩ := acc
    simp only [resultLoopReceipts]
    obtain ⟨h1, h2, h3, h4⟩ := ih (i + 1)
      (ar ++ [{ r0 with
                  BlockHash := hash, BlockNumber := number, TransactionIndex := i
                  Logs := resultLoopLogs hash r0.Logs }], al ++ resultLoopLogs hash r0.Logs)
    refine ⟨?_, ?_, ?_, ?_⟩
    · rw [h1]; simp; omega
    · intro j hj
      rw [h2 j (by simp; omega)]
      exact List.getElem?_append_left hj
    · intro j r hr
      cases j with
      | zero =>
        simp only [List.getElem?_cons_zero, Option.some.injEq] at hr
        subst hr
        rw [h2 _ (by simp)]
        simp [resultLoopLogs_eq]
      | succ k =>
        simp only [List.getElem?_cons_succ] at hr
        have := h3 k r hr
        simp only [List.length_append, List.length_singleton] at this
        rw [show ar.length + (k + 1) = ar.length + 1 + k by omega, this]
        simp only [Option.some.injEq]
        congr 1
        omega
    · intro hacc
      apply h4
      simp [hacc]

/-- C14: for every sealed block that `resultLoop` accepts (not nil, not in the
chain, not a second block of the same author at its height) with pending task
T, `WriteBlockAndSetHead` is called with the block, the state of T, receipts
of the same length as `T.receipts` where the receipt at every index i equals
`T.receipts[i]` except for BlockHash = the hash of the block, BlockNumber =
the number of the block, TransactionIndex = i and Logs = the logs of the task
receipt with BlockHash = the hash of the block, and with logs that are the
concatenation of the logs of these receipts in order; the table still holds T
with its receipts and logs as they were. -/
theorem resultLoop_receipts_stamped (X : Ext) (pendingTasks : List (Nat × task))
    (block : Block) (T : task)
    (hnew : X.HasBlock (X.HeaderHash block.header) block.NumberU64 = false)
    (hauthor : ∀ oldBlock, X.GetBlockByNumber block.NumberU64 = some oldBlock →
      X.Author oldBlock.header ≠ X.Author block.header)
    (htask : pendingTasks.lookup (X.SealHash block.header) = some T) :
    ∃ receipts logs rest,
      resultLoopBlock X pendingTasks (some block)
        = (pendingTasks, .writeBlock block receipts logs T.state :: rest)
      ∧ receipts.length = T.receipts.length
      ∧ (∀ (i : Nat) (r : Receipt), T.receipts[i]? = some r →
          receipts[i]? = some { r with
            BlockHash := X.HeaderHash block.header
            BlockNumber := block.header.Number
            TransactionIndex := i
            Logs := r.Logs.map fun taskLog =>
              { taskLog with BlockHash := X.HeaderHash block.header } })
      ∧ logs = (receipts.map fun r => r.Logs).flatten
      ∧ (resultLoopBlock X pendingTasks (some block)).1.lookup (X.SealHash block.header)
          = some T := by
  obtain ⟨h1, -, h3, h4⟩ :=
    resultLoopReceipts_spec (X.HeaderHash block.header) block.header.Number T.receipts 0 ([], [])
  have hsame : (match X.GetBlockByNumber block.NumberU64 with
      | none => false
      | some oldBlock => decide (X.Author oldBlock.header = X.Author block.header)) = false := by
    cases hg : X.GetBlockByNumber block.NumberU64 with
    | none => rfl
    | some oldBlock => simpa using hauthor oldBlock hg
  refine ⟨(resultLoopReceipts (X.HeaderHash block.header) block.header.Number T.receipts 0
      ([], [])).1,
    (resultLoopReceipts (X.HeaderHash block.header) block.header.Number T.receipts 0
      ([], [])).2, ?_, ?_, ?_, ?_, ?_, ?_⟩
  · exact match X.WriteBlockAndSetHead block
        (resultLoopReceipts (X.HeaderHash block.header) block.header.Number T.receipts 0
          ([], [])).1
        (resultLoopReceipts (X.HeaderHash block.header) block.header.Number T.receipts 0
          ([], [])).2 T.state with
      | some _ => []
      | none =>
        [.minedBlock block, .sealedBlocksInc]
          ++ (if block.transactions.length = 0 then [.sealedEmptyBlocksInc] else [])
  · simp only [resultLoopBlock, hnew, hsame, htask]
    cases X.WriteBlockAndSetHead block _ _ T.state <;> simp
  · simpa using h1
  · intro i r hr
    have := h3 i r hr
    simpa using this
  · exact h4 rfl
  · rw [resultLoopBlock_table]
    exact htask

theorem resultLoop_receipts_stamped_witness :
    (demoExt []).HasBlock ((demoExt []).HeaderHash demoSealedTask.block.header)
        demoSealedTask.block.NumberU64 = false
    ∧ [(12, demoSealedTask)].lookup ((demoExt []).SealHash demoSealedTask.block.header)
        = some demoSealedTask
    ∧ ∃ receipts logs rest,
      resultLoopBlock (demoExt []) [(12, demoSealedTask)] (some demoSealedTask.block)
        = ([(12, demoSealedTask)],
            .writeBlock demoSealedTask.block receipts logs demoSealedTask.state :: rest)
      ∧ receipts.length = demoSealedTask.receipts.length
      ∧ (∀ (i : Nat) (r : Receipt), demoSealedTask.receipts[i]? = some r →
          receipts[i]? = some { r with
            BlockHash := (demoExt []).HeaderHash demoSealedTask.block.header
            BlockNumber := demoSealedTask.block.header.Number
            TransactionIndex := i
            Logs := r.Logs.map fun taskLog =>
              { taskLog with BlockHash := (demoExt []).HeaderHash demoSealedTask.block.header } })
      ∧ logs = (receipts.map fun r => r.Logs).flatten
      ∧ (resultLoopBlock (demoExt []) [(12, demoSealedTask)]
          (some demoSealedTask.block)).1.lookup
            ((demoExt []).SealHash demoSealedTask.block.header) = some demoSealedTask :=
  ⟨rfl, rfl,
    resultLoop_receipts_stamped (demoExt []) [(12, demoSealedTask)] demoSealedTask.block
      demoSealedTask rfl (fun _ h => by cases h) rfl⟩

/-! ## The timestamp of a new block -/

theorem prepareWorkHeader_ok (X : Ext) (w : worker) (genParams : generateParams)
    (parent : Header) (h : ¬ (genParams.timestamp ≤ parent.Time ∧ genParams.forceTime)) :
    ∃ header, prepareWorkHeader X w genParams parent = .ok header
      ∧ header.Time = (if genParams.timestamp ≤ parent.Time then (parent.Time + 1) % 2 ^ 64
          else genParams.timestamp)
      ∧ header.Number = parent.Number + 1 := by
  unfold prepareWorkHeader
  rw [if_neg h]
  simp only
  split
  · split
    · exact ⟨_, rfl, rfl, rfl⟩
    · exact ⟨_, rfl, rfl, rfl⟩
  · exact ⟨_, rfl, rfl, rfl⟩

theorem prepareWork_invalid_timestamp (X : Ext) (w : worker) (genParams : generateParams)
    (parent : Header) (hle : genParams.timestamp ≤ parent.Time)
    (hf : genParams.forceTime = true) :
    prepareWorkHeader X w genParams parent
        = .error (.errInvalidTimestamp parent.Time genParams.timestamp)
      ∧ (prepareWorkParent X genParams = .ok parent →
          prepareWork X w genParams
            = .error (.errInvalidTimestamp parent.Time genParams.timestamp)) := by
  have hh : prepareWorkHeader X w genParams parent
      = .error (.errInvalidTimestamp parent.Time genParams.timestamp) := by
    unfold prepareWorkHeader
    rw [if_pos ⟨hle, hf⟩]
  refine ⟨hh, fun hp => ?_⟩
  unfold prepareWork
  rw [hp]
  simp only [hh]

/-- C15, as stated, fails: on a parent whose time is 2^64 - 1, a request for
the timestamp 5 without `forceTime` succeeds with the header time 0, the
`uint64` sum `parent.Time + 1`, which is not greater than the parent time. -/
theorem prepareWorkHeader_time_wraps :
    prepareWorkHeader (demoExt []) demoWorker
        { timestamp := 5, forceTime := false, parentHash := 0, coinbase := 7, random := 0
          withdrawals := [], noTxs := false }
        (demoHeader 10 30000000 (2 ^ 64 - 1))
      = .ok { demoHeader 11 30000000 0 with ParentHash := 11, Coinbase := 7 }
    ∧ ¬ ((demoHeader 10 30000000 (2 ^ 64 - 1)).Time < 0) := by
  refine ⟨?_, by decide⟩
  simp [prepareWorkHeader, demoExt, demoWorker, demoHeader]

/-- C15, corrected: for every parent header and requested timestamp, the header
built by `prepareWork` before the consensus preparation has Time = requested
when requested > parent.Time; has Time = parent.Time + 1 computed in uint64
when parent.Time ≥ requested and forceTime is false; and `prepareWork` returns
the invalid-timestamp error, building no environment, when parent.Time ≥
requested and forceTime is true.  In every successful case with requested >
parent.Time or parent.Time < 2^64 - 1 the header's Time is strictly greater
than parent.Time. -/
theorem prepareWork_timestamp (X : Ext) (w : worker) (genParams : generateParams)
    (parent : Header) :
    (parent.Time < genParams.timestamp →
        ∃ header, prepareWorkHeader X w genParams parent = .ok header
          ∧ header.Time = genParams.timestamp)
    ∧ (genParams.timestamp ≤ parent.Time → genParams.forceTime = false →
        ∃ header, prepareWorkHeader X w genParams parent = .ok header
          ∧ header.Time = (parent.Time + 1) % 2 ^ 64)
    ∧ (genParams.timestamp ≤ parent.Time → genParams.forceTime = true →
        prepareWorkHeader X w genParams parent
            = .error (.errInvalidTimestamp parent.Time genParams.timestamp)
          ∧ (prepareWorkParent X genParams = .ok parent →
              prepareWork X w genParams
                = .error (.errInvalidTimestamp parent.Time genParams.timestamp)))
    ∧ (∀ header, prepareWorkHeader X w genParams parent = .ok header →
        parent.Time < genParams.timestamp ∨ parent.Time + 1 < 2 ^ 64 →
        parent.Time < header.Time) := by
  refine ⟨?_, ?_, ?_, ?_⟩
  · intro hlt
    obtain ⟨header, hh, ht, -⟩ := prepareWorkHeader_ok X w genParams parent (by omega)
    exact ⟨header, hh, by rw [ht, if_neg (by omega)]⟩
  · intro hle hf
    obtain ⟨header, hh, ht, -⟩ := prepareWorkHeader_ok X w genParams parent (by simp [hf])
    exact ⟨header, hh, by rw [ht, if_pos hle]⟩
  · intro hle hf
    exact prepareWork_invalid_timestamp X w genParams parent hle hf
  · intro header hh hcase
    by_cases hforce : genParams.timestamp ≤ parent.Time ∧ genParams.forceTime
    · unfold prepareWorkHeader at hh
      rw [if_pos hforce] at hh
      cases hh
    · obtain ⟨header1, hh1, ht, -⟩ := prepareWorkHeader_ok X w genParams parent hforce
      rw [hh] at hh1
      cases hh1
      rw [ht]
      split
      · rename_i hle
        have h1 : parent.Time + 1 < 2 ^ 64 := by omega
        rw [Nat.mod_eq_of_lt h1]
        omega
      · omega

theorem prepareWork_timestamp_witness :
    (500 : Nat) ≤ (demoHeader 10 30000000 1000).Time
    ∧ ∃ header, prepareWorkHeader (demoExt []) demoWorker
        { timestamp := 500, forceTime := false, parentHash := 0, coinbase := 7, random := 0
          withdrawals := [], noTxs := false } (demoHeader 10 30000000 1000) = .ok header
      ∧ header.Time = ((demoHeader 10 30000000 1000).Time + 1) % 2 ^ 64 :=
  ⟨by decide,
    (prepareWork_timestamp (demoExt []) demoWorker
      { timestamp := 500, forceTime := false, parentHash := 0, coinbase := 7, random := 0
        withdrawals := [], noTxs := false } (demoHeader 10 30000000 1000)).2.1
      (by decide) rfl⟩

/-! ## Sealing blocks on request -/

theorem header_number_invariant (X : Ext) (n : Nat) :
    BuildInvariant X (fun env => env.header.Number = n) where
  state := fun env st h => h
  deps := fun env a b h => h
  extra := fun env e h => h
  pool := fun env h => by
    unfold environment.withGasPool
    cases hg : env.gasPool <;> simpa [hg] using h
  failed := fun env tx ctx now env1 err h hct => by
    obtain ⟨gp, hgp, hc | hc⟩ := commitTransaction_cases X env tx ctx now env1 _ hct
    · obtain ⟨_, _, he⟩ := hc
      rw [he]; exact h
    · obtain ⟨_, _, _, _, _, hr, _⟩ := hc
      cases hr
  counted := fun env tx ctx now env1 logs h hct => by
    obtain ⟨gp, hgp, hc | hc⟩ := commitTransaction_cases X env tx ctx now env1 _ hct
    · obtain ⟨_, hr, _⟩ := hc
      cases hr
    · obtain ⟨_, _, _, _, _, _, he⟩ := hc
      rw [he]; exact h

theorem prepareWork_ok {X : Ext} {w : worker} {genParams : generateParams} {work : environment}
    (h : prepareWork X w genParams = .ok work) :
    ∃ parent header1 header, prepareWorkParent X genParams = .ok parent
      ∧ prepareWorkHeader X w genParams parent = .ok header1
      ∧ X.Prepare header1 = .ok header ∧ work.header = header := by
  unfold prepareWork at h
  split at h
  · simp at h
  · rename_i parent hp
    split at h
    · simp at h
    · rename_i header1 hh
      split at h
      · simp at h
      · rename_i header hprep
        exact ⟨parent, header1, header, hp, hh, hprep, (makeEnv_eq h).2.1⟩

theorem prepareWorkParent_known (X : Ext) (genParams : generateParams) {block : Block}
    (hne : genParams.parentHash ≠ 0) (hb : X.GetBlockByHash genParams.parentHash = some block) :
    prepareWorkParent X genParams = .ok block.header := by
  simp [prepareWorkParent, hne, hb]

theorem generateWork_number {X : Ext} {w : worker} {params : generateParams}
    {fired : Nat → Bool} {now : Nat} {events : List Event} {sealed : Block} {fees : Int}
    (hprep : ∀ h h1, X.Prepare h = .ok h1 → h1.Number = h.Number)
    (hfin : ∀ h st txs rs ws b st1,
      X.FinalizeAndAssemble h st txs rs ws = .ok (b, st1) → b.header.Number = h.Number)
    (h : generateWork X w params fired now = .val (events, .ok (sealed, fees))) :
    ∃ parent, prepareWorkParent X params = .ok parent
      ∧ sealed.header.Number = parent.Number + 1
      ∧ ¬ (params.timestamp ≤ parent.Time ∧ params.forceTime) := by
  unfold generateWork at h
  split at h
  · simp at h
  · rename_i work hw
    obtain ⟨parent, header1, header, hp, hh, hprepare, hwh⟩ := prepareWork_ok hw
    have hforce : ¬ (params.timestamp ≤ parent.Time ∧ params.forceTime) := by
      intro hf
      unfold prepareWorkHeader at hh
      rw [if_pos hf] at hh
      cases hh
    obtain ⟨header2, hh2, -, hnum⟩ := prepareWorkHeader_ok X w params parent hforce
    rw [hh] at hh2
    cases hh2
    have hwork : work.header.Number = parent.Number + 1 := by
      rw [hwh, hprep _ _ hprepare, hnum]
    refine ⟨parent, hp, ?_, hforce⟩
    simp only at h
    split at h
    · simp at h
    · rename_i work1 events1 hfill
      have hnum1 : work1.header.Number = parent.Number + 1 := by
        split at hfill
        · split at hfill
          · simp at hfill
          · rename_i r hr
            simp only [Ret.val.injEq, Prod.mk.injEq] at hfill
            rw [← hfill.1]
            exact fillTransactions_inv (header_number_invariant X _) (fun _ _ hq => hq) hwork hr
        · simp only [Ret.val.injEq, Prod.mk.injEq] at hfill
          rw [← hfill.1]
          exact hwork
      split at h
      · simp at h
      · rename_i block st hfa
        split at h
        · simp at h
        · simp only [Ret.val.injEq, Prod.mk.injEq, Except.ok.injEq] at h
          rw [← h.2.1, hfin _ _ _ _ _ _ _ hfa, hnum1]

/-- C16: the code does not do this.  Block 10 of the demo chain, with hash 11
and time 1000, is a known parent; `getSealingBlock` called on it with the
timestamp 1000, which is not greater than the parent time, returns the
invalid-timestamp error and no block, where the test of `getSealingBlock`
says that such a timestamp is mutated.  The empty hash, which no block of the
chain has, gives no error: it stands for the chain head, and a block with
number 11 is returned. -/
theorem getSealingBlock_rejects_old_timestamp :
    (demoExt []).GetBlockByHash 11
      = some { header := demoHeader 10 30000000 1000, transactions := [] }
    ∧ getSealingBlock (demoExt []) demoWorker 11 1000 7 0 [] false false demoNotFired 0
      = .val ([], .error (.errInvalidTimestamp 1000 1000))
    ∧ (demoExt []).GetBlockByHash 0 = none
    ∧ getSealingBlock (demoExt []) demoWorker 0 2000 7 0 [] false false demoNotFired 0
      = .val ([.discard demoWork],
          .ok ({ header := demoWork.header, transactions := [] }, 0)) := by
  refine ⟨rfl, rfl, rfl, rfl⟩

/-- What `getSealingBlock` returns, whatever the world: it asks for an
immutable timestamp, so for every known parent a timestamp that is not
greater than the parent's time gives the invalid-timestamp error and no
block; for every non-empty parent
hash unknown to the chain it returns the missing-parent error (the empty hash
stands for the chain head); and for a known parent, whenever it returns a
block, the timestamp was greater than the parent's time and the block's number
is parent number + 1, given that the consensus preparation and the assembly of
the block keep the number of the header. -/
theorem getSealingBlock_parent_and_time (X : Ext) (w : worker)
    (parent timestamp coinbase random : Nat) (withdrawals : List Nat) (noTxs : Bool)
    (fired : Nat → Bool) (now : Nat) :
    (∀ block, parent ≠ 0 → X.GetBlockByHash parent = some block →
        timestamp ≤ block.header.Time →
        getSealingBlock X w parent timestamp coinbase random withdrawals noTxs false fired now
          = .val ([], .error (.errInvalidTimestamp block.header.Time timestamp)))
    ∧ (parent ≠ 0 → X.GetBlockByHash parent = none →
        getSealingBlock X w parent timestamp coinbase random withdrawals noTxs false fired now
          = .val ([], .error .errMissingParent))
    ∧ (∀ block events sealed fees, parent ≠ 0 → X.GetBlockByHash parent = some block →
        (∀ h h1, X.Prepare h = .ok h1 → h1.Number = h.Number) →
        (∀ h st txs rs ws b st1,
          X.FinalizeAndAssemble h st txs rs ws = .ok (b, st1) → b.header.Number = h.Number) →
        getSealingBlock X w parent timestamp coinbase random withdrawals noTxs false fired now
          = .val (events, .ok (sealed, fees)) →
        block.header.Time < timestamp ∧ sealed.header.Number = block.header.Number + 1)
    ∧ (parent = 0 → timestamp ≤ X.CurrentBlock.Time →
        getSealingBlock X w parent timestamp coinbase random withdrawals noTxs false fired now
          = .val ([], .error (.errInvalidTimestamp X.CurrentBlock.Time timestamp))) := by
  refine ⟨?_, ?_, ?_, ?_⟩
  · intro block hne hb hle
    have hp := prepareWorkParent_known X
      { timestamp := timestamp, forceTime := true, parentHash := parent
        coinbase := coinbase, random := random, withdrawals := withdrawals
        noTxs := noTxs } hne hb
    have hw := (prepareWork_invalid_timestamp X w _ block.header hle rfl).2 hp
    simp only [getSealingBlock, generateWork]
    rw [hw]
    simp
  · intro hne hb
    simp [getSealingBlock, generateWork, prepareWork, prepareWorkParent, hne, hb]
  · intro block events sealed fees hne hb hprep hfin h
    simp only [getSealingBlock, Bool.false_eq_true, if_false] at h
    obtain ⟨parent1, hp, hnum, hforce⟩ := generateWork_number hprep hfin h
    rw [prepareWorkParent_known X _ hne hb] at hp
    cases hp
    refine ⟨?_, hnum⟩
    simp only [and_true] at hforce
    omega
  · intro hz hle
    have hp : prepareWorkParent X
        { timestamp := timestamp, forceTime := true, parentHash := parent
          coinbase := coinbase, random := random, withdrawals := withdrawals
          noTxs := noTxs } = .ok X.CurrentBlock := by
      simp [prepareWorkParent, hz]
    have hw := (prepareWork_invalid_timestamp X w _ X.CurrentBlock hle rfl).2 hp
    simp only [getSealingBlock, generateWork]
    rw [hw]
    simp

theorem getSealingBlock_parent_and_time_witness :
    (11 : Nat) ≠ 0
    ∧ (demoExt []).GetBlockByHash 11
        = some { header := demoHeader 10 30000000 1000, transactions := [] }
    ∧ getSealingBlock (demoExt demoPending) demoWorker 11 2000 7 0 [] false false demoNotFired 0
        = .val ([.discard { demoWork with
                    state := { id := 1 }
                    tcount := 1
                    gasPool := some 29979000
                    profit := 105000
                    header := { demoWork.header with GasUsed := 21000 }
                    txs := [demoTx 1 5]
                    receipts := [demoReceipt (demoTx 1 5) 21000 21000] }],
            .ok ({ header := { demoWork.header with GasUsed := 21000 }
                   transactions := [demoTx 1 5] }, 105000))
    ∧ (demoHeader 10 30000000 1000).Time < 2000
    ∧ ({ demoWork.header with GasUsed := 21000 } : Header).Number
        = (demoHeader 10 30000000 1000).Number + 1 :=
  ⟨by decide, rfl, rfl,
    (getSealingBlock_parent_and_time (demoExt demoPending) demoWorker 11 2000 7 0 [] false
      demoNotFired 0).2.2.1
      { header := demoHeader 10 30000000 1000, transactions := [] } _ _ _
      (by decide) rfl (fun _ _ h => by cases h; rfl) (fun _ _ _ _ _ _ _ h => by cases h; rfl)
      rfl⟩

/-! ## Merging bundles -/

theorem computeBundleGas_ok_nonempty {X : Ext} {env : environment} {bundle : MevBundle}
    {state : StateDB} {gasPool txCount : Nat} {ctx : InterruptCtx} {now : Nat}
    {r : simulatedBundle × StateDB × Nat}
    (h : computeBundleGas X env bundle state gasPool txCount ctx now = .val (.ok r)) :
    bundle.Txs ≠ [] := by
  intro hnil
  unfold computeBundleGas at h
  rw [hnil] at h
  simp [computeBundleGasLoop] at h

theorem acceptedBundles_zero (X : Ext) (env : environment) (ctx : InterruptCtx) (now : Nat)
    (bundles : List simulatedBundle) (state : StateDB) (gasPool txCount : Nat) :
    acceptedBundles X env ctx now bundles state gasPool txCount 0 = .val [] := by
  cases bundles <;> rfl

theorem mergeBundlesLoop_accepted (X : Ext) (w : worker) (env : environment)
    (ctx : InterruptCtx) (now : Nat) (bundles : List simulatedBundle) (m : Merge) (room : Nat)
    (hroom : m.count + (room + 1) = w.maxMergedBundles) (hm : m.totalGasUsed < 2 ^ 64) :
    MergedAs m (mergeBundlesLoop X w env ctx now bundles m)
      (acceptedBundles X env ctx now bundles m.currentState m.gasPool m.finalBundle.length
        (room + 1)) := by
  induction bundles generalizing m room with
  | nil =>
    have h0 : m.totalGasUsed % 2 ^ 64 = m.totalGasUsed := Nat.mod_eq_of_lt hm
    simp [mergeBundlesLoop, acceptedBundles, MergedAs]
    omega
  | cons bundle rest ih =>
    simp only [mergeBundlesLoop, acceptedBundles]
    cases hc : computeBundleGas X env bundle.originalBundle m.currentState m.gasPool
        m.finalBundle.length ctx now with
    | panic => simp [MergedAs]
    | val r =>
      cases r with
      | error err => exact ih m room hroom hm
      | ok r =>
        obtain ⟨simmed, state, gasPool⟩ := r
        simp only
        by_cases hp : simmed.mevGasPrice ≤ Int.ediv (bundle.mevGasPrice * 99) 100
        · rw [if_pos hp, if_pos hp]
          exact ih m room hroom hm
        · rw [if_neg hp, if_neg hp]
          cases room with
          | zero =>
            rw [if_pos (show w.maxMergedBundles ≤ m.count + 1 by omega), acceptedBundles_zero]
            simp [MergedAs]
          | succ k =>
            rw [if_neg (show ¬ w.maxMergedBundles ≤ m.count + 1 by omega)]
            have := ih
              { finalBundle := m.finalBundle ++ bundle.originalBundle.Txs
                currentState := state
                gasPool := gasPool
                totalEth := m.totalEth + simmed.totalEth
                ethSentToCoinbase := m.ethSentToCoinbase + simmed.ethSentToCoinbase
                totalGasUsed := (m.totalGasUsed + simmed.totalGasUsed) % 2 ^ 64
                count := m.count + 1 } k (show m.count + 1 + (k + 1) = w.maxMergedBundles by omega)
              (Nat.mod_lt _ (by norm_num))
            simp only [List.length_append] at this
            revert this
            generalize mergeBundlesLoop X w env ctx now rest _ = a
            generalize acceptedBundles X env ctx now rest state gasPool _ (k + 1) = b
            intro this
            cases a <;> cases b <;> simp only [MergedAs] at this ⊢
            obtain ⟨h1, h2, h3, h4, h5⟩ := this
            refine ⟨?_, ?_, ?_, ?_, ?_⟩
            · simp [h1]
            · simp [h2]; ring
            · simp [h3]; ring
            · simp only [h4, List.map_cons, List.sum_cons]
              rw [Nat.add_mod, Nat.mod_mod, ← Nat.add_mod, Nat.add_assoc]
            · simp [h5]; omega

theorem acceptedBundles_facts (X : Ext) (env : environment) (ctx : InterruptCtx) (now : Nat)
    (bundles : List simulatedBundle) (state : StateDB) (gasPool txCount room : Nat)
    (accepted : List (simulatedBundle × simulatedBundle))
    (h : acceptedBundles X env ctx now bundles state gasPool txCount room = .val accepted) :
    accepted.length ≤ room ∧ (accepted.map fun a => a.1).Sublist bundles
      ∧ ∀ a ∈ accepted, a.1.originalBundle.Txs ≠ [] := by
  induction bundles generalizing state gasPool txCount room accepted with
  | nil =>
    simp only [acceptedBundles, Ret.val.injEq] at h
    subst h
    simp
  | cons bundle rest ih =>
    cases room with
    | zero =>
      simp only [acceptedBundles, Ret.val.injEq] at h
      subst h
      simp
    | succ k =>
      simp only [acceptedBundles] at h
      cases hc : computeBundleGas X env bundle.originalBundle state gasPool txCount ctx now with
      | panic => simp [hc] at h
      | val r =>
        cases r with
        | error err =>
          simp only [hc] at h
          obtain ⟨h1, h2, h3⟩ := ih _ _ _ _ _ h
          exact ⟨h1, h2.trans (List.sublist_cons_self _ _), h3⟩
        | ok r =>
          obtain ⟨simmed, state1, gasPool1⟩ := r
          simp only [hc] at h
          split at h
          · obtain ⟨h1, h2, h3⟩ := ih _ _ _ _ _ h
            exact ⟨h1, h2.trans (List.sublist_cons_self _ _), h3⟩
          · cases hrec : acceptedBundles X env ctx now rest state1 gasPool1
                (txCount + bundle.originalBundle.Txs.length) k with
            | panic => simp [hrec] at h
            | val more =>
              simp only [hrec, Ret.val.injEq] at h
              subst h
              obtain ⟨h1, h2, h3⟩ := ih _ _ _ _ _ hrec
              refine ⟨by simp; omega, by simpa using h2, ?_⟩
              intro a ha
              simp only [List.mem_cons] at ha
              rcases ha with rfl | ha
              · exact computeBundleGas_ok_nonempty hc
              · exact h3 a ha

theorem mergeBundles_eq_mergedResult (X : Ext) (w : worker) (env : environment)
    (ctx : InterruptCtx) (now : Nat) (ranked : List simulatedBundle)
    (hmax : 1 ≤ w.maxMergedBundles) :
    mergeBundles X w env ranked ctx now
      = match acceptedBundles X env ctx now ranked env.state env.header.GasLimit 0
          w.maxMergedBundles with
        | .panic => .panic
        | .val accepted => mergedResult w.maxMergedBundles accepted := by
  obtain ⟨room, hroom⟩ : ∃ room, w.maxMergedBundles = room + 1 := ⟨w.maxMergedBundles - 1, by omega⟩
  have hagree := mergeBundlesLoop_accepted X w env ctx now ranked
    { finalBundle := [], currentState := env.state, gasPool := env.header.GasLimit
      totalEth := 0, ethSentToCoinbase := 0, totalGasUsed := 0, count := 0 } room
    (by simp [hroom]) (by norm_num)
  unfold mergeBundles
  rw [hroom] at *
  simp only [List.length_nil] at hagree
  cases hl : mergeBundlesLoop X w env ctx now ranked
      { finalBundle := [], currentState := env.state, gasPool := env.header.GasLimit
        totalEth := 0, ethSentToCoinbase := 0, totalGasUsed := 0, count := 0 } with
  | panic =>
    cases ha : acceptedBundles X env ctx now ranked env.state env.header.GasLimit 0 (room + 1) with
    | panic => rfl
    | val acc => simp [hl, ha, MergedAs] at hagree
  | val m1 =>
    cases ha : acceptedBundles X env ctx now ranked env.state env.header.GasLimit 0 (room + 1) with
    | panic => simp [hl, ha, MergedAs] at hagree
    | val acc =>
      simp only [hl, ha, MergedAs, List.nil_append, zero_add] at hagree
      obtain ⟨h1, h2, h3, h4, h5⟩ := hagree
      obtain ⟨-, -, hne⟩ := acceptedBundles_facts _ _ _ _ _ _ _ _ _ _ ha
      simp only [mergedResult]
      by_cases hlen : acc.length = room + 1
      · have hfinal : m1.finalBundle.length ≠ 0 := by
          cases acc with
          | nil => simp at hlen
          | cons a rest =>
            have := hne a (by simp)
            rw [h1]
            simp only [List.map_cons, List.flatten_cons, List.length_append]
            have : a.1.originalBundle.Txs.length ≠ 0 := by
              simpa [List.length_eq_zero] using this
            omega
        rw [if_neg (by rw [h5, hroom]; simp [hfinal, hlen]), if_pos hlen]
        simp only [h1, h2, h3, h4, h5]
      · rw [if_pos (Or.inr (by rw [h5, hroom]; exact hlen)), if_neg hlen, h5]


/-- C17, as stated, fails: in a world where a transfer pays one unit less per
gas once another bundle has run, the bundle first simulated at price 100 is
re-simulated after the bundle of price 200 at price 99, which equals
floor(99·100/100); the merge rejects it, so only one bundle is merged and
with `maxMergedBundles = 2` nothing is returned. -/
theorem mergeBundles_rejects_price_at_floor :
    (∃ sim100 sim200, simulateBundles (bundleExt 1) demoEnv backgroundCtx 0
          [demoBundle 1 100, demoBundle 2 200] = .val [sim100, sim200]
        ∧ sim100.mevGasPrice = 100 ∧ sim200.mevGasPrice = 200)
    ∧ (∃ simmed state gasPool,
        computeBundleGas (bundleExt 1) demoEnv (demoBundle 1 100) { id := 4200000 } 79000 1
          backgroundCtx 0 = .val (.ok (simmed, state, gasPool))
        ∧ simmed.mevGasPrice = 99)
    ∧ Int.ediv (100 * 99) 100 = 99
    ∧ generateFlashbotsBundle (bundleExt 1) (demoBundleWorker 2) demoEnv
        [demoBundle 1 100, demoBundle 2 200] backgroundCtx 0
      = .val ([], simulatedBundle.zero, 1) := by
  refine ⟨⟨_, _, rfl, rfl, rfl⟩, ⟨_, _, _, rfl, rfl⟩, rfl, rfl⟩

/-- C17, corrected: for every ranked bundle in the loop of `mergeBundles` with
top-of-block simulated price p, the bundle is kept iff its re-simulation on the
current merge state succeeds and its re-simulated mevGasPrice is strictly
above floor(99·p/100), a price equal to the floor being rejected: when kept,
its transactions, state, gas pool and re-simulated totals go into the merge
and the loop stops once `maxMergedBundles` are merged; otherwise, on an error
of the re-simulation or a price at or under the floor, the loop goes on with
the merge state and gas pool exactly as they were before the bundle was
tried. -/
theorem mergeBundlesLoop_keeps_iff (X : Ext) (w : worker) (env : environment)
    (interruptCtx : InterruptCtx) (now : Nat) (bundle : simulatedBundle)
    (rest : List simulatedBundle) (m : Merge) :
    (∀ simmed state gasPool,
        computeBundleGas X env bundle.originalBundle m.currentState m.gasPool
          m.finalBundle.length interruptCtx now = .val (.ok (simmed, state, gasPool)) →
        Int.ediv (bundle.mevGasPrice * 99) 100 < simmed.mevGasPrice →
        mergeBundlesLoop X w env interruptCtx now (bundle :: rest) m
          = if w.maxMergedBundles ≤ m.count + 1 then
              .val { finalBundle := m.finalBundle ++ bundle.originalBundle.Txs
                     currentState := state
                     gasPool := gasPool
                     totalEth := m.totalEth + simmed.totalEth
                     ethSentToCoinbase := m.ethSentToCoinbase + simmed.ethSentToCoinbase
                     totalGasUsed := (m.totalGasUsed + simmed.totalGasUsed) % 2 ^ 64
                     count := m.count + 1 }
            else
              mergeBundlesLoop X w env interruptCtx now rest
                { finalBundle := m.finalBundle ++ bundle.originalBundle.Txs
                  currentState := state
                  gasPool := gasPool
                  totalEth := m.totalEth + simmed.totalEth
                  ethSentToCoinbase := m.ethSentToCoinbase + simmed.ethSentToCoinbase
                  totalGasUsed := (m.totalGasUsed + simmed.totalGasUsed) % 2 ^ 64
                  count := m.count + 1 })
    ∧ (∀ simmed state gasPool,
        computeBundleGas X env bundle.originalBundle m.currentState m.gasPool
          m.finalBundle.length interruptCtx now = .val (.ok (simmed, state, gasPool)) →
        simmed.mevGasPrice ≤ Int.ediv (bundle.mevGasPrice * 99) 100 →
        mergeBundlesLoop X w env interruptCtx now (bundle :: rest) m
          = mergeBundlesLoop X w env interruptCtx now rest m)
    ∧ (∀ err,
        computeBundleGas X env bundle.originalBundle m.currentState m.gasPool
          m.finalBundle.length interruptCtx now = .val (.error err) →
        mergeBundlesLoop X w env interruptCtx now (bundle :: rest) m
          = mergeBundlesLoop X w env interruptCtx now rest m) := by
  refine ⟨?_, ?_, ?_⟩
  · intro simmed state gasPool hc hp
    simp only [mergeBundlesLoop, hc]
    rw [if_neg (by omega)]
  · intro simmed state gasPool hc hp
    simp only [mergeBundlesLoop, hc]
    rw [if_pos hp]
  · intro err hc
    simp only [mergeBundlesLoop, hc]

theorem mergeBundlesLoop_keeps_iff_witness :
    (∃ simmed state gasPool,
        computeBundleGas (bundleExt 1) demoEnv (demoBundle 1 100) { id := 4200000 } 79000 1
          backgroundCtx 0 = .val (.ok (simmed, state, gasPool))
        ∧ simmed.mevGasPrice ≤ Int.ediv (100 * 99) 100)
    ∧ mergeBundlesLoop (bundleExt 1) (demoBundleWorker 2) demoEnv backgroundCtx 0
        [{ simulatedBundle.zero with mevGasPrice := 100, originalBundle := demoBundle 1 100 }]
        { finalBundle := [demoTx 2 200], currentState := { id := 4200000 }, gasPool := 79000
          totalEth := 4200000, ethSentToCoinbase := 0, totalGasUsed := 21000, count := 1 }
      = mergeBundlesLoop (bundleExt 1) (demoBundleWorker 2) demoEnv backgroundCtx 0 []
        { finalBundle := [demoTx 2 200], currentState := { id := 4200000 }, gasPool := 79000
          totalEth := 4200000, ethSentToCoinbase := 0, totalGasUsed := 21000, count := 1 } :=
  ⟨⟨_, _, _, rfl, by decide⟩,
    (mergeBundlesLoop_keeps_iff (bundleExt 1) (demoBundleWorker 2) demoEnv backgroundCtx 0
      { simulatedBundle.zero with mevGasPrice := 100, originalBundle := demoBundle 1 100 } []
      { finalBundle := [demoTx 2 200], currentState := { id := 4200000 }, gasPool := 79000
        totalEth := 4200000, ethSentToCoinbase := 0, totalGasUsed := 21000, count := 1 }).2.1
      _ _ _ rfl (by decide)⟩

theorem computeBundleGasLoop_gas {X : Ext} (hpool : AppliesWithinPool X) (hgas : UsesGas X)
    (env : environment) (bundle : MevBundle) (cnt : Nat) (ctx : InterruptCtx) (now : Nat)
    (txs : List Transaction) (i : Nat) (acc acc1 : BundleGas)
    (h : computeBundleGasLoop X env bundle cnt ctx now txs i acc = .ok acc1)
    (hacc : acc.totalGasUsed + acc.gasPool < 2 ^ 64) :
    acc1.totalGasUsed + acc1.gasPool = acc.totalGasUsed + acc.gasPool
      ∧ acc.totalGasUsed + txs.length ≤ acc1.totalGasUsed := by
  induction txs generalizing i acc with
  | nil =>
    simp only [computeBundleGasLoop, Except.ok.injEq] at h
    subst h
    simp
  | cons tx rest ih =>
    simp only [computeBundleGasLoop] at h
    split at h
    · cases h
    · split at h
      · cases h
      · split at h
        · cases h
        · split at h
          · cases h
          · rename_i receipt state2 gasPool2 usedGas2 happly
            obtain ⟨hle, hgp⟩ := hpool _ _ _ _ _ _ _ _ _ _ _ _ happly
            have hpos := hgas _ _ _ _ _ _ _ _ _ _ _ _ happly
            split at h
            · cases h
            · split at h
              · cases h
              · split at h
                · cases h
                · have hmod : (acc.totalGasUsed + receipt.GasUsed) % 2 ^ 64
                      = acc.totalGasUsed + receipt.GasUsed :=
                    Nat.mod_eq_of_lt (by omega)
                  obtain ⟨h1, h2⟩ := ih _ _ h (by simp only [hmod, hgp]; omega)
                  simp only [hmod, hgp] at h1 h2
                  refine ⟨by omega, ?_⟩
                  simp only [List.length_cons]
                  omega

theorem computeBundleGas_gas {X : Ext} (hpool : AppliesWithinPool X) (hgas : UsesGas X)
    (env : environment) (bundle : MevBundle) (state : StateDB) (gasPool cnt : Nat)
    (ctx : InterruptCtx) (now : Nat) (hne : bundle.Txs ≠ []) (hg : gasPool < 2 ^ 64) :
    ∃ r, computeBundleGas X env bundle state gasPool cnt ctx now = .val r
      ∧ ∀ simmed st gp, r = .ok (simmed, st, gp) →
          simmed.totalGasUsed + gp = gasPool ∧ 0 < simmed.totalGasUsed
            ∧ simmed.originalBundle = bundle := by
  unfold computeBundleGas
  cases hl : computeBundleGasLoop X env bundle cnt ctx now bundle.Txs 0
      { state := state, gasPool := gasPool, tempGasUsed := 0, totalGasUsed := 0
        gasFees := 0, ethSentToCoinbase := 0 } with
  | error err => exact ⟨_, rfl, fun _ _ _ hr => by cases hr⟩
  | ok acc =>
    obtain ⟨h1, h2⟩ := computeBundleGasLoop_gas hpool hgas _ _ _ _ _ _ _ _ _ hl
      (by simpa using hg)
    simp only [zero_add] at h1 h2
    have hlen : 0 < bundle.Txs.length := List.length_pos.2 hne
    simp only
    rw [if_neg (by omega)]
    refine ⟨_, rfl, ?_⟩
    intro simmed st gp hr
    simp only [Except.ok.injEq, Prod.mk.injEq] at hr
    obtain ⟨hs, -, hgp⟩ := hr
    subst hs hgp
    exact ⟨h1, by simp only; omega, rfl⟩

theorem simulateBundles_total {X : Ext} (hpool : AppliesWithinPool X) (hgas : UsesGas X)
    (env : environment) (ctx : InterruptCtx) (now : Nat) (bundles : List MevBundle)
    (hlimit : env.header.GasLimit < 2 ^ 64) :
    ∃ simulated, simulateBundles X env ctx now bundles = .val simulated
      ∧ ∀ s ∈ simulated, s.originalBundle.Txs ≠ [] := by
  induction bundles with
  | nil => exact ⟨[], rfl, by simp⟩
  | cons bundle rest ih =>
    obtain ⟨more, hmore, hne⟩ := ih
    simp only [simulateBundles]
    split
    · exact ⟨more, hmore, hne⟩
    · rename_i hlen
      have hnil : bundle.Txs ≠ [] := by
        intro hn
        exact hlen (by simp [hn])
      obtain ⟨r, hr, hfacts⟩ := computeBundleGas_gas hpool hgas env bundle env.state
        env.header.GasLimit 0 ctx now hnil hlimit
      rw [hr]
      cases r with
      | error err => exact ⟨more, hmore, hne⟩
      | ok r =>
        obtain ⟨simmed, st, gp⟩ := r
        simp only [hmore]
        refine ⟨simmed :: more, rfl, ?_⟩
        intro s hs
        simp only [List.mem_cons] at hs
        rcases hs with rfl | hs
        · rw [(hfacts _ _ _ rfl).2.2]
          exact hnil
        · exact hne s hs

theorem acceptedBundles_total {X : Ext} (hpool : AppliesWithinPool X) (hgas : UsesGas X)
    (env : environment) (ctx : InterruptCtx) (now : Nat) (ranked : List simulatedBundle)
    (state : StateDB) (gasPool cnt room : Nat) (hg : gasPool < 2 ^ 64)
    (hne : ∀ s ∈ ranked, s.originalBundle.Txs ≠ []) :
    ∃ accepted, acceptedBundles X env ctx now ranked state gasPool cnt room = .val accepted
      ∧ (accepted.map fun a => a.2.totalGasUsed).sum ≤ gasPool
      ∧ ∀ a ∈ accepted, 0 < a.2.totalGasUsed := by
  induction ranked generalizing state gasPool cnt room with
  | nil => exact ⟨[], rfl, by simp, by simp⟩
  | cons bundle rest ih =>
    have hrest : ∀ s ∈ rest, s.originalBundle.Txs ≠ [] :=
      fun s hs => hne s (List.mem_cons_of_mem _ hs)
    cases room with
    | zero => exact ⟨[], rfl, by simp, by simp⟩
    | succ k =>
      simp only [acceptedBundles]
      obtain ⟨r, hr, hfacts⟩ := computeBundleGas_gas hpool hgas env bundle.originalBundle state
        gasPool cnt ctx now (hne bundle (by simp)) hg
      rw [hr]
      cases r with
      | error err => exact ih state gasPool cnt (k + 1) hg hrest
      | ok r =>
        obtain ⟨simmed, st, gp⟩ := r
        simp only
        split
        · exact ih state gasPool cnt (k + 1) hg hrest
        · obtain ⟨h1, h2, -⟩ := hfacts _ _ _ rfl
          obtain ⟨more, hmore, hsum, hpos⟩ :=
            ih st gp (cnt + bundle.originalBundle.Txs.length) k (by omega) hrest
          rw [hmore]
          refine ⟨(bundle, simmed) :: more, rfl, ?_, ?_⟩
          · simp only [List.map_cons, List.sum_cons]
            omega
          · intro a ha
            simp only [List.mem_cons] at ha
            rcases ha with rfl | ha
            · exact h2
            · exact hpos a ha

theorem bundleExt_appliesWithinPool (decay : Nat) : AppliesWithinPool (bundleExt decay) := by
  intro coinbase gasPool state header tx usedGas ctx now receipt state1 gasPool1 usedGas1 h
  simp only [bundleExt] at h
  split at h
  · simp at h
  · split at h
    · simp at h
    · rename_i hlt
      simp only [ApplyResult.ok.injEq] at h
      obtain ⟨hr, -, hg, -⟩ := h
      subst hr hg
      exact ⟨Nat.le_of_not_lt hlt, rfl⟩

theorem bundleExt_usesGas (decay : Nat) : UsesGas (bundleExt decay) := by
  intro coinbase gasPool state header tx usedGas ctx now receipt state1 gasPool1 usedGas1 h
  simp only [bundleExt] at h
  split at h
  · simp at h
  · rename_i hge
    split at h
    · simp at h
    · simp only [ApplyResult.ok.injEq] at h
      obtain ⟨hr, -, -, -⟩ := h
      subst hr
      simp only [demoReceipt]
      omega

/-- C18: for every list of bundles and every maxMergedBundles ≥ 1, in a world
where a successful execution uses a positive amount of gas and takes it out of
the gas pool, and for a gas limit that fits a `uint64`,
`generateFlashbotsBundle` returns: it simulates the bundles, ranks the
simulated ones in non-increasing mevGasPrice order by a stable permutation,
accepts at most maxMergedBundles of them in rank order, and returns the
concatenation in rank order of the transactions of the accepted bundles, with
totalEth, ethSentToCoinbase and totalGasUsed the sums over their
re-simulations, when exactly maxMergedBundles were accepted, and an empty
transaction list otherwise.  With maxMergedBundles = 2 and three acceptable
bundles priced 80, 100, 90 in the input the result is the transactions of the
100 bundle followed by those of the 90 bundle. -/
theorem generateFlashbotsBundle_merges_ranked (X : Ext) (w : worker) (env : environment)
    (bundles : List MevBundle) (interruptCtx : InterruptCtx) (now : Nat)
    (hmax : 1 ≤ w.maxMergedBundles) (hpool : AppliesWithinPool X) (hgas : UsesGas X)
    (hlimit : env.header.GasLimit < 2 ^ 64) :
    (∃ (simulated ranked : List simulatedBundle)
        (accepted : List (simulatedBundle × simulatedBundle)),
      simulateBundles X env interruptCtx now bundles = .val simulated
      ∧ ranked.Perm simulated
      ∧ ranked.Sorted (fun a b => b.mevGasPrice ≤ a.mevGasPrice)
      ∧ (∀ a b, [a, b].Sublist simulated → b.mevGasPrice ≤ a.mevGasPrice →
          [a, b].Sublist ranked)
      ∧ acceptedBundles X env interruptCtx now ranked env.state env.header.GasLimit 0
          w.maxMergedBundles = .val accepted
      ∧ accepted.length ≤ w.maxMergedBundles
      ∧ (accepted.map fun a => a.1).Sublist ranked
      ∧ generateFlashbotsBundle X w env bundles interruptCtx now
          = .val (if accepted.length = w.maxMergedBundles then
              ((accepted.map fun a => a.1.originalBundle.Txs).flatten,
                { simulatedBundle.zero with
                    mevGasPrice := Int.ediv (accepted.map fun a => a.2.totalEth).sum
                      (((accepted.map fun a => a.2.totalGasUsed).sum : Nat) : Int)
                    totalEth := (accepted.map fun a => a.2.totalEth).sum
                    ethSentToCoinbase := (accepted.map fun a => a.2.ethSentToCoinbase).sum
                    totalGasUsed := (accepted.map fun a => a.2.totalGasUsed).sum },
                accepted.length)
            else ([], simulatedBundle.zero, accepted.length)))
    ∧ generateFlashbotsBundle (bundleExt 0) (demoBundleWorker 2) demoEnv
        [demoBundle 1 80, demoBundle 2 100, demoBundle 3 90] backgroundCtx 0
      = .val ([demoTx 2 100, demoTx 3 90],
          { simulatedBundle.zero with
              mevGasPrice := 95, totalEth := 3990000, ethSentToCoinbase := 0
              totalGasUsed := 42000 }, 2) := by
  refine ⟨?_, rfl⟩
  obtain ⟨simulated, hsim, hne⟩ :=
    simulateBundles_total hpool hgas env interruptCtx now bundles hlimit
  have hne1 : ∀ s ∈ simulated.insertionSort (fun a b => b.mevGasPrice ≤ a.mevGasPrice),
      s.originalBundle.Txs ≠ [] :=
    fun s hs => hne s ((List.mem_insertionSort _).1 hs)
  obtain ⟨accepted, hacc, hsum, hpos⟩ :=
    acceptedBundles_total hpool hgas env interruptCtx now _ env.state env.header.GasLimit 0
      w.maxMergedBundles hlimit hne1
  obtain ⟨hlen, hsub, -⟩ := acceptedBundles_facts _ _ _ _ _ _ _ _ _ _ hacc
  refine ⟨simulated, _, accepted, hsim, List.perm_insertionSort _ _, ?_, ?_, hacc, hlen, hsub, ?_⟩
  · haveI : IsTotal simulatedBundle (fun a b => b.mevGasPrice ≤ a.mevGasPrice) :=
      ⟨fun a b => le_total _ _⟩
    haveI : IsTrans simulatedBundle (fun a b => b.mevGasPrice ≤ a.mevGasPrice) :=
      ⟨fun a b c hab hbc => le_trans hbc hab⟩
    exact List.sorted_insertionSort _ _
  · intro a b hsub2 hab
    exact List.pair_sublist_insertionSort hab hsub2
  · simp only [generateFlashbotsBundle, hsim]
    rw [mergeBundles_eq_mergedResult X w env interruptCtx now _ hmax, hacc]
    simp only [mergedResult]
    have hmod : (accepted.map fun a => a.2.totalGasUsed).sum % 2 ^ 64
        = (accepted.map fun a => a.2.totalGasUsed).sum := Nat.mod_eq_of_lt (by omega)
    by_cases hl : accepted.length = w.maxMergedBundles
    · have hnz : (accepted.map fun a => a.2.totalGasUsed).sum ≠ 0 := by
        cases accepted with
        | nil => simp at hl; omega
        | cons a rest =>
          have := hpos a (by simp)
          simp only [List.map_cons, List.sum_cons]
          omega
      rw [if_pos hl, if_pos hl, hmod, if_neg hnz]
    · rw [if_neg hl, if_neg hl]

theorem generateFlashbotsBundle_merges_ranked_witness :
    1 ≤ (demoBundleWorker 2).maxMergedBundles
    ∧ AppliesWithinPool (bundleExt 0) ∧ UsesGas (bundleExt 0)
    ∧ demoEnv.header.GasLimit < 2 ^ 64
    ∧ ∃ (simulated ranked : List simulatedBundle)
        (accepted : List (simulatedBundle × simulatedBundle)),
      simulateBundles (bundleExt 0) demoEnv backgroundCtx 0
          [demoBundle 1 80, demoBundle 2 100, demoBundle 3 90] = .val simulated
      ∧ ranked.Perm simulated
      ∧ acceptedBundles (bundleExt 0) demoEnv backgroundCtx 0 ranked demoEnv.state
          demoEnv.header.GasLimit 0 (demoBundleWorker 2).maxMergedBundles = .val accepted
      ∧ accepted.length ≤ (demoBundleWorker 2).maxMergedBundles :=
  ⟨by decide, bundleExt_appliesWithinPool 0, bundleExt_usesGas 0, by decide,
    match (generateFlashbotsBundle_merges_ranked (bundleExt 0) (demoBundleWorker 2) demoEnv
      [demoBundle 1 80, demoBundle 2 100, demoBundle 3 90] backgroundCtx 0 (by decide)
      (bundleExt_appliesWithinPool 0) (bundleExt_usesGas 0) (by decide)).1 with
    | ⟨simulated, ranked, accepted, hsim, hperm, _, _, hacc, hlen, _, _⟩ =>
      ⟨simulated, ranked, accepted, hsim, hperm, hacc, hlen⟩⟩

/-! ## Bundles in a block -/

theorem commitBundleLoop_prefix (X : Ext) (interrupt : InterruptFlag)
    (interruptCtx : InterruptCtx) (gasLimit : Nat) (txs : List Transaction) (env : environment)
    (now : Nat) (logs : List Log) (e : BundleLoopEnd)
    (h : commitBundleLoop X interrupt interruptCtx gasLimit txs env now logs = .val e)
    (herr : e.ret = some .errCouldNotApplyTransaction) :
    ∃ k e0, k < txs.length
      ∧ commitBundleLoop X interrupt interruptCtx gasLimit (txs.take k) env now logs = .val e0
      ∧ e0.ret = none ∧ e0.events = [] ∧ e0.env.txs = env.txs ++ txs.take k
      ∧ e0.env.tcount = env.tcount + k
      ∧ SameBlock e.env e0.env ∧ e.events = [] := by
  induction txs generalizing env now logs with
  | nil =>
    simp only [commitBundleLoop, Ret.val.injEq] at h
    subst h
    simp at herr
  | cons tx rest ih =>
    simp only [commitBundleLoop] at h
    by_cases hctx : ctxFired interruptCtx now = true
    · rw [if_pos hctx] at h
      simp only [Ret.val.injEq] at h
      subst h
      simp at herr
    · rw [if_neg hctx] at h
      split at h
      · split at h
        · split at h
          · simp at h
          · simp only [Ret.val.injEq] at h
            subst h
            simp at herr
        · simp only [Ret.val.injEq] at h
          subst h
          simp at herr
      · rename_i hsig
        split at h
        · simp at h
        · rename_i gas hgp
          by_cases hgas : gas < X.TxGas
          · rw [if_pos hgas] at h
            simp only [Ret.val.injEq] at h
            subst h
            simp at herr
          · rw [if_neg hgas] at h
            by_cases hprot : (tx.Protected && !X.IsEIP155 env.header.Number) = true
            · rw [if_pos hprot] at h
              simp only [Ret.val.injEq] at h
              subst h
              exact ⟨0, ⟨env, now, [], logs, none⟩, (by simp), (by simp [commitBundleLoop]), rfl,
                rfl, (by simp), (by simp), ⟨rfl, rfl, rfl, rfl, rfl, rfl⟩, rfl⟩
            · rw [if_neg hprot] at h
              cases hct : commitTransaction X
                  { env with state := X.SetTxContext env.state tx.Hash env.tcount } tx
                  interruptCtx now with
              | panic => simp [hct] at h
              | val p =>
                obtain ⟨env2, res⟩ := p
                obtain ⟨gp, hgp2, hc | hc⟩ := commitTransaction_cases X _ tx _ _ _ _ hct
                · obtain ⟨err, hres, he⟩ := hc
                  subst hres
                  simp only [hct, Ret.val.injEq] at h
                  subst h
                  simp only at hgp2
                  refine ⟨0, ⟨env, now, [], logs, none⟩, (by simp), (by simp [commitBundleLoop]),
                    rfl, rfl, (by simp), (by simp), ?_, rfl⟩
                  rw [he]
                  exact ⟨rfl, rfl, rfl, by simp [hgp2], rfl, rfl⟩
                · obtain ⟨receipt, state, gasPool, usedGas, -, hres, he⟩ := hc
                  subst hres
                  simp only [hct] at h
                  obtain ⟨k, e0, hk, hrun, hret, hev, htxs, htc, hsame, hevents⟩ := ih _ _ _ h
                  refine ⟨k + 1, e0, Nat.succ_lt_succ hk, ?_, hret, hev, ?_, ?_, hsame, hevents⟩
                  · simp only [List.take_succ_cons, commitBundleLoop]
                    rw [if_neg hctx, if_neg hsig]
                    simp only [hgp]
                    rw [if_neg hgas, if_neg hprot]
                    have hct1 := hct
                    simp only [hgp] at hct1
                    simp only [hct1]
                    exact hrun
                  · rw [htxs, he]
                    simp
                  · rw [htc, he]
                    show env.tcount + 1 + k = env.tcount + (k + 1)
                    rw [Nat.add_assoc, Nat.add_comm 1 k]

theorem commitBundle_of_loop_none (X : Ext) (w : worker) {env : environment}
    {txs : List Transaction} {interrupt : InterruptFlag} {interruptCtx : InterruptCtx}
    {now : Nat} {e : BundleLoopEnd}
    (h : commitBundleLoop X interrupt interruptCtx env.header.GasLimit txs env.withGasPool now []
      = .val e) (hret : e.ret = none) :
    ∃ r0, commitBundle X w env txs interrupt interruptCtx now = .val r0
      ∧ r0.err = none ∧ r0.env = e.env := by
  obtain ⟨env0, now0, events0, logs0, ret0⟩ := e
  simp only at hret
  subst hret
  unfold commitBundle
  simp only [h]
  exact ⟨_, rfl, rfl, rfl⟩

/-- C19, as stated, fails: the second transaction of the bundle needs more gas
than the pool holds after the first; `commitBundle` returns the
could-not-apply error and the environment keeps the first transaction, its
receipt, the gas it used, its profit and the count 1. -/
theorem commitBundle_keeps_earlier_transactions :
    commitBundle (demoExt []) demoWorker demoEnv
        [demoTx 1 5, { demoTx 2 5 with Gas := 90000 }] none backgroundCtx 0
      = .val ⟨{ demoEnvAfter with tcount := 1 }, 1, [], some .errCouldNotApplyTransaction⟩
    ∧ ({ demoEnvAfter with tcount := 1 } : environment).txs = [demoTx 1 5]
    ∧ demoEnv.txs = [] := by
  refine ⟨rfl, rfl, rfl⟩

/-- C19, corrected: `commitBundle` stops at the first transaction that cannot
be applied (an execution error, or a replay-protected transaction before
EIP-155) and returns the could-not-apply error at once, sending nothing; that
transaction and the ones after it leave nothing in the environment, but
nothing is rolled back: for some k less than the length of the bundle, the
environment is the one that `commitBundle` leaves, without error, for the
first k transactions of the bundle alone, up to the state handle: it holds
these k transactions after the old ones with their receipts, their gas, their
profit and the count grown by k. -/
theorem commitBundle_could_not_apply (X : Ext) (w : worker) (env : environment)
    (txs : List Transaction) (interrupt : InterruptFlag) (interruptCtx : InterruptCtx)
    (now : Nat) (r : CommitResult)
    (h : commitBundle X w env txs interrupt interruptCtx now = .val r)
    (herr : r.err = some .errCouldNotApplyTransaction) :
    ∃ k r0, k < txs.length
      ∧ commitBundle X w env (txs.take k) interrupt interruptCtx now = .val r0
      ∧ r0.err = none
      ∧ r0.env.txs = env.txs ++ txs.take k
      ∧ r0.env.tcount = env.tcount + k
      ∧ SameBlock r.env r0.env
      ∧ r.events = [] := by
  unfold commitBundle at h
  simp only at h
  have hpool : env.withGasPool.txs = env.txs ∧ env.withGasPool.tcount = env.tcount := by
    unfold environment.withGasPool
    cases env.gasPool <;> simp
  split at h
  · simp at h
  · rename_i env1 now1 events logs err hl
    simp only [Ret.val.injEq] at h
    subst h
    simp only at herr
    obtain ⟨k, e0, hk, hrun, hret, hev, htxs, htc, hsame, hevents⟩ :=
      commitBundleLoop_prefix X _ _ _ _ _ _ _ _ hl (by simpa using herr)
    obtain ⟨r0, hr0, herr0, henv0⟩ := commitBundle_of_loop_none X w hrun hret
    refine ⟨k, r0, hk, hr0, herr0, ?_, ?_, ?_, hevents⟩
    · rw [henv0, htxs, hpool.1]
    · rw [henv0, htc, hpool.2]
    · rw [henv0]
      exact hsame
  · simp only [Ret.val.injEq] at h
    subst h
    simp at herr

theorem commitBundle_could_not_apply_witness :
    ∃ r, commitBundle (demoExt []) demoWorker demoEnv
        [demoTx 1 5, { demoTx 2 5 with Gas := 90000 }] none backgroundCtx 0 = .val r
      ∧ r.err = some .errCouldNotApplyTransaction
      ∧ ∃ k r0, k < [demoTx 1 5, { demoTx 2 5 with Gas := 90000 }].length
        ∧ commitBundle (demoExt []) demoWorker demoEnv
            ([demoTx 1 5, { demoTx 2 5 with Gas := 90000 }].take k) none backgroundCtx 0
          = .val r0
        ∧ r0.err = none
        ∧ r0.env.txs = demoEnv.txs ++ [demoTx 1 5, { demoTx 2 5 with Gas := 90000 }].take k
        ∧ r0.env.tcount = demoEnv.tcount + k
        ∧ SameBlock r.env r0.env
        ∧ r.events = [] :=
  ⟨_, rfl, rfl,
    commitBundle_could_not_apply (demoExt []) demoWorker demoEnv
      [demoTx 1 5, { demoTx 2 5 with Gas := 90000 }] none backgroundCtx 0 _ rfl rfl⟩

/-- C20, as stated, fails: a worker in bundle mode whose pool offers no bundle
gets an empty merge; `fillTransactions` returns nil with the environment
untouched, although the pool holds a pending transfer that the same call in
non-bundle mode commits. -/
theorem fillTransactions_empty_merge_returns :
    (demoExt demoPending).MevBundles demoWork.header.Number demoWork.header.Time = .ok []
    ∧ generateFlashbotsBundle (demoExt demoPending) (demoBundleWorker 1) demoWork []
        backgroundCtx 0 = .val ([], simulatedBundle.zero, 0)
    ∧ fillTransactions (demoExt demoPending) (demoBundleWorker 1) none demoWork backgroundCtx 0
      = .val ⟨demoWork, 0, [], none⟩
    ∧ (∃ r, fillTransactions (demoExt demoPending) demoWorker none demoWork backgroundCtx 0
        = .val r ∧ r.env.txs = [demoTx 1 5] ∧ r.err = none) := by
  refine ⟨rfl, rfl, rfl, _, rfl, rfl, rfl⟩

/-- C20, corrected: in bundle mode, whenever the merge returns an empty bundle
(fewer than maxMergedBundles bundles accepted, or no candidates),
`fillTransactions` returns nil at once: the environment is untouched and no
pending transaction of the mempool is committed.  The local and then the
remote pending transactions are committed as in non-bundle mode, by the same
`fillOrdinary`, only after a non-empty merged bundle has been applied by
`commitBundle` without error. -/
theorem fillTransactions_bundle_mode (X : Ext) (w : worker) (interrupt : InterruptFlag)
    (env : environment) (interruptCtx : InterruptCtx) (now : Nat) :
    (∀ bundles bundle n, w.isFlashbots = true →
        X.MevBundles env.header.Number env.header.Time = .ok bundles →
        generateFlashbotsBundle X w env bundles interruptCtx now = .val ([], bundle, n) →
        fillTransactions X w interrupt env interruptCtx now = .val ⟨env, now, [], none⟩)
    ∧ (∀ bundles bundleTxs bundle n env1 now1 events1, w.isFlashbots = true →
        X.MevBundles env.header.Number env.header.Time = .ok bundles →
        generateFlashbotsBundle X w env bundles interruptCtx now = .val (bundleTxs, bundle, n) →
        bundleTxs ≠ [] →
        commitBundle X w env bundleTxs interrupt interruptCtx now
          = .val ⟨env1, now1, events1, none⟩ →
        fillTransactions X w interrupt env interruptCtx now
          = match fillOrdinary X w interrupt interruptCtx
              { env1 with profit := env1.profit + bundle.ethSentToCoinbase } now1 with
            | .panic => .panic
            | .val ⟨env3, now3, events3, err⟩ => .val ⟨env3, now3, events1 ++ events3, err⟩)
    ∧ (w.isFlashbots = false →
        fillTransactions X w interrupt env interruptCtx now
          = fillOrdinary X w interrupt interruptCtx env now) := by
  refine ⟨?_, ?_, ?_⟩
  · intro bundles bundle n hf hb hg
    simp [fillTransactions, hf, hb, hg]
  · intro bundles bundleTxs bundle n env1 now1 events1 hf hb hg hne hc
    have hlen : bundleTxs.length ≠ 0 := by simpa [List.length_eq_zero] using hne
    simp only [fillTransactions, hf, hb, hg, hc, if_true, if_neg hlen]
  · intro hf
    simp [fillTransactions, hf]

theorem fillTransactions_bundle_mode_witness :
    (demoBundleWorker 1).isFlashbots = true
    ∧ (demoExt demoPending).MevBundles demoWork.header.Number demoWork.header.Time = .ok []
    ∧ generateFlashbotsBundle (demoExt demoPending) (demoBundleWorker 1) demoWork []
        backgroundCtx 0 = .val ([], simulatedBundle.zero, 0)
    ∧ fillTransactions (demoExt demoPending) (demoBundleWorker 1) none demoWork backgroundCtx 0
      = .val ⟨demoWork, 0, [], none⟩ :=
  ⟨rfl, rfl, rfl,
    (fillTransactions_bundle_mode (demoExt demoPending) (demoBundleWorker 1) none demoWork
      backgroundCtx 0).1 [] simulatedBundle.zero 0 rfl rfl rfl⟩

/-! ## The work loop -/

theorem commit_fresh (s : NewWorkLoop) (noempty : Bool) (signal : Int) (exiting : Bool)
    (stored : List Nat) (hinv : FlagsFresh s stored) :
    FlagsFresh (s.commit noempty signal exiting).1
      ((storedFlags (s.commit noempty signal exiting).2).reverse ++ stored) := by
  obtain ⟨h1, h2⟩ := hinv
  unfold NewWorkLoop.commit
  cases hi : s.interrupt with
  | none =>
    cases exiting <;> simp [storedFlags, FlagsFresh] <;>
      exact ⟨fun hm => absurd (h2 _ hm) (lt_irrefl _), fun g hg => Nat.lt_succ_of_lt (h2 g hg)⟩
  | some f =>
    obtain ⟨hf1, hf2⟩ := h1 f hi
    cases exiting <;> simp [storedFlags, FlagsFresh] <;>
      exact ⟨⟨Nat.ne_of_gt hf1, fun hm => absurd (h2 _ hm) (lt_irrefl _)⟩,
        Nat.lt_succ_of_lt hf1, fun g hg => Nat.lt_succ_of_lt (h2 g hg)⟩

theorem flagsInOrder_commit (s : NewWorkLoop) (noempty : Bool) (signal : Int) (exiting : Bool)
    (rest : List LoopEvent) (stored : List Nat)
    (hsig : signal = commitInterruptNewHead ∨ signal = commitInterruptResubmit)
    (hinv : FlagsFresh s stored)
    (hrest : FlagsInOrder rest (s.commit noempty signal exiting).1.interrupt
      (s.commit noempty signal exiting).1.allocated
      ((storedFlags (s.commit noempty signal exiting).2).reverse ++ stored)) :
    FlagsInOrder ((s.commit noempty signal exiting).2 ++ rest) s.interrupt s.allocated stored := by
  obtain ⟨h1, h2⟩ := hinv
  have hnew : s.allocated ∉ stored := fun hm => absurd (h2 _ hm) (lt_irrefl _)
  unfold NewWorkLoop.commit at hrest ⊢
  cases hi : s.interrupt with
  | none =>
    cases exiting <;> simp [hi, FlagsInOrder, storedFlags, hnew] at hrest ⊢ <;> exact hrest
  | some f =>
    obtain ⟨hf1, hf2⟩ := h1 f hi
    have hne : ¬ s.allocated = f := Nat.ne_of_gt hf1
    cases exiting <;>
      simp [hi, FlagsInOrder, storedFlags, hnew, hf2, hsig, hne] at hrest ⊢ <;> exact hrest


theorem step_fresh (resubmitHook periodic : Bool) (s : NewWorkLoop) (input : LoopInput)
    (stored : List Nat) (hinv : FlagsFresh s stored) :
    FlagsFresh (s.step resubmitHook periodic input).1
      ((storedFlags (s.step resubmitHook periodic input).2).reverse ++ stored) := by
  cases input with
  | start head unixNow exiting =>
    exact commit_fresh { s with timestamp := unixNow } _ _ _ stored hinv
  | chainHead number unixNow exiting =>
    exact commit_fresh { s with timestamp := unixNow } _ _ _ stored hinv
  | timer running newTxs exiting =>
    simp only [NewWorkLoop.step]
    split
    · split
      · simpa [storedFlags] using hinv
      · exact commit_fresh s _ _ _ stored hinv
    · simpa [storedFlags] using hinv
  | resubmitInterval interval =>
    cases resubmitHook <;> simpa [NewWorkLoop.step, storedFlags, FlagsFresh] using hinv
  | resubmitAdjust adjust =>
    cases resubmitHook <;>
      simpa [NewWorkLoop.step, storedFlags, FlagsFresh, recalcRecommit] using hinv
  | exit => simpa [NewWorkLoop.step, storedFlags] using hinv

theorem flagsInOrder_step (resubmitHook periodic : Bool) (s : NewWorkLoop) (input : LoopInput)
    (rest : List LoopEvent) (stored : List Nat) (hinv : FlagsFresh s stored)
    (hrest : FlagsInOrder rest (s.step resubmitHook periodic input).1.interrupt
      (s.step resubmitHook periodic input).1.allocated
      ((storedFlags (s.step resubmitHook periodic input).2).reverse ++ stored)) :
    FlagsInOrder ((s.step resubmitHook periodic input).2 ++ rest) s.interrupt s.allocated
      stored := by
  cases input with
  | start head unixNow exiting =>
    simp only [NewWorkLoop.step, List.cons_append, FlagsInOrder, storedFlags] at hrest ⊢
    exact flagsInOrder_commit { s with timestamp := unixNow } _ _ _ _ stored (Or.inl rfl) hinv
      hrest
  | chainHead number unixNow exiting =>
    simp only [NewWorkLoop.step, List.cons_append, FlagsInOrder, storedFlags] at hrest ⊢
    exact flagsInOrder_commit { s with timestamp := unixNow } _ _ _ _ stored (Or.inl rfl) hinv
      hrest
  | timer running newTxs exiting =>
    simp only [NewWorkLoop.step] at hrest ⊢
    split at hrest
    · split at hrest
      · rename_i h1 h2
        simp only [h1, h2, if_true, List.cons_append, List.nil_append, FlagsInOrder]
        simpa [storedFlags] using hrest
      · rename_i h1 h2
        simp only [h1, h2, if_true, if_false]
        exact flagsInOrder_commit s _ _ _ _ stored (Or.inr rfl) hinv hrest
    · rename_i h1
      simp only [h1, if_false, List.nil_append, Bool.false_eq_true]
      simpa [storedFlags] using hrest
  | resubmitInterval interval =>
    cases resubmitHook <;> simpa [NewWorkLoop.step, FlagsInOrder, storedFlags] using hrest
  | resubmitAdjust adjust =>
    cases resubmitHook <;>
      simpa [NewWorkLoop.step, FlagsInOrder, storedFlags, recalcRecommit] using hrest
  | exit => simpa [NewWorkLoop.step, storedFlags] using hrest

theorem flagsInOrder_newWorkLoop (resubmitHook periodic : Bool) (inputs : List LoopInput)
    (s : NewWorkLoop) (stored : List Nat) (hinv : FlagsFresh s stored) :
    FlagsInOrder (newWorkLoop resubmitHook periodic inputs s).2 s.interrupt s.allocated
      stored := by
  induction inputs generalizing s stored with
  | nil => simp [newWorkLoop, FlagsInOrder]
  | cons input rest ih =>
    cases input with
    | exit => simp [newWorkLoop, FlagsInOrder]
    | start head unixNow exiting =>
      exact flagsInOrder_step _ _ s _ _ stored hinv (ih _ _ (step_fresh _ _ s _ stored hinv))
    | chainHead number unixNow exiting =>
      exact flagsInOrder_step _ _ s _ _ stored hinv (ih _ _ (step_fresh _ _ s _ stored hinv))
    | timer running newTxs exiting =>
      exact flagsInOrder_step _ _ s _ _ stored hinv (ih _ _ (step_fresh _ _ s _ stored hinv))
    | resubmitInterval interval =>
      exact flagsInOrder_step _ _ s _ _ stored hinv (ih _ _ (step_fresh _ _ s _ stored hinv))
    | resubmitAdjust adjust =>
      exact flagsInOrder_step _ _ s _ _ stored hinv (ih _ _ (step_fresh _ _ s _ stored hinv))

theorem flagsInOrder_signals (trace : List LoopEvent) (interrupt : Option Nat)
    (allocated : Nat) (stored : List Nat) (h : FlagsInOrder trace interrupt allocated stored) :
    ∀ flag signal, LoopEvent.store flag signal ∈ trace → signal ≠ commitInterruptNone := by
  induction trace generalizing interrupt allocated stored with
  | nil => simp
  | cons e rest ih =>
    intro flag signal hm
    simp only [List.mem_cons] at hm
    cases e with
    | store f sig =>
      simp only [FlagsInOrder] at h
      rcases hm with hm | hm
      · simp only [LoopEvent.store.injEq] at hm
        obtain ⟨-, rfl⟩ := hm
        rcases h.2.2.1 with hs | hs <;> rw [hs] <;> decide
      · exact ih _ _ _ h.2.2.2 flag signal hm
    | alloc f =>
      simp only [FlagsInOrder] at h
      rcases hm with hm | hm
      · cases hm
      · exact ih _ _ _ h.2.2 flag signal hm
    | request req =>
      simp only [FlagsInOrder] at h
      rcases hm with hm | hm
      · cases hm
      · exact ih _ _ _ h.2.2 flag signal hm
    | clearPending n =>
      simp only [FlagsInOrder] at h
      rcases hm with hm | hm
      · cases hm
      · exact ih _ _ _ h flag signal hm
    | timerReset d =>
      simp only [FlagsInOrder] at h
      rcases hm with hm | hm
      · cases hm
      · exact ih _ _ _ h flag signal hm
    | newTxsReset =>
      simp only [FlagsInOrder] at h
      rcases hm with hm | hm
      · cases hm
      · exact ih _ _ _ h flag signal hm
    | resubmitHook a b =>
      simp only [FlagsInOrder] at h
      rcases hm with hm | hm
      · cases hm
      · exact ih _ _ _ h flag signal hm

theorem flagValue_append (flag : Nat) (pre post : List LoopEvent) (value : Int) :
    flagValue flag (pre ++ post) value = flagValue flag post (flagValue flag pre value) := by
  induction pre generalizing value with
  | nil => rfl
  | cons e rest ih => cases e <;> simp only [List.cons_append, flagValue] <;> exact ih _

theorem flagValue_stays_set (flag : Nat) (post : List LoopEvent) (value : Int)
    (hs : ∀ f signal, LoopEvent.store f signal ∈ post → signal ≠ commitInterruptNone)
    (hv : value ≠ commitInterruptNone) : flagValue flag post value ≠ commitInterruptNone := by
  induction post generalizing value with
  | nil => exact hv
  | cons e rest ih =>
    have hrest : ∀ f signal, LoopEvent.store f signal ∈ rest → signal ≠ commitInterruptNone :=
      fun f signal hm => hs f signal (List.mem_cons_of_mem _ hm)
    cases e with
    | store f signal =>
      simp only [flagValue]
      apply ih _ hrest
      split
      · exact hs f signal (by simp)
      · exact hv
    | alloc f => exact ih _ hrest hv
    | request req => exact ih _ hrest hv
    | clearPending n => exact ih _ hrest hv
    | timerReset d => exact ih _ hrest hv
    | newTxsReset => exact ih _ hrest hv
    | resubmitHook a b => exact ih _ hrest hv

theorem commit_emitted (s : NewWorkLoop) (noempty : Bool) (signal : Int) :
    s.commit noempty signal false
      = ({ s with interrupt := some s.allocated, allocated := s.allocated + 1 },
          emitted s noempty signal) := by
  unfold NewWorkLoop.commit emitted
  cases s.interrupt <;> rfl

theorem storedFlags_append (pre post : List LoopEvent) :
    storedFlags (pre ++ post) = storedFlags pre ++ storedFlags post := by
  induction pre with
  | nil => rfl
  | cons e rest ih => cases e <;> simp [storedFlags, ih]

theorem flagsInOrder_nodup (trace : List LoopEvent) (interrupt : Option Nat) (allocated : Nat)
    (stored : List Nat) (h : FlagsInOrder trace interrupt allocated stored) :
    (storedFlags trace).Nodup ∧ ∀ f ∈ storedFlags trace, f ∉ stored := by
  induction trace generalizing interrupt allocated stored with
  | nil => simp [storedFlags]
  | cons e rest ih =>
    cases e with
    | store f sig =>
      simp only [FlagsInOrder] at h
      obtain ⟨hn, hd⟩ := ih _ _ _ h.2.2.2
      simp only [storedFlags, List.nodup_cons, List.mem_cons]
      refine ⟨⟨fun hm => hd f hm (List.mem_cons_self _ _), hn⟩, ?_⟩
      rintro g (hg | hg)
      · rw [hg]; exact h.2.1
      · exact fun hm => hd g hg (List.mem_cons_of_mem _ hm)
    | alloc f => simp only [FlagsInOrder] at h; exact ih _ _ _ h.2.2
    | request req => simp only [FlagsInOrder] at h; exact ih _ _ _ h.2.2
    | clearPending n => simp only [FlagsInOrder] at h; exact ih _ _ _ h
    | timerReset d => simp only [FlagsInOrder] at h; exact ih _ _ _ h
    | newTxsReset => simp only [FlagsInOrder] at h; exact ih _ _ _ h
    | resubmitHook a b => simp only [FlagsInOrder] at h; exact ih _ _ _ h

theorem flagsInOrder_suffix (pre post : List LoopEvent) (interrupt : Option Nat)
    (allocated : Nat) (stored : List Nat)
    (h : FlagsInOrder (pre ++ post) interrupt allocated stored) :
    ∃ interrupt1 allocated1,
      FlagsInOrder post interrupt1 allocated1 ((storedFlags pre).reverse ++ stored) := by
  induction pre generalizing interrupt allocated stored with
  | nil => exact ⟨interrupt, allocated, by simpa [storedFlags] using h⟩
  | cons e rest ih =>
    cases e with
    | store f sig =>
      simp only [List.cons_append, FlagsInOrder] at h
      obtain ⟨i1, a1, h1⟩ := ih _ _ _ h.2.2.2
      exact ⟨i1, a1, by simpa [storedFlags] using h1⟩
    | alloc f =>
      simp only [List.cons_append, FlagsInOrder] at h
      simpa [storedFlags] using ih _ _ _ h.2.2
    | request req =>
      simp only [List.cons_append, FlagsInOrder] at h
      simpa [storedFlags] using ih _ _ _ h.2.2
    | clearPending n =>
      simp only [List.cons_append, FlagsInOrder] at h
      simpa [storedFlags] using ih _ _ _ h
    | timerReset d =>
      simp only [List.cons_append, FlagsInOrder] at h
      simpa [storedFlags] using ih _ _ _ h
    | newTxsReset =>
      simp only [List.cons_append, FlagsInOrder] at h
      simpa [storedFlags] using ih _ _ _ h
    | resubmitHook a b =>
      simp only [List.cons_append, FlagsInOrder] at h
      simpa [storedFlags] using ih _ _ _ h

theorem flagValue_not_stored (flag : Nat) (trace : List LoopEvent) (value : Int)
    (h : flag ∉ storedFlags trace) : flagValue flag trace value = value := by
  induction trace generalizing value with
  | nil => rfl
  | cons e rest ih =>
    cases e with
    | store f sig =>
      simp only [storedFlags, List.mem_cons, not_or] at h
      simp only [flagValue]
      rw [ih _ h.2, if_neg (fun hf => h.1 hf.symm)]
    | alloc f => exact ih _ h
    | request req => exact ih _ h
    | clearPending n => exact ih _ h
    | timerReset d => exact ih _ h
    | newTxsReset => exact ih _ h
    | resubmitHook a b => exact ih _ h

/-- C23: in every run of `newWorkLoop` from its start, whatever it
receives: the flags are handled in order (`FlagsInOrder`: a store puts NewHead
or Resubmit into the flag of the previous emit, an allocation follows, and the
request carries the flag just allocated); no flag is stored into twice; the
flag of a request holds None when the request is sent; a flag that holds a
signal other than None holds one until the end.  An emit whose request is sent
consists of the store into the previous flag, if any, the allocation and the
request, in that order; a start signal and a chain head emit NewHead with
`noempty` false, a timer tick that emits does so with Resubmit and `noempty`
true. -/
theorem newWorkLoop_flags_in_order (resubmitHook periodic : Bool) (inputs : List LoopInput)
    (recommit : Int) :
    FlagsInOrder (newWorkLoop resubmitHook periodic inputs (NewWorkLoop.init recommit)).2 none 0 []
    ∧ (storedFlags (newWorkLoop resubmitHook periodic inputs (NewWorkLoop.init recommit)).2).Nodup
    ∧ (∀ pre req post,
        (newWorkLoop resubmitHook periodic inputs (NewWorkLoop.init recommit)).2
            = pre ++ LoopEvent.request req :: post →
          flagValue req.interrupt pre commitInterruptNone = commitInterruptNone)
    ∧ (∀ flag pre post,
        (newWorkLoop resubmitHook periodic inputs (NewWorkLoop.init recommit)).2 = pre ++ post →
          flagValue flag pre commitInterruptNone ≠ commitInterruptNone →
          flagValue flag (pre ++ post) commitInterruptNone ≠ commitInterruptNone)
    ∧ (∀ (s : NewWorkLoop) head unixNow,
        s.step resubmitHook periodic (.start head unixNow false)
          = ({ s with interrupt := some s.allocated, allocated := s.allocated + 1
                      timestamp := unixNow },
              .clearPending (head % 2 ^ 64)
                :: emitted { s with timestamp := unixNow } false commitInterruptNewHead))
    ∧ (∀ (s : NewWorkLoop) number unixNow,
        s.step resubmitHook periodic (.chainHead number unixNow false)
          = ({ s with interrupt := some s.allocated, allocated := s.allocated + 1
                      timestamp := unixNow },
              .clearPending (number % 2 ^ 64)
                :: emitted { s with timestamp := unixNow } false commitInterruptNewHead))
    ∧ (∀ (s : NewWorkLoop) newTxs, periodic = true → newTxs ≠ 0 →
        s.step resubmitHook periodic (.timer true newTxs false)
          = ({ s with interrupt := some s.allocated, allocated := s.allocated + 1 },
              emitted s true commitInterruptResubmit)) := by
  have hinit : FlagsFresh (NewWorkLoop.init recommit) [] := by
    simp [FlagsFresh, NewWorkLoop.init]
  have hord := flagsInOrder_newWorkLoop resubmitHook periodic inputs (NewWorkLoop.init recommit)
    [] hinit
  have hord0 : FlagsInOrder
      (newWorkLoop resubmitHook periodic inputs (NewWorkLoop.init recommit)).2 none 0 [] := hord
  refine ⟨hord0, (flagsInOrder_nodup _ _ _ _ hord0).1, ?_, ?_, ?_, ?_, ?_⟩
  · intro pre req post htrace
    rw [htrace] at hord0
    obtain ⟨i1, a1, h1⟩ := flagsInOrder_suffix pre _ _ _ _ hord0
    simp only [FlagsInOrder, List.append_nil, List.mem_reverse] at h1
    exact flagValue_not_stored _ _ _ h1.2.1
  · intro flag pre post htrace hset
    rw [htrace] at hord0
    rw [flagValue_append]
    refine flagValue_stays_set flag post _ ?_ hset
    intro f signal hm
    exact flagsInOrder_signals _ _ _ _ hord0 f signal (List.mem_append_right _ hm)
  · intro s head unixNow
    simp only [NewWorkLoop.step, commit_emitted]
  · intro s number unixNow
    simp only [NewWorkLoop.step, commit_emitted]
  · intro s newTxs hp hn
    simp only [NewWorkLoop.step, hp, Bool.and_self, if_true, if_neg hn, commit_emitted]

theorem newWorkLoop_flags_in_order_witness :
    (newWorkLoop false true demoLoopInputs (NewWorkLoop.init 3000000000)).2
        = [.clearPending 10, .alloc 0, .request ⟨0, false, 50⟩, .timerReset 3000000000,
            .newTxsReset, .clearPending 10, .store 0 1]
          ++ [.alloc 1, .request ⟨1, false, 100⟩, .timerReset 3000000000, .newTxsReset,
            .store 1 2, .alloc 2, .request ⟨2, true, 100⟩, .timerReset 3000000000,
            .newTxsReset, .timerReset 3000000000]
    ∧ flagValue 0 ([.clearPending 10, .alloc 0, .request ⟨0, false, 50⟩, .timerReset 3000000000,
            .newTxsReset, .clearPending 10, .store 0 1]
          ++ [.alloc 1, .request ⟨1, false, 100⟩, .timerReset 3000000000, .newTxsReset,
            .store 1 2, .alloc 2, .request ⟨2, true, 100⟩, .timerReset 3000000000,
            .newTxsReset, .timerReset 3000000000]) commitInterruptNone ≠ commitInterruptNone :=
  ⟨by decide,
    (newWorkLoop_flags_in_order false true demoLoopInputs 3000000000).2.2.2.1 0 _ _ (by decide)
      (by decide)⟩

theorem step_recommit_inv (resubmitHook periodic : Bool) (s : NewWorkLoop) (input : LoopInput)
    (h : s.recommit = s.minRecommit ∧ minRecommitInterval ≤ s.minRecommit) :
    (s.step resubmitHook periodic input).1.recommit
        = (s.step resubmitHook periodic input).1.minRecommit
      ∧ minRecommitInterval ≤ (s.step resubmitHook periodic input).1.minRecommit := by
  cases input with
  | start head unixNow exiting =>
    simp only [NewWorkLoop.step, NewWorkLoop.commit]
    cases exiting <;> exact h
  | chainHead number unixNow exiting =>
    simp only [NewWorkLoop.step, NewWorkLoop.commit]
    cases exiting <;> exact h
  | timer running newTxs exiting =>
    simp only [NewWorkLoop.step, NewWorkLoop.commit]
    split
    · split
      · exact h
      · cases exiting <;> exact h
    · exact h
  | resubmitInterval interval =>
    simp only [NewWorkLoop.step]
    split
    · exact ⟨trivial, le_refl _⟩
    · rename_i hlt
      exact ⟨trivial, not_lt.1 hlt⟩
  | resubmitAdjust adjust =>
    simp only [NewWorkLoop.step, recalcRecommit, ite_self]
    exact h
  | exit => exact h

theorem newWorkLoop_recommit_inv (resubmitHook periodic : Bool) (inputs : List LoopInput)
    (s : NewWorkLoop) (h : s.recommit = s.minRecommit ∧ minRecommitInterval ≤ s.minRecommit) :
    (newWorkLoop resubmitHook periodic inputs s).1.recommit
        = (newWorkLoop resubmitHook periodic inputs s).1.minRecommit
      ∧ minRecommitInterval ≤ (newWorkLoop resubmitHook periodic inputs s).1.minRecommit := by
  induction inputs generalizing s with
  | nil => exact h
  | cons input rest ih =>
    cases input with
    | exit => exact h
    | start head unixNow exiting => exact ih _ (step_recommit_inv _ _ s _ h)
    | chainHead number unixNow exiting => exact ih _ (step_recommit_inv _ _ s _ h)
    | timer running newTxs exiting => exact ih _ (step_recommit_inv _ _ s _ h)
    | resubmitInterval interval => exact ih _ (step_recommit_inv _ _ s _ h)
    | resubmitAdjust adjust => exact ih _ (step_recommit_inv _ _ s _ h)

theorem step_keeps_interval (resubmitHook periodic : Bool) (s : NewWorkLoop)
    (input : LoopInput) (m : Int) (hk : input.keepsInterval = true)
    (h : s.minRecommit = m ∧ s.recommit = m) :
    ((s.step resubmitHook periodic input).1.minRecommit = m
        ∧ (s.step resubmitHook periodic input).1.recommit = m)
      ∧ ∀ a b, LoopEvent.resubmitHook a b ∈ (s.step resubmitHook periodic input).2 →
          a = m ∧ b = m := by
  cases input with
  | start head unixNow exiting =>
    simp only [NewWorkLoop.step, NewWorkLoop.commit]
    cases exiting <;> cases s.interrupt <;> simp [h]
  | chainHead number unixNow exiting =>
    simp only [NewWorkLoop.step, NewWorkLoop.commit]
    cases exiting <;> cases s.interrupt <;> simp [h]
  | timer running newTxs exiting =>
    simp only [NewWorkLoop.step, NewWorkLoop.commit]
    split
    · split
      · simp [h]
      · cases exiting <;> cases s.interrupt <;> simp [h]
    · simp [h]
  | resubmitInterval interval => simp [LoopInput.keepsInterval] at hk
  | resubmitAdjust adjust =>
    simp only [NewWorkLoop.step, recalcRecommit, ite_self]
    refine ⟨h, ?_⟩
    intro a b hm
    split at hm
    · simp only [List.mem_singleton, LoopEvent.resubmitHook.injEq] at hm
      rw [hm.1, hm.2]
      exact h
    · simp at hm
  | exit => simp [NewWorkLoop.step, h]

theorem newWorkLoop_keeps_interval (resubmitHook periodic : Bool) (inputs : List LoopInput)
    (s : NewWorkLoop) (m : Int) (hk : ∀ input ∈ inputs, input.keepsInterval = true)
    (h : s.minRecommit = m ∧ s.recommit = m) :
    ((newWorkLoop resubmitHook periodic inputs s).1.minRecommit = m
        ∧ (newWorkLoop resubmitHook periodic inputs s).1.recommit = m)
      ∧ ∀ a b, LoopEvent.resubmitHook a b ∈ (newWorkLoop resubmitHook periodic inputs s).2 →
          a = m ∧ b = m := by
  induction inputs generalizing s with
  | nil => simp [newWorkLoop, h]
  | cons input rest ih =>
    have hstep := step_keeps_interval resubmitHook periodic s input m (hk input (by simp)) h
    have hrest := ih (s.step resubmitHook periodic input).1
      (fun i hi => hk i (List.mem_cons_of_mem _ hi)) hstep.1
    cases input with
    | exit => simp [newWorkLoop, h]
    | start head unixNow exiting =>
      refine ⟨hrest.1, fun a b hm => ?_⟩
      simp only [newWorkLoop, List.mem_append] at hm
      exact hm.elim (hstep.2 a b) (hrest.2 a b)
    | chainHead number unixNow exiting =>
      refine ⟨hrest.1, fun a b hm => ?_⟩
      simp only [newWorkLoop, List.mem_append] at hm
      exact hm.elim (hstep.2 a b) (hrest.2 a b)
    | timer running newTxs exiting =>
      refine ⟨hrest.1, fun a b hm => ?_⟩
      simp only [newWorkLoop, List.mem_append] at hm
      exact hm.elim (hstep.2 a b) (hrest.2 a b)
    | resubmitInterval interval =>
      refine ⟨hrest.1, fun a b hm => ?_⟩
      simp only [newWorkLoop, List.mem_append] at hm
      exact hm.elim (hstep.2 a b) (hrest.2 a b)
    | resubmitAdjust adjust =>
      refine ⟨hrest.1, fun a b hm => ?_⟩
      simp only [newWorkLoop, List.mem_append] at hm
      exact hm.elim (hstep.2 a b) (hrest.2 a b)

/-- C24: when `newWorkLoop`, in any state, receives the interval `d`
sent by `setRecommitInterval`, both `minRecommit` and `recommit` become the
larger of `d` and one second, a hook that is set is called with these two
values, and as long as no other interval arrives the two variables keep that
value and every later report to the hook carries it. -/
theorem newWorkLoop_setRecommitInterval_clamps (resubmitHook periodic : Bool) (s : NewWorkLoop)
    (d : Int) (inputs : List LoopInput)
    (hk : ∀ input ∈ inputs, input.keepsInterval = true) :
    (s.step resubmitHook periodic (.resubmitInterval d)).1.minRecommit = max d minRecommitInterval
    ∧ (s.step resubmitHook periodic (.resubmitInterval d)).1.recommit = max d minRecommitInterval
    ∧ (s.step resubmitHook periodic (.resubmitInterval d)).2
        = (if resubmitHook then
            [.resubmitHook (max d minRecommitInterval) (max d minRecommitInterval)]
          else [])
    ∧ (newWorkLoop resubmitHook periodic (.resubmitInterval d :: inputs) s).1.minRecommit
        = max d minRecommitInterval
    ∧ (newWorkLoop resubmitHook periodic (.resubmitInterval d :: inputs) s).1.recommit
        = max d minRecommitInterval
    ∧ ∀ a b, LoopEvent.resubmitHook a b
          ∈ (newWorkLoop resubmitHook periodic (.resubmitInterval d :: inputs) s).2 →
        a = max d minRecommitInterval ∧ b = max d minRecommitInterval := by
  have hmax : (if d < minRecommitInterval then minRecommitInterval else d)
      = max d minRecommitInterval := by
    split
    · rename_i h
      exact (max_eq_right (le_of_lt h)).symm
    · rename_i h
      exact (max_eq_left (not_lt.1 h)).symm
  have h1 : (s.step resubmitHook periodic (.resubmitInterval d)).1.minRecommit
      = max d minRecommitInterval := by
    simp only [NewWorkLoop.step, hmax]
  have h2 : (s.step resubmitHook periodic (.resubmitInterval d)).1.recommit
      = max d minRecommitInterval := by
    simp only [NewWorkLoop.step, hmax]
  have h3 : (s.step resubmitHook periodic (.resubmitInterval d)).2
      = (if resubmitHook then
          [.resubmitHook (max d minRecommitInterval) (max d minRecommitInterval)]
        else []) := by
    simp only [NewWorkLoop.step, hmax]
  have hrest := newWorkLoop_keeps_interval resubmitHook periodic inputs
    (s.step resubmitHook periodic (.resubmitInterval d)).1 (max d minRecommitInterval) hk ⟨h1, h2⟩
  refine ⟨h1, h2, h3, hrest.1.1, hrest.1.2, ?_⟩
  intro a b hm
  simp only [newWorkLoop, List.mem_append] at hm
  rcases hm with hm | hm
  · rw [h3] at hm
    split at hm
    · simp only [List.mem_singleton, LoopEvent.resubmitHook.injEq] at hm
      exact hm
    · simp at hm
  · exact hrest.2 a b hm

theorem newWorkLoop_setRecommitInterval_clamps_witness :
    (∀ input ∈ [LoopInput.resubmitAdjust ⟨1 / 10, true⟩], input.keepsInterval = true)
    ∧ newWorkLoop true true [.resubmitInterval 500000000, .resubmitAdjust ⟨1 / 10, true⟩]
          (NewWorkLoop.init 3000000000)
        = ({ interrupt := none, minRecommit := 1000000000, recommit := 1000000000
             timestamp := 0, allocated := 0 },
            [.resubmitHook 1000000000 1000000000, .resubmitHook 1000000000 1000000000])
    ∧ (newWorkLoop true true [.resubmitInterval 500000000, .resubmitAdjust ⟨1 / 10, true⟩]
          (NewWorkLoop.init 3000000000)).1.minRecommit = max 500000000 minRecommitInterval :=
  ⟨by simp [LoopInput.keepsInterval], by decide,
    (newWorkLoop_setRecommitInterval_clamps true true (NewWorkLoop.init 3000000000) 500000000
      [.resubmitAdjust ⟨1 / 10, true⟩] (by simp [LoopInput.keepsInterval])).2.2.2.1⟩

/-- C25: `recalcRecommit` returns `prev` whatever its arguments; an
adjustment received by `newWorkLoop` leaves all its variables unchanged; and
whatever `newWorkLoop` receives after `newWorker` started it, `recommit`
equals `minRecommit` and both are at least one second. -/
theorem recalcRecommit_keeps_interval (minRecommit prev : Int) (target : ℚ) (inc : Bool)
    (resubmitHook periodic : Bool) (s : NewWorkLoop) (adjust : intervalAdjust)
    (config : Config) (isFlashbots : Bool) (maxMergedBundles : Nat) (init : Bool)
    (inputs : List LoopInput) :
    recalcRecommit minRecommit prev target inc = prev
    ∧ (s.step resubmitHook periodic (.resubmitAdjust adjust)).1 = s
    ∧ (newWorkLoop resubmitHook periodic inputs
          (NewWorkLoop.init (newWorker config isFlashbots maxMergedBundles init).recommit)).1.recommit
        = (newWorkLoop resubmitHook periodic inputs
          (NewWorkLoop.init
            (newWorker config isFlashbots maxMergedBundles init).recommit)).1.minRecommit
    ∧ minRecommitInterval
        ≤ (newWorkLoop resubmitHook periodic inputs
          (NewWorkLoop.init
            (newWorker config isFlashbots maxMergedBundles init).recommit)).1.minRecommit := by
  refine ⟨rfl, ?_, ?_⟩
  · simp only [NewWorkLoop.step, recalcRecommit, ite_self]
  · apply newWorkLoop_recommit_inv
    refine ⟨rfl, ?_⟩
    simp only [NewWorkLoop.init, newWorker]
    split
    · exact le_refl _
    · rename_i h
      exact not_lt.1 h

/-- C26, as stated, fails: the worker made from a configuration with
`CommitInterruptFlag` false has `noempty` false; once started it is
`demoWorker`, and its round for a request that allows empty blocks sends the
task of the empty block before it fills the transactions. -/
theorem newWorker_without_interrupt_flag_preseals :
    (newWorker demoConfig false 0 false).worker.noempty = false
    ∧ (start (newWorker demoConfig false 0 false).worker 0).1 = demoWorker
    ∧ commitWorkEmpty (demoExt demoPending) (start (newWorker demoConfig false 0 false).worker 0).1
          false demoWork
        = [.taskSent demoEmptyTask]
    ∧ (∃ w events, commitWork (demoExt demoPending)
          (start (newWorker demoConfig false 0 false).worker 0).1 none false 2000 demoNotFired 0
        = .val (w, .taskSent demoEmptyTask :: events)) := by
  refine ⟨rfl, rfl, rfl, _, _, rfl⟩

/-- C26, corrected: `newWorker` leaves `noempty` equal to `CommitInterruptFlag`.
For a worker with both flags false, as `newWorker` makes it from
`CommitInterruptFlag` false, the pre-seal is enabled: a round for a request
with `noempty` false commits an empty copy of the work before the filling, and
a round for a request with `noempty` true does not; the interrupt context of
every round is the background context, which never fires.  For a worker made
from `CommitInterruptFlag` true the pre-seal is off. -/
theorem newWorker_noempty_is_interrupt_flag (config : Config) (isFlashbots : Bool)
    (maxMergedBundles : Nat) (init : Bool) (X : Ext) (w : worker) (noempty : Bool)
    (deadline : Nat → Bool) (work : environment)
    (hflag : w.interruptCommitFlag
      = (newWorker config isFlashbots maxMergedBundles init).worker.interruptCommitFlag)
    (hnoempty : w.noempty = (newWorker config isFlashbots maxMergedBundles init).worker.noempty) :
    (newWorker config isFlashbots maxMergedBundles init).worker.noempty
        = config.CommitInterruptFlag
    ∧ (newWorker config isFlashbots maxMergedBundles init).worker.interruptCommitFlag
        = config.CommitInterruptFlag
    ∧ (config.CommitInterruptFlag = false →
        commitWorkEmpty X w false work = (commit X w work.copy false false).1
        ∧ commitWorkEmpty X w true work = []
        ∧ commitWorkCtx X w noempty deadline (some work) = .val backgroundCtx
        ∧ ∀ now, ctxFired backgroundCtx now = false)
    ∧ (config.CommitInterruptFlag = true → commitWorkEmpty X w noempty work = []) := by
  have h1 : (newWorker config isFlashbots maxMergedBundles init).worker.noempty
      = config.CommitInterruptFlag := by
    simp only [newWorker]
    cases config.CommitInterruptFlag <;> rfl
  have h2 : (newWorker config isFlashbots maxMergedBundles init).worker.interruptCommitFlag
      = config.CommitInterruptFlag := by
    simp only [newWorker]
    cases config.CommitInterruptFlag <;> rfl
  rw [h1] at hnoempty
  rw [h2] at hflag
  refine ⟨h1, h2, ?_, ?_⟩
  · intro hc
    rw [hc] at hnoempty hflag
    refine ⟨?_, ?_, ?_, ?_⟩
    · simp [commitWorkEmpty, hnoempty]
    · simp [commitWorkEmpty]
    · simp [commitWorkCtx, hflag]
    · intro now; rfl
  · intro hc
    rw [hc] at hnoempty
    simp [commitWorkEmpty, hnoempty]

theorem newWorker_noempty_is_interrupt_flag_witness :
    demoWorker.interruptCommitFlag = (newWorker demoConfig false 0 false).worker.interruptCommitFlag
    ∧ demoWorker.noempty = (newWorker demoConfig false 0 false).worker.noempty
    ∧ demoConfig.CommitInterruptFlag = false
    ∧ commitWorkEmpty (demoExt demoPending) demoWorker false demoWork
        = (commit (demoExt demoPending) demoWorker demoWork.copy false false).1 :=
  ⟨rfl, rfl, rfl,
    ((newWorker_noempty_is_interrupt_flag demoConfig false 0 false (demoExt demoPending)
      demoWorker false demoNotFired demoWork rfl rfl).2.2.1 rfl).1⟩

/-- C27, as stated, fails: `start` on the running `demoWorker` queues a start
signal, and `newWorkLoop`, which has emitted the request with flag 0 for the
first start signal, on taking the second one stores NewHead into flag 0 and
emits a second request. -/
theorem start_on_running_worker_emits_again :
    demoWorker.running = true
    ∧ start demoWorker 0 = (demoWorker, some 1)
    ∧ newWorkLoop false true [.start 10 50 false] (NewWorkLoop.init 3000000000)
        = ({ interrupt := some 0, minRecommit := 3000000000, recommit := 3000000000
             timestamp := 50, allocated := 1 },
            [.clearPending 10, .alloc 0, .request ⟨0, false, 50⟩, .timerReset 3000000000,
              .newTxsReset])
    ∧ newWorkLoop false true [.start 10 50 false, .start 10 100 false]
          (NewWorkLoop.init 3000000000)
        = ({ interrupt := some 1, minRecommit := 3000000000, recommit := 3000000000
             timestamp := 100, allocated := 2 },
            [.clearPending 10, .alloc 0, .request ⟨0, false, 50⟩, .timerReset 3000000000,
              .newTxsReset, .clearPending 10, .store 0 commitInterruptNewHead, .alloc 1,
              .request ⟨1, false, 100⟩, .timerReset 3000000000, .newTxsReset]) := by
  refine ⟨rfl, rfl, ?_, ?_⟩ <;> decide

/-- C27, corrected: `start` on a worker that is running leaves the worker as
it is, the running flag included, and sends one more start signal: it is
buffered when the buffer of `startCh` is empty and the send waits otherwise.
When `newWorkLoop` takes that signal while the flag of the build in flight is
`flag`, it clears the stale pending tasks, stores NewHead into `flag`, and
emits a new request with a new flag and `noempty` false. -/
theorem start_on_running_worker (w : worker) (startCh : Nat) (resubmitHook periodic : Bool)
    (s : NewWorkLoop) (flag head : Nat) (unixNow : Int)
    (hrun : w.running = true) (hflag : s.interrupt = some flag) :
    (start w startCh).1 = w
    ∧ (start w startCh).2 = (if startCh < 1 then some (startCh + 1) else none)
    ∧ s.step resubmitHook periodic (.start head unixNow false)
        = ({ s with interrupt := some s.allocated, allocated := s.allocated + 1
                    timestamp := unixNow },
            [.clearPending (head % 2 ^ 64), .store flag commitInterruptNewHead,
              .alloc s.allocated,
              .request { interrupt := s.allocated, noempty := false, timestamp := unixNow },
              .timerReset s.recommit, .newTxsReset]) := by
  refine ⟨?_, rfl, ?_⟩
  · cases w
    simp only [start]
    simp only at hrun
    rw [hrun]
  · simp only [NewWorkLoop.step, commit_emitted, emitted, hflag]
    rfl

theorem start_on_running_worker_witness :
    demoWorker.running = true
    ∧ ({ interrupt := some 0, minRecommit := 3000000000, recommit := 3000000000
         timestamp := 50, allocated := 1 } : NewWorkLoop).interrupt = some 0
    ∧ NewWorkLoop.step false true
          { interrupt := some 0, minRecommit := 3000000000, recommit := 3000000000
            timestamp := 50, allocated := 1 } (.start 10 100 false)
        = ({ interrupt := some 1, minRecommit := 3000000000, recommit := 3000000000
             timestamp := 100, allocated := 2 },
            [.clearPending (10 % 2 ^ 64), .store 0 commitInterruptNewHead, .alloc 1,
              .request { interrupt := 1, noempty := false, timestamp := 100 },
              .timerReset 3000000000, .newTxsReset]) :=
  ⟨rfl, rfl,
    (start_on_running_worker demoWorker 0 false true
      { interrupt := some 0, minRecommit := 3000000000, recommit := 3000000000
        timestamp := 50, allocated := 1 } 0 10 100 rfl rfl).2.2⟩

/-- C30: the code does not do this.  A running worker without etherbase logs
the refusal and returns from the closure that prepares the work, not from
`commitWork`; the work is nil, the error is nil, and the next access to the
header of the work is a nil dereference: every such round panics. -/
theorem commitWork_without_etherbase_panics (X : Ext) (w : worker) (interrupt : InterruptFlag)
    (noempty : Bool) (timestamp : Int) (deadline : Nat → Bool) (now : Nat) :
    commitWorkPrepare X { w with running := true, coinbase := 0 } timestamp = .ok none
    ∧ commitWork X { w with syncing := false, running := true, coinbase := 0 } interrupt noempty
          timestamp deadline now
        = .panic := by
  refine ⟨by simp [commitWorkPrepare], ?_⟩
  simp only [commitWork, commitWorkPrepare, commitWorkCtx, getInterruptTimer]
  simp only [Bool.false_eq_true, if_false, Bool.and_self, decide_True, if_true]
  split <;> simp_all

/-! ## Transactions that fail in the loop -/

theorem signalToErr_val (signal : Int) (err : Err) (h : signalToErr signal = .val err) :
    err = .errBlockInterruptedByNewHead ∨ err = .errBlockInterruptedByRecommit
      ∨ err = .errBlockInterruptedByTimeout := by
  unfold signalToErr at h
  split at h
  · simp only [Ret.val.injEq] at h; exact Or.inl h.symm
  · split at h
    · simp only [Ret.val.injEq] at h; exact Or.inr (Or.inl h.symm)
    · split at h
      · simp only [Ret.val.injEq] at h; exact Or.inr (Or.inr h.symm)
      · simp at h

theorem commitTransactionsHead_leave_ret (X : Ext) (capture : Bool) (interrupt : InterruptFlag)
    (interruptCtx : InterruptCtx) (env : environment) (now : Nat) (logs : List Log)
    (deps : DepsMap) (r : TxLoopEnd)
    (h : commitTransactionsHead X capture interrupt interruptCtx env now logs deps
      = .leave (.val r)) :
    r.ret = none ∨ r.ret = some .errBlockInterruptedByNewHead
      ∨ r.ret = some .errBlockInterruptedByRecommit
      ∨ r.ret = some .errBlockInterruptedByTimeout := by
  unfold commitTransactionsHead at h
  simp only at h
  split at h
  · split at h
    · simp at h
    · rename_i err herr
      simp only [IterHead.leave.injEq, Ret.val.injEq] at h
      rw [← h]
      rcases signalToErr_val _ _ herr with h1 | h1 | h1 <;> simp [h1]
  · split at h
    · simp only [IterHead.leave.injEq, Ret.val.injEq] at h
      rw [← h]; exact Or.inl rfl
    · split at h
      · simp at h
      · split at h
        · simp only [IterHead.leave.injEq, Ret.val.injEq] at h
          rw [← h]; exact Or.inl rfl
        · simp at h

theorem commitTransactionsLoop_ret (X : Ext) (capture : Bool) (interrupt : InterruptFlag)
    (interruptCtx : InterruptCtx) :
    ∀ (txs : transactionsByPriceAndNonce) (env : environment) (now : Nat) (logs : List Log)
      (deps : DepsMap) (r : TxLoopEnd),
      commitTransactionsLoop X capture interrupt interruptCtx txs env now logs deps = .val r →
      r.ret = none ∨ r.ret = some .errBlockInterruptedByNewHead
        ∨ r.ret = some .errBlockInterruptedByRecommit
        ∨ r.ret = some .errBlockInterruptedByTimeout := by
  intro txs
  induction txs with
  | done =>
    intro env now logs deps r hr
    simp only [commitTransactionsLoop] at hr
    split at hr
    · rename_i r0 hh
      subst hr
      exact commitTransactionsHead_leave_ret X capture interrupt interruptCtx env now logs deps r hh
    · simp only [Ret.val.injEq] at hr
      rw [← hr]; exact Or.inl rfl
  | next ltx shift pop ihs ihp =>
    intro env now logs deps r hr
    simp only [commitTransactionsLoop] at hr
    split at hr
    · rename_i r0 hh
      subst hr
      exact commitTransactionsHead_leave_ret X capture interrupt interruptCtx env now logs deps r hh
    · split at hr
      · exact ihp _ _ _ _ _ hr
      · split at hr
        · exact ihp _ _ _ _ _ hr
        · split at hr
          · exact ihp _ _ _ _ _ hr
          · split at hr
            · simp at hr
            · exact ihs _ _ _ _ _ hr
            · exact ihs _ _ _ _ _ hr
            · exact ihp _ _ _ _ _ hr

/-- C28, as stated, fails: in a world where the state handle keeps the
transaction context set on it, a transaction that needs more gas than the pool
holds fails, and `commitTransactions` returns, without error, an environment
whose state is not the state from before that transaction: the context of the
failed transaction stays set on it.  Gas pool, transactions, receipts, profit
and `tcount` are those of before. -/
theorem commitTransactions_failure_keeps_tx_context :
    demoEnv.state = { id := 0 }
    ∧ contextExt.SetTxContext demoEnv.state 2 0 = { id := 1000 }
    ∧ commitTransaction contextExt { demoEnv with state := { id := 1000 } }
          { demoTx 2 9 with Gas := 200000 } none 0
        = .val ({ demoEnv with state := { id := 1000 } }, .error .ErrGasLimitReached)
    ∧ commitTransactions contextExt demoWorker demoEnv
          (.next (demoLazy { demoTx 2 9 with Gas := 200000 }) .done .done) none none 0
        = .val ⟨{ demoEnv with state := { id := 1000 } }, 1, [], none⟩
    ∧ ({ demoEnv with state := { id := 1000 } } : environment).state ≠ demoEnv.state := by
  refine ⟨rfl, rfl, rfl, rfl, ?_⟩
  decide

/-- C28, corrected: take an iteration of the loop of `commitTransactions` that
reaches the execution of a transaction `tx` (the checks at the top passed with
environment `env1`, the transaction resolved, its conditions hold and its
signature is accepted).  When the execution fails, the environment it leaves
is `env1` with the state the execution started from, which is the state of
before with the transaction context set by `SetTxContext` (the changes of the
execution are reverted; the read and write maps are cleared after it in a
capturing build): gas pool, header,
transactions, receipts, profit and `tcount` are those of before; the loop goes
on with the iterator shifted when the error is NonceTooLow and popped for any
other error, and with the same logs and dependencies.  When it succeeds, the
transaction and a receipt are appended, `tcount` grows by one, and the loop
goes on with the iterator shifted.  The error that the loop returns in the
end, if any, is one of the three interruption errors. -/
theorem commitTransactions_failure_consumed (X : Ext) (capture : Bool)
    (interrupt : InterruptFlag) (interruptCtx : InterruptCtx) (ltx : LazyTransaction)
    (shift pop : transactionsByPriceAndNonce) (env env1 : environment) (gas now : Nat)
    (logs : List Log) (deps : DepsMap) (tx : Transaction)
    (hhead : commitTransactionsHead X capture interrupt interruptCtx env now logs deps
      = .go env1 gas)
    (htx : ltx.Tx = some tx)
    (hcond : conditionViolated X env1 tx = false)
    (hprot : (tx.Protected && !X.IsEIP155 env1.header.Number) = false) :
    (∀ (env3 : environment) (err : Err),
        commitTransaction X { env1 with state := X.SetTxContext env1.state tx.Hash env1.tcount }
            tx interruptCtx now = .val (env3, .error err) →
        env3 = { env1 with state := X.SetTxContext env1.state tx.Hash env1.tcount }
        ∧ env3.state = X.SetTxContext env1.state tx.Hash env1.tcount
        ∧ (clearMaps X capture env3).state
            = (if capture then
                X.ClearWriteMap (X.ClearReadMap (X.SetTxContext env1.state tx.Hash env1.tcount))
              else X.SetTxContext env1.state tx.Hash env1.tcount)
        ∧ env3.gasPool = env1.gasPool ∧ env3.txs = env1.txs ∧ env3.receipts = env1.receipts
        ∧ env3.profit = env1.profit ∧ env3.tcount = env1.tcount ∧ env3.header = env1.header
        ∧ (clearMaps X capture env3).gasPool = env1.gasPool
        ∧ (clearMaps X capture env3).txs = env1.txs
        ∧ (clearMaps X capture env3).receipts = env1.receipts
        ∧ (clearMaps X capture env3).profit = env1.profit
        ∧ (clearMaps X capture env3).tcount = env1.tcount
        ∧ (capture = false → clearMaps X capture env3 = env3)
        ∧ commitTransactionsLoop X capture interrupt interruptCtx (.next ltx shift pop) env now
              logs deps
            = commitTransactionsLoop X capture interrupt interruptCtx
                (if err = .ErrNonceTooLow then shift else pop) (clearMaps X capture env3)
                (now + 1) logs deps)
    ∧ (∀ (env3 : environment) (txLogs : List Log),
        commitTransaction X { env1 with state := X.SetTxContext env1.state tx.Hash env1.tcount }
            tx interruptCtx now = .val (env3, .ok txLogs) →
        (∃ receipt : Receipt,
          receipt.Logs = txLogs
          ∧ (clearMaps X capture (recordSuccess X capture env3 deps).1).txs = env1.txs ++ [tx]
          ∧ (clearMaps X capture (recordSuccess X capture env3 deps).1).receipts
              = env1.receipts ++ [receipt])
        ∧ (clearMaps X capture (recordSuccess X capture env3 deps).1).tcount = env1.tcount + 1
        ∧ commitTransactionsLoop X capture interrupt interruptCtx (.next ltx shift pop) env now
              logs deps
            = commitTransactionsLoop X capture interrupt interruptCtx shift
                (clearMaps X capture (recordSuccess X capture env3 deps).1) (now + 1)
                (logs ++ txLogs) (recordSuccess X capture env3 deps).2)
    ∧ (∀ r : TxLoopEnd,
        commitTransactionsLoop X capture interrupt interruptCtx (.next ltx shift pop) env now
            logs deps = .val r →
        r.ret = none ∨ r.ret = some .errBlockInterruptedByNewHead
          ∨ r.ret = some .errBlockInterruptedByRecommit
          ∨ r.ret = some .errBlockInterruptedByTimeout) := by
  have hcm : ∀ e : environment, (clearMaps X capture e).gasPool = e.gasPool
      ∧ (clearMaps X capture e).txs = e.txs ∧ (clearMaps X capture e).receipts = e.receipts
      ∧ (clearMaps X capture e).profit = e.profit ∧ (clearMaps X capture e).tcount = e.tcount := by
    intro e
    unfold clearMaps
    cases capture <;> simp
  have hrs : ∀ e : environment, (recordSuccess X capture e deps).1.txs = e.txs
      ∧ (recordSuccess X capture e deps).1.receipts = e.receipts
      ∧ (recordSuccess X capture e deps).1.tcount = e.tcount + 1 := by
    intro e
    unfold recordSuccess
    cases capture <;> simp
  refine ⟨?_, ?_, ?_⟩
  · intro env3 err hct
    obtain ⟨gp, hgp, hcase⟩ := commitTransaction_cases X _ tx interruptCtx now env3 _ hct
    have henv3 : env3 = { env1 with state := X.SetTxContext env1.state tx.Hash env1.tcount } := by
      rcases hcase with ⟨e, -, he⟩ | ⟨receipt, state, gasPool, usedGas, -, hr, -⟩
      · rw [he]
        simp only at hgp
        cases env1
        simp_all
      · cases hr
    obtain ⟨c1, c2, c3, c4, c5⟩ := hcm env3
    refine ⟨henv3, ?_, ?_, ?_, ?_, ?_, ?_, ?_, ?_, ?_, ?_, ?_, ?_, ?_, ?_, ?_⟩
    · rw [henv3]
    · rw [henv3]
      unfold clearMaps
      cases capture <;> rfl
    · rw [henv3]
    · rw [henv3]
    · rw [henv3]
    · rw [henv3]
    · rw [henv3]
    · rw [henv3]
    · rw [c1, henv3]
    · rw [c2, henv3]
    · rw [c3, henv3]
    · rw [c4, henv3]
    · rw [c5, henv3]
    · intro hc; rw [hc]; rfl
    · simp only [commitTransactionsLoop, hhead, htx, hcond, hprot, Bool.false_eq_true, if_false,
        hct]
      by_cases hn : err = .ErrNonceTooLow
      · subst hn
        simp
      · simp only [if_neg hn]
  · intro env3 txLogs hct
    obtain ⟨gp, hgp, hcase⟩ := commitTransaction_cases X _ tx interruptCtx now env3 _ hct
    obtain ⟨c1, c2, c3, c4, c5⟩ := hcm (recordSuccess X capture env3 deps).1
    obtain ⟨r1, r2, r3⟩ := hrs env3
    rcases hcase with ⟨e, he, -⟩ | ⟨receipt, state, gasPool, usedGas, -, hr, he⟩
    · cases he
    · simp only [Except.ok.injEq] at hr
      refine ⟨⟨receipt, hr.symm, ?_, ?_⟩, ?_, ?_⟩
      · rw [c2, r1, he]
      · rw [c3, r2, he]
      · rw [c5, r3, he]
      · simp only [commitTransactionsLoop, hhead, htx, hcond, hprot, Bool.false_eq_true,
          if_false, hct]
  · intro r hr
    exact commitTransactionsLoop_ret X capture interrupt interruptCtx _ env now logs deps r hr

theorem commitTransactions_failure_consumed_witness :
    commitTransactionsHead (demoExt []) false none none demoEnv 0 [] [] = .go demoEnv 100000
    ∧ (demoLazy { demoTx 2 9 with Gas := 200000 }).Tx = some { demoTx 2 9 with Gas := 200000 }
    ∧ conditionViolated (demoExt []) demoEnv { demoTx 2 9 with Gas := 200000 } = false
    ∧ commitTransaction (demoExt []) demoEnv { demoTx 2 9 with Gas := 200000 } none 0
        = .val (demoEnv, .error .ErrGasLimitReached)
    ∧ commitTransactionsLoop (demoExt []) false none none
          (.next (demoLazy { demoTx 2 9 with Gas := 200000 }) demoIter .done) demoEnv 0 [] []
        = commitTransactionsLoop (demoExt []) false none none
            (if Err.ErrGasLimitReached = Err.ErrNonceTooLow then demoIter else .done)
            (clearMaps (demoExt []) false demoEnv) 1 [] [] :=
  ⟨rfl, rfl, rfl, rfl,
    ((commitTransactions_failure_consumed (demoExt []) false none none
      (demoLazy { demoTx 2 9 with Gas := 200000 }) demoIter .done demoEnv demoEnv 100000 0 [] []
      { demoTx 2 9 with Gas := 200000 } rfl rfl rfl rfl).1 demoEnv .ErrGasLimitReached
      rfl).2.2.2.2.2.2.2.2.2.2.2.2.2.2.2⟩

/-! ## The profit of an environment -/

theorem feeSum_append (X : Ext) (baseFee : Option Nat) (txs : List Transaction)
    (rs : List Receipt) (tx : Transaction) (r : Receipt) (h : txs.length = rs.length) :
    feeSum X baseFee (txs ++ [tx]) (rs ++ [r])
      = feeSum X baseFee txs rs + (r.GasUsed : Int) * (X.EffectiveGasTip tx baseFee).1 := by
  induction txs generalizing rs with
  | nil =>
    cases rs with
    | nil => simp [feeSum]
    | cons r0 rs => simp at h
  | cons t txs ih =>
    cases rs with
    | nil => simp at h
    | cons r0 rs =>
      simp only [List.length_cons, Nat.add_right_cancel_iff] at h
      have h1 := ih rs h
      show (r0.GasUsed : Int) * (X.EffectiveGasTip t baseFee).1
          + feeSum X baseFee (txs ++ [tx]) (rs ++ [r])
        = (r0.GasUsed : Int) * (X.EffectiveGasTip t baseFee).1 + feeSum X baseFee txs rs
          + (r.GasUsed : Int) * (X.EffectiveGasTip tx baseFee).1
      rw [h1]
      ring

theorem totalFeesFrom_eq (X : Ext) (baseFee : Option Nat) (txs : List Transaction)
    (rs : List Receipt) (feesWei : Int) (h : txs.length = rs.length) :
    totalFeesFrom X baseFee txs rs feesWei = .val (feesWei + feeSum X baseFee txs rs) := by
  induction txs generalizing rs feesWei with
  | nil => simp [totalFeesFrom, feeSum]
  | cons t txs ih =>
    cases rs with
    | nil => simp at h
    | cons r0 rs =>
      simp only [List.length_cons, Nat.add_right_cancel_iff] at h
      simp only [totalFeesFrom, feeSum, ih rs _ h]
      congr 1
      ring

theorem profitIs_invariant (X : Ext) (extra : Int) : BuildInvariant X (ProfitIs X extra) where
  state := fun env st h => h
  deps := fun env a b h => h
  extra := fun env e h => h
  pool := fun env h => by
    unfold environment.withGasPool
    cases env.gasPool <;> exact h
  failed := fun env tx ctx now env1 err h hct => by
    obtain ⟨gp, hgp, hc | hc⟩ := commitTransaction_cases X env tx ctx now env1 _ hct
    · obtain ⟨_, _, he⟩ := hc
      rw [he]; exact h
    · obtain ⟨_, _, _, _, _, hr, _⟩ := hc
      cases hr
  counted := fun env tx ctx now env1 logs h hct => by
    obtain ⟨gp, hgp, hc | hc⟩ := commitTransaction_cases X env tx ctx now env1 _ hct
    · obtain ⟨_, hr, _⟩ := hc
      cases hr
    · obtain ⟨receipt, state, gasPool, usedGas, _, _, he⟩ := hc
      rw [he]
      obtain ⟨h1, h2⟩ := h
      refine ⟨?_, ?_⟩
      · simp [h1]
      · show env.profit + _ = feeSum X env.header.BaseFee (env.txs ++ [tx])
          (env.receipts ++ [receipt]) + extra
        rw [feeSum_append X _ _ _ _ _ h1, h2]
        ring

theorem built_profitIs (X : Ext) (env : environment) (hb : Built X env) : ProfitIs X 0 env := by
  have hP := profitIs_invariant X 0
  induction hb with
  | makeEnv parent header coinbase env h =>
    unfold makeEnv at h
    split at h
    · simp at h
    · simp only [Except.ok.injEq] at h
      rw [← h]
      simp [ProfitIs, feeSum]
  | commitTransaction env tx ctx now env1 r _ hct ih =>
    cases r with
    | error err => exact hP.failed _ _ _ _ _ _ ih hct
    | ok logs =>
      have := hP.counted _ _ _ _ _ _ ih hct
      exact this
  | commitTransactions w env txs interrupt ctx now r _ hr ih =>
    exact commitTransactions_inv hP ih hr
  | commitBundle w env txs interrupt ctx now r _ hr ih =>
    exact commitBundle_inv hP ih hr

theorem profitIs_totalFees (X : Ext) (extra : Int) (env : environment)
    (h : ProfitIs X extra env) :
    totalFees X { header := env.header, transactions := env.txs } env.receipts
      = .val (env.profit - extra) := by
  unfold totalFees
  rw [totalFeesFrom_eq X _ _ _ _ h.1, h.2]
  congr 1
  ring

theorem generateFlashbotsBundle_empty_zero (X : Ext) (w : worker) (env : environment)
    (bundles : List MevBundle) (interruptCtx : InterruptCtx) (now : Nat)
    (bundleTxs : List Transaction) (bundle : simulatedBundle) (n : Nat)
    (h : generateFlashbotsBundle X w env bundles interruptCtx now = .val (bundleTxs, bundle, n))
    (he : bundleTxs.length = 0) : bundle = simulatedBundle.zero := by
  unfold generateFlashbotsBundle at h
  split at h
  · simp at h
  · unfold mergeBundles at h
    split at h
    · simp at h
    · split at h
      · simp only [Ret.val.injEq, Prod.mk.injEq] at h
        exact h.2.1.symm
      · rename_i hne
        split at h
        · simp at h
        · simp only [Ret.val.injEq, Prod.mk.injEq] at h
          rw [← h.1] at he
          exact absurd (Or.inl he) hne

/-- C29, as stated, fails: in a world where the one bundle of the pool pays
1000 to the coinbase besides its fees, a worker in bundle mode whose interrupt
flag holds Resubmit merges that bundle, `commitBundle` returns
`errBundleInterrupted` before it applies anything, and `fillTransactions`
returns with a profit of zero, the sum of the fees, not 1000 above it; the
round of `commitWork` sends the block with that profit. -/
theorem fillTransactions_interrupted_bundle_profit :
    (demoBundleWorker 1).isFlashbots = true
    ∧ (payExt 1000 [demoBundle 1 5]).MevBundles demoWork.header.Number demoWork.header.Time
        = .ok [demoBundle 1 5]
    ∧ generateFlashbotsBundle (payExt 1000 [demoBundle 1 5]) (demoBundleWorker 1) demoWork
          [demoBundle 1 5] backgroundCtx 0
        = .val ([demoTx 1 5],
            { simulatedBundle.zero with
                mevGasPrice := 5, totalEth := 106000, ethSentToCoinbase := 1000
                totalGasUsed := 21000 }, 1)
    ∧ (∃ events, fillTransactions (payExt 1000 [demoBundle 1 5]) (demoBundleWorker 1)
          (some demoResubmit) demoWork backgroundCtx 0
        = .val ⟨demoWork, 1, events, some .errBundleInterrupted⟩)
    ∧ demoWork.profit = 0
    ∧ feeSum (payExt 1000 [demoBundle 1 5]) demoWork.header.BaseFee demoWork.txs
        demoWork.receipts = 0
    ∧ (∃ w events, commitWork (payExt 1000 [demoBundle 1 5]) (demoBundleWorker 1)
          (some demoResubmit) true 2000 demoNotFired 0 = .val (w, events)
        ∧ tasksSent events = [{ demoEmptyTask with isFlashbots := true, worker := 1 }]) := by
  refine ⟨rfl, rfl, rfl, ⟨_, rfl⟩, rfl, rfl, _, _, rfl, rfl⟩

/-- C29, corrected: for every environment made by `makeEnv` and taken through
any sequence of `commitTransaction`, `commitTransactions` and `commitBundle`
calls, there are as many receipts as transactions, the profit is the sum over
the indices of the gas used by the receipt times the effective tip of the
transaction under the base fee of the header, and `totalFees` of a block with
that header and these transactions returns it.  When `fillTransactions` runs
on such an environment in bundle mode: with an empty merge the environment is
returned as it is and the merged bundle sends nothing to the coinbase; when
`commitBundle` applies the merged bundle without error, the profit is that sum
plus the `ethSentToCoinbase` of the merged bundle; when `commitBundle` returns
an error, `fillTransactions` returns what it returned and the profit is the
sum alone. -/
theorem profit_is_fees_plus_bundle (X : Ext) (env : environment) (hb : Built X env) :
    env.txs.length = env.receipts.length
    ∧ env.profit = feeSum X env.header.BaseFee env.txs env.receipts
    ∧ totalFees X { header := env.header, transactions := env.txs } env.receipts
        = .val env.profit
    ∧ ∀ (w : worker) (interrupt : InterruptFlag) (interruptCtx : InterruptCtx) (now : Nat)
        (bundles : List MevBundle) (bundleTxs : List Transaction) (bundle : simulatedBundle)
        (n : Nat) (r : CommitResult),
        w.isFlashbots = true →
        X.MevBundles env.header.Number env.header.Time = .ok bundles →
        generateFlashbotsBundle X w env bundles interruptCtx now = .val (bundleTxs, bundle, n) →
        fillTransactions X w interrupt env interruptCtx now = .val r →
        r.env.txs.length = r.env.receipts.length
        ∧ (bundleTxs = [] → r.env = env ∧ bundle.ethSentToCoinbase = 0)
        ∧ (bundleTxs ≠ [] →
            ∃ c : CommitResult,
              commitBundle X w env bundleTxs interrupt interruptCtx now = .val c
              ∧ (c.err = none →
                  r.env.profit
                      = feeSum X r.env.header.BaseFee r.env.txs r.env.receipts
                        + bundle.ethSentToCoinbase
                  ∧ totalFees X { header := r.env.header, transactions := r.env.txs }
                        r.env.receipts
                      = .val (r.env.profit - bundle.ethSentToCoinbase))
              ∧ (c.err ≠ none →
                  r = c
                  ∧ r.env.profit = feeSum X r.env.header.BaseFee r.env.txs r.env.receipts
                  ∧ totalFees X { header := r.env.header, transactions := r.env.txs }
                        r.env.receipts
                      = .val r.env.profit)) := by
  have h0 : ProfitIs X 0 env := built_profitIs X env hb
  have hfees : ∀ e : environment, ProfitIs X 0 e →
      e.profit = feeSum X e.header.BaseFee e.txs e.receipts
      ∧ totalFees X { header := e.header, transactions := e.txs } e.receipts = .val e.profit := by
    intro e he
    refine ⟨by rw [he.2]; ring, ?_⟩
    rw [profitIs_totalFees X 0 e he]
    congr 1
    ring
  refine ⟨h0.1, (hfees env h0).1, (hfees env h0).2, ?_⟩
  intro w interrupt interruptCtx now bundles bundleTxs bundle n r hf hm hg hr
  unfold fillTransactions at hr
  simp only [hf, if_true, hm, hg] at hr
  by_cases hlen : bundleTxs.length = 0
  · have hnil : bundleTxs = [] := List.length_eq_zero.1 hlen
    simp only [hlen, if_true, Ret.val.injEq] at hr
    rw [← hr]
    refine ⟨h0.1, fun _ => ⟨rfl, ?_⟩, fun hne => absurd hnil hne⟩
    rw [generateFlashbotsBundle_empty_zero X w env bundles interruptCtx now bundleTxs bundle n hg
      hlen]
    rfl
  · have hne : bundleTxs ≠ [] := fun h => hlen (by rw [h]; rfl)
    simp only [hlen, if_false] at hr
    cases hc : commitBundle X w env bundleTxs interrupt interruptCtx now with
    | panic => rw [hc] at hr; simp at hr
    | val c =>
      have hpc : ProfitIs X 0 c.env := commitBundle_inv (profitIs_invariant X 0) h0 hc
      obtain ⟨env1, now1, events1, err⟩ := c
      rw [hc] at hr
      cases err with
      | some e =>
        simp only [Ret.val.injEq] at hr
        rw [← hr]
        refine ⟨hpc.1, fun h => absurd h hne, fun _ => ⟨_, rfl, ?_, ?_⟩⟩
        · intro h; simp at h
        · intro _
          exact ⟨rfl, (hfees env1 hpc).1, (hfees env1 hpc).2⟩
      | none =>
        simp only at hr
        have hp1 : ProfitIs X bundle.ethSentToCoinbase
            { env1 with profit := env1.profit + bundle.ethSentToCoinbase } := by
          refine ⟨hpc.1, ?_⟩
          show env1.profit + bundle.ethSentToCoinbase = _
          rw [hpc.2]
          show _ = feeSum X env1.header.BaseFee env1.txs env1.receipts + bundle.ethSentToCoinbase
          ring
        split at hr
        · simp at hr
        · rename_i env3 now3 events3 err3 hord
          have hp3 : ProfitIs X bundle.ethSentToCoinbase env3 :=
            fillOrdinary_inv (profitIs_invariant X bundle.ethSentToCoinbase) hp1 hord
          simp only [Ret.val.injEq] at hr
          rw [← hr]
          refine ⟨hp3.1, fun h => absurd h hne, fun _ => ⟨_, rfl, ?_, ?_⟩⟩
          · intro _
            exact ⟨hp3.2, profitIs_totalFees X _ env3 hp3⟩
          · intro h; exact absurd rfl h

theorem profit_is_fees_plus_bundle_witness :
    Built (payExt 1000 [demoBundle 1 5]) demoWork
    ∧ (demoBundleWorker 1).isFlashbots = true
    ∧ (∃ r : CommitResult,
        fillTransactions (payExt 1000 [demoBundle 1 5]) (demoBundleWorker 1) none demoWork
            backgroundCtx 0 = .val r
        ∧ r.env.profit = 106000
        ∧ r.env.txs.length = r.env.receipts.length) := by
  have hb : Built (payExt 1000 [demoBundle 1 5]) demoWork :=
    Built.makeEnv (demoHeader 10 30000000 1000) demoWork.header 7 demoWork rfl
  refine ⟨hb, rfl, _, rfl, rfl, ?_⟩
  exact ((profit_is_fees_plus_bundle (payExt 1000 [demoBundle 1 5]) demoWork hb).2.2.2
    (demoBundleWorker 1) none backgroundCtx 0 [demoBundle 1 5] [demoTx 1 5]
    { simulatedBundle.zero with
        mevGasPrice := 5, totalEth := 106000, ethSentToCoinbase := 1000
        totalGasUsed := 21000 } 1 _ rfl rfl rfl rfl).1

/-! ## The dependencies written to the header -/

theorem readMaps_but_last (readMaps : List (List Nat)) (reads : List Nat) :
    (readMaps ++ [reads]).take ((readMaps ++ [reads]).length - 1) = readMaps := by
  simp

/-- C21: the code does not do this.  The loop that looks for a read of the
balance of the coinbase or of the burn contract takes the read maps of the
transactions `0 .. n-2` only: whatever the last transaction read, the outcome
is that of the read maps before it.  With one transaction that read the
balance of the coinbase the header gets the matrix with one row, not nil; with
two transactions of which the second read it the header gets two rows; with
two transactions of which the first read it the matrix is nil. -/
theorem commitTransactions_ignores_last_reader :
    (∀ (X : Ext) (env : environment) (deps : DepsMap) (readMaps : List (List Nat))
        (reads : List Nat),
        tempDepsFrom X env deps
            ((readMaps ++ [reads]).take ((readMaps ++ [reads]).length - 1)) 1
          = tempDepsFrom X env deps readMaps 1)
    ∧ (captureExt 1).NewSubpathKey demoEnv.coinbase (captureExt 1).BalancePath = 15
    ∧ (captureExt 1).EncodeBlockExtraData { ValidatorBytes := [], TxDependency := none }
        = .ok [192]
    ∧ (captureExt 1).EncodeBlockExtraData { ValidatorBytes := [], TxDependency := some [[]] }
        = .ok [194, 192]
    ∧ (∃ r : CommitResult,
        commitTransactions (captureExt 1) demoWorker (captureEnv [194, 192]) demoIter none none 0
          = .val r
        ∧ r.err = none ∧ r.env.txs = [demoTx 1 5] ∧ r.env.mvReadMapList = [[15]]
        ∧ r.env.header.Extra.bytes
            = List.replicate 32 1 ++ [194, 192] ++ List.replicate 65 9)
    ∧ (∃ r : CommitResult,
        commitTransactions (captureExt 2) demoWorker (captureEnv [195, 192, 192]) demoIterTwo
          none none 0 = .val r
        ∧ r.err = none ∧ r.env.txs = [demoTx 1 5, demoTx 2 5]
        ∧ r.env.mvReadMapList = [[], [15]]
        ∧ r.env.header.Extra.bytes
            = List.replicate 32 1 ++ [195, 192, 192] ++ List.replicate 65 9)
    ∧ (∃ r : CommitResult,
        commitTransactions (captureExt 1) demoWorker (captureEnv [195, 192, 192]) demoIterTwo
          none none 0 = .val r
        ∧ r.err = none ∧ r.env.txs = [demoTx 1 5, demoTx 2 5]
        ∧ r.env.mvReadMapList = [[15], []]
        ∧ r.env.header.Extra.bytes = List.replicate 32 1 ++ [192] ++ List.replicate 65 9) := by
  refine ⟨?_, rfl, rfl, rfl, ⟨_, rfl, rfl, rfl, rfl, rfl⟩, ⟨_, rfl, rfl, rfl, rfl, rfl⟩,
    ⟨_, rfl, rfl, rfl, rfl, rfl⟩⟩
  intro X env deps readMaps reads
  rw [readMaps_but_last readMaps reads]

/-- C22: the code does not do this.  `tempVanity` and `tempSeal` are slices of
the backing array of the old `Extra`, and `append(tempVanity, ...)` writes
into that array when it has room: a new encoding longer than the old middle
region runs over the start of the seal before the seal is appended.  With an
old middle of one byte and a new encoding of two bytes the first byte of the
seal in the new `Extra` is the last byte of the encoding. -/
theorem commitTransactions_longer_encoding_overwrites_seal :
    (captureEnv [192]).header.Extra.bytes = List.replicate 32 1 ++ [192] ++ List.replicate 65 9
    ∧ (captureExt 0).ExtraVanityLength = 32 ∧ (captureExt 0).ExtraSealLength = 65
    ∧ (∃ r : CommitResult,
        commitTransactions (captureExt 0) demoWorker (captureEnv [192]) demoIter none none 0
          = .val r
        ∧ r.err = none
        ∧ r.env.header.Extra.bytes
            = List.replicate 32 1 ++ [194, 192] ++ (192 :: List.replicate 64 9)
        ∧ r.env.header.Extra.bytes
            ≠ List.replicate 32 1 ++ [194, 192] ++ List.replicate 65 9
        ∧ r.env.header.Extra.bytes.drop (r.env.header.Extra.bytes.length - 65)
            ≠ (captureEnv [192]).header.Extra.bytes.drop
                ((captureEnv [192]).header.Extra.bytes.length - 65)) := by
  refine ⟨rfl, rfl, rfl, _, rfl, rfl, rfl, ?_, ?_⟩ <;> decide

end Miner
